import Mathlib

/-!
Verification model of `WebScraperX` (files `src/scrapping.py`, `src/main.py`).

The Python code is shallowly embedded: strings are `List Char` (Python `str`
is a sequence of unicode scalars), dictionaries with a known field set are
structures, `None`-able values are `Option`, exceptions are `Except PyErr`,
and external collaborators (HTTP providers, the address parser) are function
parameters, as §6 of the spec prescribes for testing.

The Identity Normalizer (`normalize_url`, scrapping.py lines 44–80) calls
`urllib.parse`; those library functions are modeled from the CPython 3.11
reference implementation of `urlparse`/`urlunparse`/`parse_qsl`/`urlencode`/
`quote_plus`/`unquote`.  Two standard shallow-embedding simplifications are
marked where they occur: `str.lower` is modeled on its ASCII action, and the
`_checknetloc` NFKC audit (a pure raise-or-pass check on exotic non-ASCII
hosts) is modeled as passing.
-/

namespace WebScraperX

/-- Python strings as lists of unicode scalar values. -/
abbrev Str := List Char

/-- Build a `Str` from a Lean string literal. -/
def str (s : String) : Str := s.data

/-- Python truthiness of an optional string: `None` and `""` are falsy. -/
def truthyO (a : Option Str) : Bool :=
  match a with
  | none => false
  | some s => !s.isEmpty

/-- Python truthiness of an optional string list ( `None` and `[]` falsy). -/
def truthyL (a : Option (List Str)) : Bool :=
  match a with
  | none => false
  | some l => !l.isEmpty

/-- Python `a or b` on optional strings: `b` when `a` is `None` or empty. -/
def pyOr (a b : Option Str) : Option Str := if truthyO a then a else b

/-- Python `a or b` on optional string lists. -/
def pyOrL (a b : Option (List Str)) : Option (List Str) := if truthyL a then a else b

/-- ASCII lowercase of one character, the action of Python `str.lower` on
ASCII text (non-ASCII letters are left unchanged in this model). -/
def lowerChar (c : Char) : Char := c.toLower

/-- Python `s.lower()` (ASCII model). -/
def lower (s : Str) : Str := s.map lowerChar

/-- Python whitespace class (`str.strip`, `\s`): ASCII space, tab, newline,
carriage return, vertical tab, form feed. -/
def isSpace (c : Char) : Bool :=
  c = ' ' || c = '\t' || c = '\n' || c = '\r' || c = '\x0b' || c = '\x0c'

/-- Python `s.lstrip()` default whitespace strip. -/
def lstrip (s : Str) : Str := s.dropWhile isSpace

/-- Python `s.rstrip()` default whitespace strip. -/
def rstrip (s : Str) : Str := (s.reverse.dropWhile isSpace).reverse

/-- Python `s.strip()`. -/
def strip (s : Str) : Str := rstrip (lstrip s)

/-- Python `s.rstrip("/")`: drop every trailing slash. -/
def rstripSlash (s : Str) : Str := (s.reverse.dropWhile (· = '/')).reverse

/-- Python `s.endswith(c)` for a single character. -/
def endsWithChar (c : Char) (s : Str) : Bool :=
  match s.getLast? with
  | some d => d = c
  | none => false

/-- Python `sub in s` substring test. -/
def substr (sub : Str) : Str → Bool
  | [] => sub.isEmpty
  | c :: tail => sub.isPrefixOf (c :: tail) || substr sub tail

/-- Python `s.split(sep, 1)` for a one-character separator, as the pair
(before the first `sep`, the rest after it); `none` when `sep` is absent. -/
def splitOnce (sep : Char) (s : Str) : Str × Option Str :=
  match s.findIdx? (· = sep) with
  | none => (s, none)
  | some i => (s.take i, some (s.drop (i + 1)))

end WebScraperX

namespace WebScraperX

/-! ### `urllib.parse` model (CPython 3.11)

`PyErr` covers the exceptions the modeled code can raise: `valueError` from
`urlsplit` host validation, and `unboundLocal` for reads of never-assigned
Python locals in `scrape_businesses`. -/

inductive PyErr where
  | valueError : PyErr
  | unboundLocal : PyErr
  deriving DecidableEq, Repr

instance {ε α : Type} [DecidableEq ε] [DecidableEq α] : DecidableEq (Except ε α) :=
  fun a b =>
    match a, b with
    | .ok x, .ok y =>
      if h : x = y then .isTrue (by rw [h]) else .isFalse (by simp [h])
    | .error x, .error y =>
      if h : x = y then .isTrue (by rw [h]) else .isFalse (by simp [h])
    | .ok _, .error _ => .isFalse (by simp)
    | .error _, .ok _ => .isFalse (by simp)

/-- Characters of `urllib.parse._WHATWG_C0_CONTROL_OR_SPACE`: code points
up to and including the space. -/
def isC0OrSpace (c : Char) : Bool := c.val ≤ 0x20

/-- Members of `urllib.parse._UNSAFE_URL_BYTES_TO_REMOVE` (tab, CR, LF). -/
def isUnsafeUrlChar (c : Char) : Bool := c = '\t' || c = '\r' || c = '\n'

/-- Characters of `urllib.parse.scheme_chars`. -/
def isSchemeChar (c : Char) : Bool :=
  c.isAlpha || c.isDigit || c = '+' || c = '-' || c = '.'

/-- First character test of the scheme rule:
`url[0].isascii() and url[0].isalpha()`. -/
def isAsciiAlpha (c : Char) : Bool := ('a' ≤ c && c ≤ 'z') || ('A' ≤ c && c ≤ 'Z')

/-- Scheme split of `urlsplit`: when the text before the first `:` is a
well-formed scheme, return it lowercased together with the remainder,
otherwise return no scheme and the whole input. -/
def splitScheme (u : Str) : Str × Str :=
  match u.findIdx? (· = ':') with
  | none => ([], u)
  | some i =>
    if 0 < i ∧ (u.head?.elim false isAsciiAlpha) ∧ (u.take i).all isSchemeChar then
      (lower (u.take i), u.drop (i + 1))
    else
      ([], u)

/-- Netloc delimiters of `urllib.parse._splitnetloc`. -/
def isNetlocDelim (c : Char) : Bool := c = '/' || c = '?' || c = '#'

/-- `urllib.parse._splitnetloc(url, 2)`: the text after the leading `//` up
to the first `/`, `?`, or `#`, and the rest starting at that delimiter. -/
def splitNetloc (u : Str) : Str × Str :=
  ((u.drop 2).takeWhile (fun c => !isNetlocDelim c),
   (u.drop 2).dropWhile (fun c => !isNetlocDelim c))

/-- Hex digit test (both cases), as used by bracketed-host validation. -/
def isHexDigit (c : Char) : Bool :=
  c.isDigit || ('a' ≤ c && c ≤ 'f') || ('A' ≤ c && c ≤ 'F')

/-- Validation of a bracketed (IPv6/IPvFuture) host, modeling
`urllib.parse._check_bracketed_host`: a `v`-prefixed IPvFuture per the
regex `\Av[a-fA-F0-9]+\..+\Z`, or text drawn from the IPv6 literal
alphabet (hex digits, `:`, `.`) containing a colon.  The full
`ipaddress.ip_address` grammar is abbreviated to this alphabet test; it
agrees with CPython on hosts the normalizer's callers produce, and both
models raise-or-pass identically under lowercasing, which is all the
theorems below use. -/
def bracketedHostOk (h : Str) : Bool :=
  match h with
  | 'v' :: rest =>
    let hexPart := rest.takeWhile isHexDigit
    let after := rest.dropWhile isHexDigit
    !hexPart.isEmpty && (after.head? = some '.') && !(after.drop 1).isEmpty
  | _ => h.all (fun c => isHexDigit c || c = ':' || c = '.' || c = '%') && h.contains ':'

/-- Bracket validation of `urlsplit` on a parsed netloc: mismatched `[`/`]`
raise, and a balanced pair must enclose a valid bracketed host. -/
def checkNetlocBrackets (netloc : Str) : Except PyErr Unit :=
  let hasL := netloc.contains '['
  let hasR := netloc.contains ']'
  if (hasL && !hasR) || (hasR && !hasL) then
    .error .valueError
  else if hasL && hasR then
    let bracketed := ((netloc.dropWhile (· ≠ '[')).drop 1).takeWhile (· ≠ ']')
    if bracketedHostOk bracketed then .ok () else .error .valueError
  else
    .ok ()

/-- Result record of `urlsplit`. -/
structure UrlSplitRes where
  scheme : Str
  netloc : Str
  path : Str
  query : Str
  fragment : Str
  deriving DecidableEq, Repr

/-- Model of `urllib.parse.urlsplit(url)` (CPython 3.11): lstrip of
C0-control-or-space, removal of tab/CR/LF, scheme split, netloc split with
bracket validation, then fragment and query splits (fragment first).  The
`_checknetloc` NFKC audit passes in this model (it can only raise for
non-ASCII netlocs). -/
def urlsplitM (url : Str) : Except PyErr UrlSplitRes := do
  let u := url.dropWhile isC0OrSpace
  let u := u.filter (fun c => !isUnsafeUrlChar c)
  let (scheme, u) := splitScheme u
  let (netloc, u) :=
    if ['/', '/'].isPrefixOf u then splitNetloc u else ([], u)
  let _ ← checkNetlocBrackets netloc
  let (u, fragment) := splitOnce '#' u
  let fragment := fragment.getD []
  let (u, query) := splitOnce '?' u
  let query := query.getD []
  .ok ⟨scheme, netloc, u, query, fragment⟩

/-- Members of `urllib.parse.uses_params`. -/
def usesParams : List Str :=
  [str "", str "ftp", str "hdl", str "prospero", str "http", str "imap",
   str "https", str "shttp", str "rtsp", str "rtsps", str "rtspu", str "sip",
   str "sips", str "mms", str "sftp", str "tel"]

/-- Members of `urllib.parse.uses_netloc`. -/
def usesNetloc : List Str :=
  [str "", str "ftp", str "http", str "gopher", str "nntp", str "telnet",
   str "imap", str "wais", str "file", str "mms", str "https", str "shttp",
   str "snews", str "prospero", str "rtsp", str "rtsps", str "rtspu",
   str "rsync", str "svn", str "svn+ssh", str "sftp", str "nfs", str "git",
   str "git+ssh", str "ws", str "wss"]

/-- Model of `urllib.parse._splitparams`: split `;params` off the last path
segment (off the whole path when it has no `/`). -/
def splitParams (p : Str) : Str × Str :=
  if p.contains '/' then
    let lastSeg := (p.reverse.takeWhile (· ≠ '/')).reverse
    match lastSeg.findIdx? (· = ';') with
    | none => (p, [])
    | some j =>
      let i := (p.length - lastSeg.length) + j
      (p.take i, p.drop (i + 1))
  else
    match p.findIdx? (· = ';') with
    | none => (p, [])
    | some i => (p.take i, p.drop (i + 1))

/-- Result record of `urlparse` (a `UrlSplitRes` plus path params). -/
structure UrlParseRes where
  scheme : Str
  netloc : Str
  path : Str
  params : Str
  query : Str
  fragment : Str
  deriving DecidableEq, Repr

/-- Model of `urllib.parse.urlparse(url)`: `urlsplit` followed by the
params split, gated on `scheme in uses_params`. -/
def urlparseM (url : Str) : Except PyErr UrlParseRes := do
  let s ← urlsplitM url
  let (path, params) :=
    if usesParams.contains s.scheme ∧ s.path.contains ';' then
      splitParams s.path
    else
      (s.path, [])
  .ok ⟨s.scheme, s.netloc, path, params, s.query, s.fragment⟩

/-- Model of `urllib.parse.urlunsplit` (CPython 3.11): the `//` is emitted
when a netloc is present, or when the scheme is a known netloc-using scheme
and the path does not already begin with `//`. -/
def urlunsplitM (scheme netloc path query fragment : Str) : Str :=
  let u := path
  let u :=
    if !netloc.isEmpty ||
       (!scheme.isEmpty && usesNetloc.contains scheme && !(['/', '/'].isPrefixOf u)) then
      let u := if !u.isEmpty ∧ u.head? ≠ some '/' then '/' :: u else u
      '/' :: '/' :: (netloc ++ u)
    else u
  let u := if !scheme.isEmpty then scheme ++ ':' :: u else u
  let u := if !query.isEmpty then u ++ '?' :: query else u
  if !fragment.isEmpty then u ++ '#' :: fragment else u

/-! ### Percent-encoding (`quote_plus` / `unquote`), UTF-8, `parse_qsl`,
`urlencode`, and the stable key sort used by `normalize_url`. -/

/-- Characters of `urllib.parse._ALWAYS_SAFE` (letters, digits, `_.-~`),
which `quote` leaves unencoded when called with an empty `safe` set. -/
def isAlwaysSafe (c : Char) : Bool :=
  c.isAlpha || c.isDigit || c = '_' || c = '.' || c = '-' || c = '~'

/-- UTF-8 encoding of one unicode scalar, as `str.encode("utf-8")`. -/
def utf8Bytes (c : Char) : List Nat :=
  let v := c.toNat
  if v < 0x80 then [v]
  else if v < 0x800 then [0xC0 + v / 64, 0x80 + v % 64]
  else if v < 0x10000 then
    [0xE0 + v / 4096, 0x80 + (v / 64) % 64, 0x80 + v % 64]
  else
    [0xF0 + v / 262144, 0x80 + (v / 4096) % 64, 0x80 + (v / 64) % 64,
     0x80 + v % 64]

/-- Uppercase hexadecimal digit, as `quote`'s `%02X` byte formatting. -/
def hexUpper (n : Nat) : Char :=
  if n < 10 then Char.ofNat ('0'.toNat + n) else Char.ofNat ('A'.toNat + n - 10)

/-- Percent-escape of one byte. -/
def pctByte (b : Nat) : Str := ['%', hexUpper (b / 16), hexUpper (b % 16)]

/-- Action of `urllib.parse.quote_plus(s, safe="")` on one character: safe
characters pass, a space becomes `+`, anything else is percent-escaped
byte-by-byte from its UTF-8 encoding. -/
def quotePlusChar (c : Char) : Str :=
  if isAlwaysSafe c then [c]
  else if c = ' ' then ['+']
  else (utf8Bytes c).flatMap pctByte

/-- Model of `urllib.parse.quote_plus(s, safe="")`, the `quote_via` that
`urlencode` applies to every key and value. -/
def quotePlus (s : Str) : Str := s.flatMap quotePlusChar

/-- Character alphabet of `quotePlus` output: safe characters, `+`, `%`,
and the uppercase-hex digit characters of percent escapes. -/
def qpAllowed (c : Char) : Bool :=
  isAlwaysSafe c || c = '+' || c = '%' || c.isDigit || ('A' ≤ c && c ≤ 'F')

/-- Character alphabet of `urlencode` output: `quotePlus` output plus the
`=` and `&` separators. -/
def queryAllowed (c : Char) : Bool := qpAllowed c || c = '=' || c = '&'

/-- Numeric value of a hexadecimal digit (either case). -/
def hexVal (c : Char) : Option Nat :=
  if '0' ≤ c ∧ c ≤ '9' then some (c.toNat - '0'.toNat)
  else if 'a' ≤ c ∧ c ≤ 'f' then some (c.toNat - 'a'.toNat + 10)
  else if 'A' ≤ c ∧ c ≤ 'F' then some (c.toNat - 'A'.toNat + 10)
  else none

/-- Percent-decoding of an ASCII run to bytes, modeling
`urllib.parse.unquote_to_bytes`: `%` followed by two hex digits decodes to
one byte, any other `%` stays literal, other characters keep their codes. -/
def pctDecodeBytes : Str → List Nat
  | [] => []
  | '%' :: a :: b :: rest =>
    match hexVal a, hexVal b with
    | some ha, some hb => (ha * 16 + hb) :: pctDecodeBytes rest
    | _, _ => '%'.toNat :: pctDecodeBytes (a :: b :: rest)
  | '%' :: rest => '%'.toNat :: pctDecodeBytes rest
  | c :: rest => c.toNat :: pctDecodeBytes rest

/-- Continuation-byte test for UTF-8 decoding. -/
def isCont (b : Nat) : Bool := 0x80 ≤ b && b ≤ 0xBF

/-- Range constraint on the first continuation byte of a 3-byte sequence
(excludes overlong forms and surrogates, as CPython's strict decoder). -/
def cont3Ok (hd b : Nat) : Bool :=
  if hd = 0xE0 then 0xA0 ≤ b && b ≤ 0xBF
  else if hd = 0xED then 0x80 ≤ b && b ≤ 0x9F
  else isCont b

/-- Range constraint on the first continuation byte of a 4-byte sequence. -/
def cont4Ok (hd b : Nat) : Bool :=
  if hd = 0xF0 then 0x90 ≤ b && b ≤ 0xBF
  else if hd = 0xF4 then 0x80 ≤ b && b ≤ 0x8F
  else isCont b

/-- The U+FFFD replacement character. -/
def replChar : Char := Char.ofNat 0xFFFD

/-- UTF-8 decoding of a byte sequence with `errors="replace"`, as
`bytes.decode("utf-8", "replace")`: well-formed sequences decode to their
scalar, and each maximal subpart of an ill-formed sequence becomes one
replacement character. -/
def utf8DecodeReplace : List Nat → Str
  | [] => []
  | b :: rest =>
    if b < 0x80 then Char.ofNat b :: utf8DecodeReplace rest
    else if 0xC2 ≤ b ∧ b ≤ 0xDF then
      match rest with
      | [] => [replChar]
      | b1 :: rest1 =>
        if isCont b1 then
          Char.ofNat ((b - 0xC0) * 64 + (b1 - 0x80)) :: utf8DecodeReplace rest1
        else replChar :: utf8DecodeReplace (b1 :: rest1)
    else if 0xE0 ≤ b ∧ b ≤ 0xEF then
      match rest with
      | [] => [replChar]
      | b1 :: rest1 =>
        if cont3Ok b b1 then
          match rest1 with
          | [] => [replChar]
          | b2 :: rest2 =>
            if isCont b2 then
              Char.ofNat ((b - 0xE0) * 4096 + (b1 - 0x80) * 64 + (b2 - 0x80)) ::
                utf8DecodeReplace rest2
            else replChar :: utf8DecodeReplace (b2 :: rest2)
        else replChar :: utf8DecodeReplace (b1 :: rest1)
    else if 0xF0 ≤ b ∧ b ≤ 0xF4 then
      match rest with
      | [] => [replChar]
      | b1 :: rest1 =>
        if cont4Ok b b1 then
          match rest1 with
          | [] => [replChar]
          | b2 :: rest2 =>
            if isCont b2 then
              match rest2 with
              | [] => [replChar]
              | b3 :: rest3 =>
                if isCont b3 then
                  Char.ofNat ((b - 0xF0) * 262144 + (b1 - 0x80) * 4096 +
                              (b2 - 0x80) * 64 + (b3 - 0x80)) :: utf8DecodeReplace rest3
                else replChar :: utf8DecodeReplace (b3 :: rest3)
            else replChar :: utf8DecodeReplace (b2 :: rest2)
        else replChar :: utf8DecodeReplace (b1 :: rest1)
    else replChar :: utf8DecodeReplace rest

/-- ASCII test of `urllib.parse._asciire` (code point below 128). -/
def isAsciiChar (c : Char) : Bool := c.toNat < 0x80

/-- Run phase of `urllib.parse.unquote`: maximal ASCII runs are
percent-decoded and UTF-8-decoded as one unit, non-ASCII characters pass
through unchanged. -/
def unquoteRuns : Str → Str
  | [] => []
  | c :: rest =>
    if h : isAsciiChar c then
      utf8DecodeReplace (pctDecodeBytes ((c :: rest).takeWhile isAsciiChar)) ++
        unquoteRuns ((c :: rest).dropWhile isAsciiChar)
    else
      c :: unquoteRuns rest
termination_by l => l.length
decreasing_by
  · simp only [List.dropWhile_cons, h, if_true, List.length_cons]
    have hle : ∀ (l : Str), (l.dropWhile isAsciiChar).length ≤ l.length := by
      intro l
      induction l with
      | nil => simp
      | cons a t ih =>
        simp only [List.dropWhile_cons]
        split
        · exact Nat.le_succ_of_le ih
        · exact Nat.le_refl _
    exact Nat.lt_succ_of_le (hle _)
  · simp

/-- Model of `urllib.parse.unquote(s)` (default UTF-8, `errors="replace"`):
unchanged when no `%` occurs, otherwise decoded run by run. -/
def unquote (s : Str) : Str :=
  if !s.contains '%' then s else unquoteRuns s

/-- Model of the `s.replace("+", " ")` then `unquote` combination that
`parse_qsl` applies to each name and value. -/
def unquotePlus (s : Str) : Str :=
  unquote (s.map (fun c => if c = '+' then ' ' else c))

/-- Model of `urllib.parse.parse_qsl(qs, keep_blank_values=True)`: split on
`&`, skip empty pieces, split each piece once on `=` (a missing `=` yields
a blank value), and `+`/percent-decode both sides. -/
def parseQsl (qs : Str) : List (Str × Str) :=
  let pieces := if qs.isEmpty then [] else qs.splitOn '&'
  pieces.filterMap (fun nv =>
    if nv.isEmpty then none
    else
      let (n, v) := splitOnce '=' nv
      some (unquotePlus n, unquotePlus (v.getD [])))

/-- Model of `urllib.parse.urlencode(q, doseq=True)` on string pairs. -/
def urlencodePairs (l : List (Str × Str)) : Str :=
  List.intercalate ['&'] (l.map (fun kv => quotePlus kv.1 ++ '=' :: quotePlus kv.2))

/-- Code-point lexicographic strict order on strings, the order Python's
`<` uses on `str` and hence `list.sort(key=...)` sorts by. -/
def lexLt : Str → Str → Bool
  | [], [] => false
  | [], _ :: _ => true
  | _ :: _, [] => false
  | a :: as, b :: bs => if a < b then true else if b < a then false else lexLt as bs

/-- Insertion of a pair into a sorted run, after all pairs whose key is not
strictly greater — the placement a stable sort gives equal keys. -/
def insertPair (x : Str × Str) : List (Str × Str) → List (Str × Str)
  | [] => [x]
  | y :: ys => if lexLt x.1 y.1 then x :: y :: ys else y :: insertPair x ys

/-- Model of `q.sort(key=lambda kv: kv[0])`: the stable sort by key (left
fold of stable insertion, which agrees with Python's stable sort). -/
def sortPairs (l : List (Str × Str)) : List (Str × Str) :=
  l.foldl (fun acc x => insertPair x acc) []

/-- Key order of two query pairs: the first key is not strictly greater —
the sortedness `sortPairs` guarantees between neighbours. -/
def keyLe (a b : Str × Str) : Prop := lexLt b.1 a.1 = false

/-! ### The Identity Normalizer (`normalize_url`, scrapping.py 44–80) -/

/-- Members of `TRACKING_QUERY_KEYS` (scrapping.py line 23). -/
def trackingKeys : List Str :=
  [str "gclid", str "fbclid", str "mc_cid", str "mc_eid"]

/-- Query keys dropped by the normalizer: exact members of
`TRACKING_QUERY_KEYS` or a `TRACKING_QUERY_PREFIXES` (`utm_`) prefix. -/
def isTrackingKey (k : Str) : Bool :=
  trackingKeys.contains k || (str "utm_").isPrefixOf k

/-- The four reassembled components the normalizer computes before
`urlunparse`: scheme, lowercased `www.`-stripped netloc, slash-normalized
path, and the filtered, sorted, re-encoded query. -/
structure NormParts where
  scheme : Str
  netloc : Str
  path : Str
  query : Str
  deriving DecidableEq, Repr

/-- Component computation of `normalize_url` (scrapping.py 56–74): the
parse plus the four normalization passes, before reassembly. -/
def normParts (u : Str) : Except PyErr NormParts := do
  let p ← urlparseM u
  let netloc := lower p.netloc
  let netloc := if (str "www.").isPrefixOf netloc then netloc.drop 4 else netloc
  let path := if p.path.isEmpty then str "/" else p.path
  let path :=
    if path ≠ str "/" ∧ endsWithChar '/' path then rstripSlash path else path
  let q := (parseQsl p.query).filter (fun kv => !isTrackingKey kv.1)
  let q := sortPairs q
  .ok ⟨p.scheme, netloc, path, urlencodePairs q⟩

/-- Model of `normalize_url` (scrapping.py 44–80): `None` for a falsy
input; on success the reassembly `urlunparse((scheme, netloc, path, "",
query, ""))` of the normalized components; on any exception the original
string unchanged. -/
def normalize_url (url : Option Str) : Option Str :=
  match url with
  | none => none
  | some u =>
    if u.isEmpty then none
    else
      match normParts u with
      | .ok parts => some (urlunsplitM parts.scheme parts.netloc parts.path parts.query [])
      | .error _ => some u

/-- Invariants of a normalized component quadruple under which the
reassembled URL re-parses to the same components: the first block is
established by `normParts` on every success, the `netloc_nowww`,
`path_ne`, `path_noparams` and `path_no_dslash` fields are the amended
claim's four side conditions. -/
structure StableParts (parts : NormParts) : Prop where
  scheme_wf : parts.scheme = [] ∨
    (lower parts.scheme = parts.scheme ∧ parts.scheme.all isSchemeChar = true ∧
     parts.scheme.head?.elim false isAsciiAlpha = true)
  netloc_no_delim : ∀ x ∈ parts.netloc, isNetlocDelim x = false
  netloc_no_unsafe : ∀ x ∈ parts.netloc, isUnsafeUrlChar x = false
  netloc_lower : lower parts.netloc = parts.netloc
  netloc_brackets : checkNetlocBrackets parts.netloc = Except.ok ()
  netloc_nowww : (str "www.").isPrefixOf parts.netloc = false
  path_no_hash : ∀ x ∈ parts.path, ¬x = '#'
  path_no_q : ∀ x ∈ parts.path, ¬x = '?'
  path_no_unsafe : ∀ x ∈ parts.path, isUnsafeUrlChar x = false
  path_ne : parts.path ≠ []
  path_slash : parts.path = str "/" ∨ endsWithChar '/' parts.path = false
  path_noparams : (parts.path.reverse.takeWhile (fun c => c ≠ '/')).contains ';' = false
  path_no_dslash : ¬(parts.netloc = [] ∧ ['/', '/'].isPrefixOf parts.path)
  path_head : parts.scheme = [] → parts.netloc = [] →
    ∀ c, parts.path.head? = some c → isC0OrSpace c = false
  path_noscheme : parts.scheme = [] → parts.netloc = [] →
    ∀ x, (∀ ch ∈ x, ¬ch = ':') → splitScheme (parts.path ++ x) = ([], parts.path ++ x)
  query_enc : ∃ L, List.Pairwise keyLe L ∧ (∀ kv ∈ L, isTrackingKey kv.1 = false) ∧
    parts.query = urlencodePairs L

/-! ### Title cleaning (`clean_business_name` / `domain_to_name`,
scrapping.py 179–214) -/

/-- Named entities of the `html.unescape` model.  The source calls
`html.unescape`, whose full table has thousands of names; this model
covers the common XML/HTML core plus numeric references, which is the
action relevant to the title-cleaning contract (titles without `&` pass
through unchanged under both). -/
def namedEntities : List (Str × Str) :=
  [(str "amp", str "&"), (str "lt", str "<"), (str "gt", str ">"),
   (str "quot", str "\""), (str "apos", str "\x27"), (str "nbsp", [Char.ofNat 0xA0])]

/-- Replacement text of one `&...;` entity body, or `none` when it is not
recognized: a named entity from the table, `#ddd` decimal, or `#xhh` hex. -/
def entityValue (name : Str) : Option Str :=
  match (namedEntities.find? (fun e => e.1 = name)).map (·.2) with
  | some v => some v
  | none =>
    match name with
    | '#' :: 'x' :: ds =>
      if !ds.isEmpty ∧ ds.all isHexDigit then
        some [Char.ofNat (ds.foldl (fun a c => a * 16 + ((hexVal c).getD 0)) 0 % 0x110000)]
      else none
    | '#' :: ds =>
      if !ds.isEmpty ∧ ds.all Char.isDigit then
        some [Char.ofNat (ds.foldl (fun a c => a * 10 + (c.toNat - '0'.toNat)) 0 % 0x110000)]
      else none
    | _ => none

/-- Recursion engine of `htmlUnescape`, driven by a character-count fuel:
every step consumes at least one input character, so fuel `s.length`
evaluates the whole string. -/
def htmlUnescapeF : Nat → Str → Str
  | 0, s => s
  | _ + 1, [] => []
  | fuel + 1, '&' :: rest =>
    let body := rest.takeWhile (· ≠ ';')
    if body.length < rest.length then
      match entityValue body with
      | some v => v ++ htmlUnescapeF fuel (rest.drop (body.length + 1))
      | none => '&' :: htmlUnescapeF fuel rest
    else '&' :: htmlUnescapeF fuel rest
  | fuel + 1, c :: rest => c :: htmlUnescapeF fuel rest

/-- Model of `html.unescape` (entity subset per `namedEntities`): each
`&body;` whose body is recognized is replaced, everything else passes
through. -/
def htmlUnescape (s : Str) : Str := htmlUnescapeF s.length s

/-- Model of `t.replace("–", "-")`: normalize the en dash to a hyphen. -/
def normalizeDashes (s : Str) : Str := s.map (fun c => if c = '–' then '-' else c)

/-- Characters of the `re.split(r"\s*[\-|\|]\s*", t)` separator class: the
character class `[\-|\|]` contains exactly the hyphen and the pipe. -/
def isSepChar (c : Char) : Bool := c = '-' || c = '|'

/-- Head segment of `re.split(r"\s*[\-|\|]\s*", t)`: when a separator
character occurs, the text before it with the immediately preceding
whitespace run removed (the regex's leftmost match starts at that run);
otherwise the whole string. -/
def splitHead (t : Str) : Str :=
  let pre := t.takeWhile (fun c => !isSepChar c)
  if pre.length = t.length then t else (pre.reverse.dropWhile isSpace).reverse

/-- Members of the `generic` set in `clean_business_name`. -/
def genericWords : List Str :=
  [str "about", str "services", str "home", str "faq", str "contact"]

/-- Recursion engine of `collapseWs`, driven by a character-count fuel:
every step consumes at least one input character, so fuel `s.length`
evaluates the whole string. -/
def collapseWsF : Nat → Str → Str
  | 0, s => s
  | _ + 1, [] => []
  | fuel + 1, c :: rest =>
    if isSpace c then ' ' :: collapseWsF fuel (rest.dropWhile isSpace)
    else c :: collapseWsF fuel rest

/-- Model of `re.sub(r"\s+", " ", s)`: each maximal whitespace run becomes
one space. -/
def collapseWs (s : Str) : Str := collapseWsF s.length s

/-- Recursion engine of `replaceStr`, driven by a character-count fuel:
every step consumes at least one input character (a matched pattern is
nonempty), so fuel `s.length` evaluates the whole string. -/
def replaceStrF (pat rep : Str) : Nat → Str → Str
  | 0, s => s
  | _ + 1, [] => []
  | fuel + 1, c :: rest =>
    if pat.isPrefixOf (c :: rest) ∧ !pat.isEmpty then
      rep ++ replaceStrF pat rep fuel ((c :: rest).drop pat.length)
    else c :: replaceStrF pat rep fuel rest

/-- Model of Python `str.replace(pat, rep)`: replace every non-overlapping
occurrence left to right (`pat` assumed nonempty, as at both call sites). -/
def replaceStr (pat rep s : Str) : Str := replaceStrF pat rep s.length s

/-- ASCII uppercase of one character (the `str.title` action on ASCII). -/
def upperChar (c : Char) : Char := c.toUpper

/-- Model of Python `str.title` (ASCII letters as the cased class): the
first letter after a non-letter is uppercased, further letters of the word
are lowercased. -/
def pyTitleAux (prevCased : Bool) : Str → Str
  | [] => []
  | c :: rest =>
    if isAsciiAlpha c then
      (if prevCased then lowerChar c else upperChar c) :: pyTitleAux true rest
    else c :: pyTitleAux false rest

/-- Python `s.title()` (ASCII model). -/
def pyTitle (s : Str) : Str := pyTitleAux false s

/-- Model of `domain_to_name` (scrapping.py 208–214): netloc of the parsed
URL, `www.` occurrences removed, first dot label, hyphens to spaces,
title-case; `"Unknown"` when the parse raises. -/
def domain_to_name (url : Option Str) : Str :=
  match urlparseM (url.getD []) with
  | .error _ => str "Unknown"
  | .ok p =>
    let domain := replaceStr (str "www.") [] p.netloc
    let firstLabel := (domain.splitOn '.').headD []
    pyTitle (replaceStr (str "-") (str " ") firstLabel)

/-- Model of `clean_business_name` (scrapping.py 179–206): domain fallback
for a falsy title; otherwise unescape entities, normalize dashes, keep the
head segment of the separator split, and either fall back to the domain
name (trimmed remainder under 3 characters or generic) or return the
whitespace-collapsed trimmed remainder. -/
def clean_business_name (title url : Option Str) : Str :=
  if !truthyO title then domain_to_name url
  else
    let t := htmlUnescape (title.getD [])
    let t := normalizeDashes t
    let t := splitHead t
    let ts := strip t
    if ts.length < 3 ∨ genericWords.contains (lower ts) then domain_to_name url
    else collapseWs ts

/-- Index of the first claim-side separator occurrence: the claim reads
"splits ... only on `\x22 - \x22`, `\x22 | \x22`, or `–` separators". -/
def claimSepStart (t : Str) : Option Nat :=
  (List.range t.length).find? (fun i =>
    (str " - ").isPrefixOf (t.drop i) || (str " | ").isPrefixOf (t.drop i) ||
    (str "–").isPrefixOf (t.drop i))

/-- Claim-side head segment: the text before the first ` - `, ` | ` or `–`
separator (the whole string when none occurs). -/
def splitHeadSpec (t : Str) : Str :=
  match claimSepStart t with
  | none => t
  | some i => t.take i

/-- Title cleaner as the C7 claim words it (refinement comparison
definition): identical to `clean_business_name` except that the head
segment is cut only at a ` - `, ` | ` or `–` separator. -/
def clean_business_name_spec (title url : Option Str) : Str :=
  if !truthyO title then domain_to_name url
  else
    let t := htmlUnescape (title.getD [])
    let t := normalizeDashes t
    let t := splitHeadSpec t
    let ts := strip t
    if ts.length < 3 ∨ genericWords.contains (lower ts) then domain_to_name url
    else collapseWs ts

/-! ### Records and the Record Merger (scrapping.py 629–671) -/

/-- The enrichment dictionary built by `extract_from_html` (its key set,
scrapping.py 310–328). -/
structure EnrichRecord where
  center_name : Option Str
  address : Option Str
  city : Option Str
  state : Option Str
  country : Option Str
  zipcode : Option Str
  email : Option Str
  website : Option Str
  websiteurl : Option Str
  phone : Option Str
  whatsapp : Option Str
  facebookurl : Option Str
  instagramurl : Option Str
  twitterurl : Option Str
  tiktokurl : Option Str
  linkedinurl : Option Str
  services : Option (List Str)
  deriving DecidableEq, Repr

/-- The empty enrichment dictionary (every field `None`). -/
def emptyEnrich : EnrichRecord :=
  ⟨none, none, none, none, none, none, none, none, none, none, none, none,
   none, none, none, none, none⟩

/-- The `record` dictionary built per candidate (scrapping.py 629–651). -/
structure Record where
  id : Nat
  business_name : Str
  url : Option Str
  snippet : Option Str
  center_name : Option Str
  address : Option Str
  city : Option Str
  state : Option Str
  country : Option Str
  zipcode : Option Str
  email : Option Str
  website : Option Str
  websiteurl : Option Str
  phone : Option Str
  whatsapp : Option Str
  facebookurl : Option Str
  instagramurl : Option Str
  twitterurl : Option Str
  tiktokurl : Option Str
  linkedinurl : Option Str
  services : Option (List Str)
  deriving DecidableEq, Repr

/-- One key's merge step (scrapping.py 670–671): `if k in enrich and
enrich[k]: record[k] = record.get(k) or enrich[k]` — every key of the loop
list is present in the enrichment dictionary, so the guard is the
truthiness of the enrichment value. -/
def mergeField (r e : Option Str) : Option Str :=
  if truthyO e then pyOr r e else r

/-- The merge step on the list-valued `services` key. -/
def mergeFieldL (r e : Option (List Str)) : Option (List Str) :=
  if truthyL e then pyOrL r e else r

/-- Model of the Record Merger (scrapping.py 663–671): the key loop over
the fixed field list, unrolled field by field. -/
def mergeRecord (r : Record) (e : EnrichRecord) : Record :=
  { r with
    center_name := mergeField r.center_name e.center_name,
    address := mergeField r.address e.address,
    city := mergeField r.city e.city,
    state := mergeField r.state e.state,
    country := mergeField r.country e.country,
    zipcode := mergeField r.zipcode e.zipcode,
    email := mergeField r.email e.email,
    website := mergeField r.website e.website,
    websiteurl := mergeField r.websiteurl e.websiteurl,
    phone := mergeField r.phone e.phone,
    whatsapp := mergeField r.whatsapp e.whatsapp,
    facebookurl := mergeField r.facebookurl e.facebookurl,
    instagramurl := mergeField r.instagramurl e.instagramurl,
    twitterurl := mergeField r.twitterurl e.twitterurl,
    tiktokurl := mergeField r.tiktokurl e.tiktokurl,
    linkedinurl := mergeField r.linkedinurl e.linkedinurl,
    services := mergeFieldL r.services e.services }

/-- Field values as one type, for field-indexed statements about the
merge. -/
inductive Val where
  | vnone : Val
  | vstr : Str → Val
  | vlist : List Str → Val
  deriving DecidableEq, Repr

/-- Injection of an optional string into `Val`. -/
def vOf (o : Option Str) : Val :=
  match o with
  | none => .vnone
  | some s => .vstr s

/-- Injection of an optional string list into `Val`. -/
def vOfL (o : Option (List Str)) : Val :=
  match o with
  | none => .vnone
  | some l => .vlist l

/-- Python truthiness on `Val`. -/
def truthyV : Val → Bool
  | .vnone => false
  | .vstr s => !s.isEmpty
  | .vlist l => !l.isEmpty

/-- The fixed key list the Record Merger iterates (scrapping.py 665–669). -/
inductive MergeKey where
  | center_name | address | city | state | country | zipcode | email
  | website | websiteurl | phone | whatsapp | facebookurl | instagramurl
  | twitterurl | tiktokurl | linkedinurl | services
  deriving DecidableEq, Repr

/-- Value of a merge-list key in a `Record`. -/
def getRec (k : MergeKey) (r : Record) : Val :=
  match k with
  | .center_name => vOf r.center_name
  | .address => vOf r.address
  | .city => vOf r.city
  | .state => vOf r.state
  | .country => vOf r.country
  | .zipcode => vOf r.zipcode
  | .email => vOf r.email
  | .website => vOf r.website
  | .websiteurl => vOf r.websiteurl
  | .phone => vOf r.phone
  | .whatsapp => vOf r.whatsapp
  | .facebookurl => vOf r.facebookurl
  | .instagramurl => vOf r.instagramurl
  | .twitterurl => vOf r.twitterurl
  | .tiktokurl => vOf r.tiktokurl
  | .linkedinurl => vOf r.linkedinurl
  | .services => vOfL r.services

/-- Value of a merge-list key in an `EnrichRecord`. -/
def getEnr (k : MergeKey) (e : EnrichRecord) : Val :=
  match k with
  | .center_name => vOf e.center_name
  | .address => vOf e.address
  | .city => vOf e.city
  | .state => vOf e.state
  | .country => vOf e.country
  | .zipcode => vOf e.zipcode
  | .email => vOf e.email
  | .website => vOf e.website
  | .websiteurl => vOf e.websiteurl
  | .phone => vOf e.phone
  | .whatsapp => vOf e.whatsapp
  | .facebookurl => vOf e.facebookurl
  | .instagramurl => vOf e.instagramurl
  | .twitterurl => vOf e.twitterurl
  | .tiktokurl => vOf e.tiktokurl
  | .linkedinurl => vOf e.linkedinurl
  | .services => vOfL e.services

/-! ### Enrichment Extractor: JSON-LD pass (scrapping.py 274–401) -/

/-- Model of the source helper `first(*vals)`: the first value that is a
nonempty string after stripping, returned stripped. -/
def firstF : List (Option Str) → Option Str
  | [] => none
  | v :: rest =>
    match v with
    | some s => if (strip s).isEmpty then firstF rest else some (strip s)
    | none => firstF rest

/-- The `address` sub-object of a JSON-LD block (the keys the extractor
reads). -/
structure LdAddress where
  streetAddress : Option Str
  address : Option Str
  addressLocality : Option Str
  locality : Option Str
  addressRegion : Option Str
  region : Option Str
  addressCountry : Option Str
  postalCode : Option Str
  deriving DecidableEq, Repr

/-- One entry of a `@graph` array (the keys the extractor reads; the
`typeName` field is the JSON `@type` key). -/
structure LdGraphEntry where
  typeName : Option Str
  sameAs : Option (List Str)
  email : Option Str
  deriving DecidableEq, Repr

/-- A `contactPoint` sub-object. -/
structure LdContact where
  email : Option Str
  deriving DecidableEq, Repr

/-- One structured-data object of the flattened JSON-LD list.  A `sameAs`
that is a single string in the JSON is the singleton list here; an
`address` that is not a JSON object behaves as absent, as the source's
`isinstance(address, dict)` guard. -/
structure LdObject where
  name : Option Str
  address : Option LdAddress
  telephone : Option Str
  phone : Option Str
  url : Option Str
  email : Option Str
  sameAs : Option (List Str)
  contactPoint : Option LdContact
  graph : Option (List LdGraphEntry)
  deriving DecidableEq, Repr

/-- The five-field social dictionary `pick_social_from_sameas` returns. -/
structure Socials where
  facebookurl : Option Str
  instagramurl : Option Str
  twitterurl : Option Str
  tiktokurl : Option Str
  linkedinurl : Option Str
  deriving DecidableEq, Repr

/-- Domain lists of `SOCIAL_DOMAINS` (scrapping.py 249–255). -/
def facebookDomains : List Str := [str "facebook.com"]

def instagramDomains : List Str := [str "instagram.com"]

def twitterDomains : List Str := [str "twitter.com", str "x.com"]

def tiktokDomains : List Str := [str "tiktok.com"]

def linkedinDomains : List Str := [str "linkedin.com"]

/-- The per-link body of `pick_social_from_sameas` (scrapping.py 287–300):
the link is matched lowercased against the domain lists in `elif` order,
assigning (and so overwriting) the matched category's slot. -/
def socialStep (out : Socials) (link : Str) : Socials :=
  if facebookDomains.any (fun d => substr d (lower link)) then
    { out with facebookurl := some link }
  else if instagramDomains.any (fun d => substr d (lower link)) then
    { out with instagramurl := some link }
  else if twitterDomains.any (fun d => substr d (lower link)) then
    { out with twitterurl := some link }
  else if tiktokDomains.any (fun d => substr d (lower link)) then
    { out with tiktokurl := some link }
  else if linkedinDomains.any (fun d => substr d (lower link)) then
    { out with linkedinurl := some link }
  else out

/-- Model of `pick_social_from_sameas` (scrapping.py 282–301): falsy input
yields all-`None`; otherwise the links fold through `socialStep`. -/
def pick_social_from_sameas (sameAs : Option (List Str)) : Socials :=
  match sameAs with
  | none => ⟨none, none, none, none, none⟩
  | some links =>
    if links.isEmpty then ⟨none, none, none, none, none⟩
    else links.foldl socialStep ⟨none, none, none, none, none⟩

/-- The `@graph` scan for `sameAs` (scrapping.py 365–376): each entry
assigns `link`, an entry of `@type == "Organization"` assigns and breaks —
so the result is the first Organization entry's `sameAs`, else the last
entry's. -/
def ldGraphLink : List LdGraphEntry → Option (List Str)
  | [] => none
  | g :: gs =>
    if g.typeName = some (str "Organization") then g.sameAs
    else
      match gs with
      | [] => g.sameAs
      | _ :: _ => ldGraphLink gs

/-- The `sameAs` resolution for one object: top-level `sameAs`, else the
`@graph` scan. -/
def ldLink (obj : LdObject) : Option (List Str) :=
  match obj.sameAs with
  | some l => some l
  | none =>
    match obj.graph with
    | none => none
    | some gs => ldGraphLink gs

/-- The email resolution for one object (scrapping.py 377–389): top-level
`email`, else `contactPoint.email`, else the first `@graph` entry with a
non-null `email`. -/
def ldEmail (obj : LdObject) : Option Str :=
  match obj.email with
  | some e => some e
  | none =>
    let fromContact :=
      match obj.contactPoint with
      | some cp => cp.email
      | none => none
    match fromContact with
    | some e => some e
    | none =>
      match obj.graph with
      | none => none
      | some gs => (gs.find? (fun g => g.email.isSome)).bind (·.email)

/-- The loop body of the JSON-LD pass (scrapping.py 338–401) on one
structured-data object: field updates exactly as the source lines order
them.  The per-object `try`/`except` is total here (objects are
well-typed in the model). -/
def processLdObj (out : EnrichRecord) (obj : LdObject) : EnrichRecord :=
  let out :=
    if truthyO obj.name ∧ ¬truthyO out.center_name then
      { out with center_name := some (strip (obj.name.getD [])) }
    else out
  let out :=
    match obj.address with
    | some a =>
      { out with
        address := pyOr (firstF [a.streetAddress, a.address]) out.address,
        city := pyOr (firstF [a.addressLocality, a.locality]) out.city,
        state := pyOr (firstF [a.addressRegion, a.region]) out.state,
        country := pyOr (firstF [a.addressCountry]) out.country,
        zipcode := pyOr (firstF [a.postalCode]) out.zipcode }
    | none => out
  let out := { out with phone := pyOr (firstF [obj.telephone, obj.phone]) out.phone }
  let out := { out with websiteurl := pyOr (firstF [obj.url]) out.websiteurl }
  let link := ldLink obj
  let email := ldEmail obj
  let out := { out with email := pyOr (firstF [email]) out.email }
  let social := pick_social_from_sameas link
  { out with
    facebookurl := pyOr out.facebookurl social.facebookurl,
    instagramurl := pyOr out.instagramurl social.instagramurl,
    twitterurl := pyOr out.twitterurl social.twitterurl,
    tiktokurl := pyOr out.tiktokurl social.tiktokurl,
    linkedinurl := pyOr out.linkedinurl social.linkedinurl }

/-- Steps 1–2 of `extract_from_html` (scrapping.py 310–401): the seeded
output dictionary (`website` the normalized input URL, `center_name` the
cleaned title) folded through the JSON-LD object list.  The later
heuristic passes (href scan, address scan, zip scan, services scan,
scrapping.py 420–486) never write `website`, `websiteurl`, `phone`,
`email`, or the address fields set here only, and are not modeled. -/
def extract_ld_pass (url : Str) (titleText : Option Str) (ld : List LdObject) : EnrichRecord :=
  let init : EnrichRecord :=
    { emptyEnrich with
      center_name := some (clean_business_name titleText (some url)),
      website := normalize_url (some url) }
  ld.foldl processLdObj init

/-! ### Discovery Aggregator (scrapping.py 125–175, 490–530) -/

/-- The `gps_coordinates` object of a maps result; the two fields hold the
decimal rendering of the JSON numbers (the source only formats them into
the anchor string). -/
structure GpsCoord where
  latitude : Str
  longitude : Str
  deriving DecidableEq, Repr

/-- One maps provider result (the keys the pipeline reads; `typeField`
models the JSON key `type`). -/
structure MapsItem where
  name : Option Str
  title : Option Str
  formatted_address : Option Str
  address : Option Str
  phone : Option Str
  phone_number : Option Str
  website : Option Str
  website_url : Option Str
  link : Option Str
  types : Option (List Str)
  typeField : Option (List Str)
  gps_coordinates : GpsCoord
  deriving DecidableEq, Repr

/-- The re-centering anchor `f"@{latitude},{longitude},15z"`
(scrapping.py 171). -/
def mkAnchor (g : GpsCoord) : Str :=
  '@' :: (g.latitude ++ ',' :: (g.longitude ++ str ",15z"))

/-- Retry wrapper of the provider calls: the value of the first successful
attempt among three, else the default (the `for attempt in range(3)` loops
with their final `return []`). -/
def retry3 {α : Type} (attempts : Nat → Except Unit α) (default : α) : α :=
  match attempts 0 with
  | .ok v => v
  | .error _ =>
    match attempts 1 with
    | .ok v => v
    | .error _ =>
      match attempts 2 with
      | .ok v => v
      | .error _ => default

/-- Model of `get_google_maps_results` (scrapping.py 125–157): empty
without an API key, otherwise three attempts against the provider (whose
JSON-container dispatch, lines 147–154, is folded into the collaborator's
returned list per spec §6), empty when all fail. -/
def get_google_maps_results (apiKey : Bool)
    (attempts : Nat → Except Unit (List MapsItem)) : List MapsItem :=
  if !apiKey then [] else retry3 attempts []

/-- Model of `get_all_google_maps_results` (scrapping.py 159–175): pages
`0 .. max_pages-1` in order, carrying the anchor `ll`, which a non-empty
page re-centers to its first result's coordinates; every page's items are
appended. -/
def get_all_google_maps_results (fetchPage : Str → Str → Nat → List MapsItem)
    (query ll0 : Str) (max_pages : Nat) : List MapsItem :=
  ((List.range max_pages).foldl (fun (st : Str × List MapsItem) page =>
    let results := fetchPage query st.1 page
    let ll :=
      match results with
      | [] => st.1
      | r :: _ => mkAnchor r.gps_coordinates
    (ll, st.2 ++ results)) (ll0, [])).2

/-- The anchor used for page `n` of the pagination (for statements about
`get_all_google_maps_results`): page 0 uses `ll0`; after a non-empty page
the anchor re-centers to its first result. -/
def mapsAnchors (fetchPage : Str → Str → Nat → List MapsItem)
    (query ll0 : Str) : Nat → Str
  | 0 => ll0
  | n + 1 =>
    let prev := mapsAnchors fetchPage query ll0 n
    match fetchPage query prev n with
    | [] => prev
    | r :: _ => mkAnchor r.gps_coordinates

/-- One search provider result (the keys the pipeline reads). -/
structure SearchItem where
  title : Option Str
  link : Option Str
  snippet : Option Str
  deriving DecidableEq, Repr

/-- Model of `get_google_search_results` (scrapping.py 82–103): three
attempts against the provider (its `organic_results` unwrapping folded
into the collaborator), empty when all fail. -/
def get_google_search_results (attempts : Nat → Except Unit (List SearchItem)) :
    List SearchItem :=
  retry3 attempts []

/-- The seen-set recursion of `clean_results` (scrapping.py 490–500). -/
def cleanResultsAux (seen : List Str) : List SearchItem → List SearchItem
  | [] => []
  | r :: rest =>
    match normalize_url r.link with
    | some k =>
      if !k.isEmpty && !seen.contains k then r :: cleanResultsAux (k :: seen) rest
      else cleanResultsAux seen rest
    | none => cleanResultsAux seen rest

/-- Model of `clean_results`: keep a result only when its normalized link
is truthy and not seen before. -/
def clean_results (results : List SearchItem) : List SearchItem :=
  cleanResultsAux [] results

/-- The default keyword list of `filter_relevant` (scrapping.py 505). -/
def defaultKeywords : List Str :=
  [str "care", str "postpartum", str "baby", str "mother", str "confinement"]

/-- Model of `filter_relevant` (scrapping.py 502–513): keep results whose
lowercased title or snippet contains any lowercased keyword. -/
def filter_relevant (results : List SearchItem) (keywords : Option (List Str)) :
    List SearchItem :=
  let lowered := (keywords.getD defaultKeywords).map lower
  results.filter (fun r =>
    lowered.any (fun kw =>
      substr kw (lower (r.title.getD [])) || substr kw (lower (r.snippet.getD []))))

/-- The `{city, state, country, zipcode}` record of the Component
Extractor. -/
structure AddressComponents where
  city : Option Str
  state : Option Str
  country : Option Str
  zipcode : Option Str
  deriving DecidableEq, Repr

/-- Model of `extract_components` (scrapping.py 516–530): a left fold over
the labeled pairs in which a later occurrence of a recognized label
overwrites an earlier one. -/
def extract_components (pairs : List (Str × Str)) : AddressComponents :=
  pairs.foldl (fun acc tl =>
    if tl.2 = str "city" then { acc with city := some tl.1 }
    else if tl.2 = str "state" then { acc with state := some tl.1 }
    else if tl.2 = str "country" then { acc with country := some tl.1 }
    else if tl.2 = str "postcode" then { acc with zipcode := some tl.1 }
    else acc) ⟨none, none, none, none⟩

/-! ### Pipeline Orchestrator (`scrape_businesses`, scrapping.py 540–676) -/

/-- The dedupe key of one tagged item (scrapping.py 581–583): the
normalized URL of the first truthy of `website`, `website_url`, `link`,
and `None` when all are falsy. -/
def url_for_dedupe (r : MapsItem) : Option Str :=
  let u := pyOr (pyOr r.website r.website_url) r.link
  if truthyO u then normalize_url u else none

/-- The seen-set recursion of the cross-source dedupe
(scrapping.py 585–593): a truthy unseen key keeps the item and records the
key, a `None` key keeps the item, anything else (a seen key, or a key that
normalized to the empty string) drops it. -/
def dedupeAux (seen : List Str) : List (Str × MapsItem) → List (Str × MapsItem)
  | [] => []
  | (src, r) :: rest =>
    match url_for_dedupe r with
    | some k =>
      if !k.isEmpty && !seen.contains k then (src, r) :: dedupeAux (k :: seen) rest
      else dedupeAux seen rest
    | none => (src, r) :: dedupeAux seen rest

/-- The cross-source dedupe over the combined tagged list. -/
def dedupeTagged (l : List (Str × MapsItem)) : List (Str × MapsItem) :=
  dedupeAux [] l

/-- The `fetch` argument of `scrape_businesses`. -/
inductive FetchMode where
  | api | direct | auto
  deriving DecidableEq, Repr

/-- The collaborators `scrape_businesses` calls, injected per spec §6:
search attempts (query, country, attempt), the geocoder, maps attempts
(query, anchor, page, attempt), the address parser, the two HTML fetch
strategies (never raising, `None` on failure), and the enrichment
extraction on fetched HTML (whose modeled JSON-LD core is
`extract_ld_pass`). -/
structure Collabs where
  searchAttempt : Str → Option Str → Nat → Except Unit (List SearchItem)
  geocode : Str → Except Unit Str
  mapsAttempt : Str → Str → Nat → Nat → Except Unit (List MapsItem)
  parseAddress : Str → List (Str × Str)
  fetchApi : Str → Option Str
  fetchDirect : Str → Option Str
  enrich : Str → Str → EnrichRecord

/-- The per-candidate locals that Python carries across loop iterations:
`search_filtered` and `link` are function-scoped, so a later iteration can
observe an earlier iteration's assignment; `none` is the never-assigned
state whose read raises `UnboundLocalError`. -/
structure LoopState where
  searchFiltered : Option (List SearchItem)
  linkVar : Option (Option Str)
  deriving Repr

/-- The `website_field` local of one loop iteration (scrapping.py 604):
the first truthy of `website`, `website_url`, `link`, else `None`. -/
def scrapeWebsiteField (res : MapsItem) : Option Str :=
  let w := pyOr (pyOr res.website res.website_url) res.link
  if truthyO w then w else none

/-- The `services` local (scrapping.py 606). -/
def scrapeServicesField (res : MapsItem) : Option (List Str) :=
  let s := pyOrL res.types res.typeField
  if truthyL s then s else none

/-- The `comps` local (scrapping.py 609–613): parsed address components
of a truthy address, else all-`None`. -/
def scrapeComps (C : Collabs) (res : MapsItem) : AddressComponents :=
  let address := pyOr res.formatted_address res.address
  if truthyO address then
    let parsed := C.parseAddress (address.getD [])
    if !parsed.isEmpty then extract_components parsed
    else ⟨none, none, none, none⟩
  else ⟨none, none, none, none⟩

/-- The `business_name` local (scrapping.py 607). -/
def scrapeBusinessName (res : MapsItem) : Str :=
  clean_business_name (pyOr res.name res.title) (scrapeWebsiteField res)

/-- The cleaned search results of one iteration (scrapping.py 615–620):
the retried search call at the derived country, passed through
`clean_results`. -/
def scrapeSearchClean (C : Collabs) (country : Str) (res : MapsItem) :
    List SearchItem :=
  let comps := scrapeComps C res
  let searchCountry :=
    let c0 := pyOr (pyOr (pyOr comps.country comps.state) comps.city) (some country)
    if truthyO c0 then c0 else none
  clean_results (get_google_search_results
    (C.searchAttempt (scrapeBusinessName res) searchCountry))

/-- The locals after the conditional `search_filtered` assignment
(scrapping.py 621–622). -/
def scrapeSt1 (C : Collabs) (country : Str) (keywords : Option (List Str))
    (st : LoopState) (res : MapsItem) : LoopState :=
  if !(scrapeSearchClean C country res).isEmpty then
    { st with searchFiltered := some (filter_relevant (scrapeSearchClean C country res) keywords) }
  else st

/-- The locals and `snippet` after the website backfill branch
(scrapping.py 624–627): when the filtered results are non-empty and no
website field exists, `link` is assigned the first result’s link and the
snippet is taken from it. -/
def scrapeStAndSnippet (C : Collabs) (country : Str) (keywords : Option (List Str))
    (st : LoopState) (res : MapsItem) : LoopState × Option Str :=
  let st1 := scrapeSt1 C country keywords st res
  let sf := st1.searchFiltered.getD []
  if !sf.isEmpty ∧ scrapeWebsiteField res = none then
    match sf with
    | f :: _ => ({ st1 with linkVar := some f.link }, f.snippet)
    | [] => (st1, (none : Option Str))
  else (st1, (none : Option Str))

/-- The `record` dictionary of one iteration (scrapping.py 629–651),
before enrichment. -/
def scrapeBaseRecord (C : Collabs) (country : Str) (keywords : Option (List Str))
    (idx : Nat) (st : LoopState) (res : MapsItem) : Record :=
  let website_field := scrapeWebsiteField res
  let comps := scrapeComps C res
  let stS := scrapeStAndSnippet C country keywords st res
  let url :=
    match stS.1.linkVar with
    | some linkv => pyOr website_field linkv
    | none => none
  { id := idx, business_name := scrapeBusinessName res, url := url,
    snippet := stS.2, center_name := some (scrapeBusinessName res),
    address := pyOr res.formatted_address res.address, city := comps.city,
    state := pyOr comps.state comps.city,
    country := pyOr (pyOr comps.country comps.state) comps.city,
    zipcode := comps.zipcode, email := none,
    website := if truthyO website_field then normalize_url website_field else none,
    websiteurl := none, phone := pyOr res.phone res.phone_number, whatsapp := none,
    facebookurl := none, instagramurl := none, twitterurl := none,
    tiktokurl := none, linkedinurl := none, services := scrapeServicesField res }

/-- The fetched HTML of one iteration (scrapping.py 653–661), per fetch
mode, only for a truthy website field. -/
def scrapeHtml (C : Collabs) (fetch : FetchMode) (res : MapsItem) : Option Str :=
  let website_field := scrapeWebsiteField res
  if truthyO website_field then
    match fetch with
    | .api => C.fetchApi (website_field.getD [])
    | .direct => C.fetchDirect (website_field.getD [])
    | .auto =>
      let a := C.fetchApi (website_field.getD [])
      if truthyO a then a else C.fetchDirect (website_field.getD [])
  else none

/-- The appended record of one iteration (scrapping.py 663–673): the base
record, merged with the enrichment of the fetched HTML when that is
truthy. -/
def scrapeFinalRecord (C : Collabs) (country : Str) (keywords : Option (List Str))
    (fetch : FetchMode) (idx : Nat) (st : LoopState) (res : MapsItem) : Record :=
  let record := scrapeBaseRecord C country keywords idx st res
  let html_text := scrapeHtml C fetch res
  if truthyO html_text then
    mergeRecord record (C.enrich ((scrapeWebsiteField res).getD []) (html_text.getD []))
  else record

/-- One iteration of the per-candidate loop of `scrape_businesses`
(scrapping.py 598–673), producing the appended record and the updated
function-scoped locals.  Reading `search_filtered` on line 624 before any
iteration assigned it raises `UnboundLocalError`.  A tag other than
`"maps"` would reach `all_data.append(record)` with `record` unbound
(dead in the orchestrator, which tags every item `"maps"`). -/
def scrapeStep (C : Collabs) (country : Str) (keywords : Option (List Str))
    (fetch : FetchMode) (idx : Nat) (st : LoopState) (item : Str × MapsItem) :
    Except PyErr (Record × LoopState) :=
  if item.1 ≠ str "maps" then .error .unboundLocal
  else
    match (scrapeSt1 C country keywords st item.2).searchFiltered with
    | none => .error .unboundLocal
    | some _ =>
      .ok (scrapeFinalRecord C country keywords fetch idx st item.2,
        (scrapeStAndSnippet C country keywords st item.2).1)

/-- The per-candidate loop of `scrape_businesses`: one `scrapeStep` per
surviving tagged item, threading the locals, with the first raised
exception propagating. -/
def scrapeLoop (C : Collabs) (country : Str) (keywords : Option (List Str))
    (fetch : FetchMode) :
    Nat → LoopState → List (Str × MapsItem) → Except PyErr (List Record)
  | _, _, [] => .ok []
  | idx, st, t :: rest =>
    match scrapeStep C country keywords fetch idx st t with
    | .error e => .error e
    | .ok (record, st2) =>
      match scrapeLoop C country keywords fetch (idx + 1) st2 rest with
      | .error e => .error e
      | .ok tail => .ok (record :: tail)

/-- Model of `scrape_businesses` (scrapping.py 540–676): the missing-key
and empty-query short circuits, source ordering, the maps branch (anchor
derivation through geocoding with its `except` fallback, then the
paginated fetch), the cross-source dedupe, and the per-candidate loop. -/
def scrape_businesses (C : Collabs) (apiKey : Bool) (query country : Str)
    (keywords : Option (List Str)) (fetch : FetchMode) (source : Str)
    (ll : Str) (page : Nat) : Except PyErr (List Record) :=
  if !apiKey then .ok []
  else if query.isEmpty then .ok []
  else
    let source_order : List Str :=
      if source = str "all" then [str "search", str "maps"] else [source]
    let combined_tagged : List (Str × MapsItem) :=
      source_order.flatMap (fun src =>
        if src = str "maps" then
          let ll_param : Str :=
            match
              (let location := extract_components (C.parseAddress query)
               let place := pyOr (pyOr location.country location.state) (some (str "malaysia"))
               C.geocode (place.getD [])) with
            | .ok s => s
            | .error _ => []
          let maps_raw := get_all_google_maps_results
            (fun q l p => get_google_maps_results apiKey (C.mapsAttempt q l p))
            query (if truthyO (some ll_param) then ll_param else ll) page
          maps_raw.map (fun item => (str "maps", item))
        else [])
    let filtered_tagged := dedupeTagged combined_tagged
    scrapeLoop C country keywords fetch 1 ⟨none, none⟩ filtered_tagged

/-- The `page_count` default of the web route (`main.py` line 19,
`page_count: int = Query(0, ...)`), which `read_root` passes to
`scrape_businesses` as `page`. -/
def read_root_page_count_default : Nat := 0

/-! ### Claim-side comparison definitions and concrete fixtures -/

/-- The search-result clean pass as the amended C9 claim words it: keep, in
order, exactly the results whose link normalizes to a truthy URL that no
earlier result's link (kept or not) also normalizes to; `pre` carries the
earlier results. -/
def cleanResultsSpec (pre : List SearchItem) : List SearchItem → List SearchItem
  | [] => []
  | r :: rest =>
    match normalize_url r.link with
    | some k =>
      if !k.isEmpty && !pre.any (fun r2 => normalize_url r2.link == some k) then
        r :: cleanResultsSpec (pre ++ [r]) rest
      else cleanResultsSpec (pre ++ [r]) rest
    | none => cleanResultsSpec (pre ++ [r]) rest

/-- The cross-source dedup as the amended C6 claim words it: an item with
no resolvable key is kept; a truthy key is kept exactly when no earlier
item resolves to the same key; a key that normalized to the empty string
is dropped; `pre` carries the earlier items. -/
def dedupeSpec (pre : List (Str × MapsItem)) :
    List (Str × MapsItem) → List (Str × MapsItem)
  | [] => []
  | t :: rest =>
    match url_for_dedupe t.2 with
    | none => t :: dedupeSpec (pre ++ [t]) rest
    | some k =>
      if !k.isEmpty && !pre.any (fun t2 => url_for_dedupe t2.2 == some k) then
        t :: dedupeSpec (pre ++ [t]) rest
      else dedupeSpec (pre ++ [t]) rest

/-- The last non-null value of a list of optional contributions (the value
a later-overwrites-earlier pass resolves to). -/
def lastSomeOf (vs : List (Option Str)) : Option Str := (vs.filterMap id).getLast?

/-- The first non-null value of a list of optional contributions (the
value a first-wins pass resolves to). -/
def firstSomeOf (vs : List (Option Str)) : Option Str := (vs.filterMap id).head?

/-- The street-address contribution of one JSON-LD object
(scrapping.py 348). -/
def ldAddressContrib (o : LdObject) : Option Str :=
  match o.address with
  | some a => firstF [a.streetAddress, a.address]
  | none => none

/-- The city contribution of one JSON-LD object (scrapping.py 349). -/
def ldCityContrib (o : LdObject) : Option Str :=
  match o.address with
  | some a => firstF [a.addressLocality, a.locality]
  | none => none

/-- The state contribution of one JSON-LD object (scrapping.py 350). -/
def ldStateContrib (o : LdObject) : Option Str :=
  match o.address with
  | some a => firstF [a.addressRegion, a.region]
  | none => none

/-- The country contribution of one JSON-LD object (scrapping.py 351). -/
def ldCountryContrib (o : LdObject) : Option Str :=
  match o.address with
  | some a => firstF [a.addressCountry]
  | none => none

/-- The zipcode contribution of one JSON-LD object (scrapping.py 352). -/
def ldZipContrib (o : LdObject) : Option Str :=
  match o.address with
  | some a => firstF [a.postalCode]
  | none => none

/-- The phone contribution of one JSON-LD object (scrapping.py 355). -/
def ldPhoneContrib (o : LdObject) : Option Str := firstF [o.telephone, o.phone]

/-- The `website_url` contribution of one JSON-LD object
(scrapping.py 358). -/
def ldUrlContrib (o : LdObject) : Option Str := firstF [o.url]

/-- The email contribution of one JSON-LD object (scrapping.py 377–392). -/
def ldEmailContrib (o : LdObject) : Option Str := firstF [ldEmail o]

/-- An all-absent JSON-LD object, base for concrete fixtures. -/
def emptyLdObject : LdObject :=
  ⟨none, none, none, none, none, none, none, none, none⟩

/-- Collaborators that always fail or return nothing. -/
def trivialCollabs : Collabs :=
  { searchAttempt := fun _ _ _ => .error (),
    geocode := fun _ => .error (),
    mapsAttempt := fun _ _ _ _ => .error (),
    parseAddress := fun _ => [],
    fetchApi := fun _ => none,
    fetchDirect := fun _ => none,
    enrich := fun _ _ => emptyEnrich }

/-- A zero coordinate pair. -/
def defaultGps : GpsCoord := ⟨str "0.0", str "0.0"⟩

/-- A maps item with every optional key absent. -/
def emptyMapsItem : MapsItem :=
  ⟨none, none, none, none, none, none, none, none, none, none, none, defaultGps⟩

/-- Failing-input fixture for C8: one maps candidate whose enrichment path
runs while every search attempt fails. -/
def c8MapsItem : MapsItem :=
  { emptyMapsItem with name := some (str "Biz Care"), link := some (str "http://b.com") }

/-- Failing-input collaborators for C8: maps page 0 returns the one
candidate, search always fails (so all three retries fail and the search
path yields the empty list). -/
def c8Collabs : Collabs :=
  { trivialCollabs with
    mapsAttempt := fun _ _ p _ => if p = 0 then .ok [c8MapsItem] else .ok [] }

/-- Counterexample fixture for C4: a maps candidate whose provider website
still normalizes to a non-fixed-point of the Identity Normalizer. -/
def c4MapsItem : MapsItem :=
  { emptyMapsItem with
    name := some (str "Biz Care"),
    website := some (str "http://www.www.e.com/") }

/-- A search result that keeps the C4 pipeline run off the unbound-local
path (nonempty cleaned search results). -/
def c4SearchItem : SearchItem :=
  ⟨some (str "baby care"), some (str "http://s.com/x"), some (str "good")⟩

/-- Collaborators for the C4 end-to-end counterexample run. -/
def c4Collabs : Collabs :=
  { trivialCollabs with
    mapsAttempt := fun _ _ p _ => if p = 0 then .ok [c4MapsItem] else .ok [],
    searchAttempt := fun _ _ _ => .ok [c4SearchItem] }

/-- Counterexample fixture for C6: an item whose only URL field normalizes
to the empty string. -/
def c6Item : MapsItem := { emptyMapsItem with link := some (str "////") }

/-- Counterexample fixture for C9: a result with no link at all. -/
def c9Item : SearchItem := ⟨some (str "t"), none, none⟩

/-- Membership in the Identity Normalizer's image (or null): the amended
C4 invariant on the `website` field. -/
def NormImage (w : Option Str) : Prop :=
  w = none ∨ ∃ u : Str, w = normalize_url (some u)

/-- Counterexample fixtures for C2: two JSON-LD objects that both carry a
telephone. -/
def c2Obj1 : LdObject := { emptyLdObject with telephone := some (str "111") }

/-- Second C2 object, whose telephone lands on an already-set phone. -/
def c2Obj2 : LdObject := { emptyLdObject with telephone := some (str "222") }

/-- The first-falsy-then-first-truthy resolution of a `x = x or v` chain
(Python `or` semantics folded from the left with the accumulator first):
a truthy start survives, otherwise the first non-null value (our value
lists never contain an empty string), and a start that saw no values at
all survives unchanged. -/
def resolveFirst (a : Option Str) (vs : List (Option Str)) : Option Str :=
  if truthyO a then a
  else
    match firstSomeOf vs with
    | some v => some v
    | none => if vs.isEmpty then a else none

end WebScraperX

namespace WebScraperX

/-! ## Theorems

Shared lemmas first, then one theorem per claim (with witnesses and
counterexamples where the claim's status calls for them). -/

theorem truthyV_vOf (o : Option Str) : truthyV (vOf o) = truthyO o := by
  cases o <;> rfl

theorem truthyV_vOfL (o : Option (List Str)) : truthyV (vOfL o) = truthyL o := by
  cases o <;> rfl

theorem vOf_mergeField_spec (a b : Option Str) :
    (truthyO a = true → vOf (mergeField a b) = vOf a) ∧
    (truthyO a = false → truthyO b = true → vOf (mergeField a b) = vOf b) ∧
    (truthyO b = false → vOf (mergeField a b) = vOf a) := by
  unfold mergeField pyOr
  refine ⟨fun h => ?_, fun h h2 => ?_, fun h => ?_⟩
  · simp [h]
  · simp [h, h2]
  · simp [h]

theorem vOfL_mergeFieldL_spec (a b : Option (List Str)) :
    (truthyL a = true → vOfL (mergeFieldL a b) = vOfL a) ∧
    (truthyL a = false → truthyL b = true → vOfL (mergeFieldL a b) = vOfL b) ∧
    (truthyL b = false → vOfL (mergeFieldL a b) = vOfL a) := by
  unfold mergeFieldL pyOrL
  refine ⟨fun h => ?_, fun h h2 => ?_, fun h => ?_⟩
  · simp [h]
  · simp [h, h2]
  · simp [h]

/-- C1: for every base record, every enrichment output, and every key of
the fixed merge field list, the Record Merger keeps the base value
whenever it is non-null/non-empty, takes the enrichment value exactly when
the base value is null/empty and the enrichment value is truthy, and
leaves the base value in place when the enrichment value is absent/empty;
in particular base phone `"123"` with enrichment phone `"456"` merges to
`"123"`, and base phone null with enrichment phone `"456"` merges to
`"456"`. -/
theorem merge_first_non_empty_wins :
    (∀ (r : Record) (e : EnrichRecord) (k : MergeKey),
      (truthyV (getRec k r) = true → getRec k (mergeRecord r e) = getRec k r) ∧
      (truthyV (getRec k r) = false → truthyV (getEnr k e) = true →
        getRec k (mergeRecord r e) = getEnr k e) ∧
      (truthyV (getEnr k e) = false → getRec k (mergeRecord r e) = getRec k r)) ∧
    (∀ (r : Record) (e : EnrichRecord),
      r.phone = some (str "123") → e.phone = some (str "456") →
      (mergeRecord r e).phone = some (str "123")) ∧
    (∀ (r : Record) (e : EnrichRecord),
      r.phone = none → e.phone = some (str "456") →
      (mergeRecord r e).phone = some (str "456")) := by
  refine ⟨fun r e k => ?_, fun r e h1 h2 => ?_, fun r e h1 h2 => ?_⟩
  · cases k <;>
      simp only [getRec, getEnr, mergeRecord, truthyV_vOf, truthyV_vOfL] <;>
      first
        | exact vOf_mergeField_spec _ _
        | exact vOfL_mergeFieldL_spec _ _
  · simp [mergeRecord, h1, h2, mergeField, pyOr, truthyO, str]
  · simp [mergeRecord, h1, h2, mergeField, pyOr, truthyO, str]

/-- Closed witness for C1 at concrete records. -/
theorem merge_first_non_empty_wins_witness :
    (mergeRecord
      { id := 1, business_name := str "b", url := none, snippet := none,
        center_name := none, address := none, city := none, state := none,
        country := none, zipcode := none, email := none, website := none,
        websiteurl := none, phone := some (str "123"), whatsapp := none,
        facebookurl := none, instagramurl := none, twitterurl := none,
        tiktokurl := none, linkedinurl := none, services := none }
      { emptyEnrich with phone := some (str "456") }).phone = some (str "123") :=
  merge_first_non_empty_wins.2.1 _ _ rfl rfl

theorem getAll_fold_spec (fetchPage : Str → Str → Nat → List MapsItem)
    (query ll0 : Str) (n : Nat) :
    (List.range n).foldl (fun (st : Str × List MapsItem) page =>
      let results := fetchPage query st.1 page
      let ll :=
        match results with
        | [] => st.1
        | r :: _ => mkAnchor r.gps_coordinates
      (ll, st.2 ++ results)) (ll0, []) =
    (mapsAnchors fetchPage query ll0 n,
      (List.range n).flatMap (fun i => fetchPage query (mapsAnchors fetchPage query ll0 i) i)) := by
  induction n with
  | zero => rfl
  | succ m ih =>
    rw [List.range_succ, List.foldl_append, ih]
    simp only [List.foldl_cons, List.foldl_nil, List.flatMap_append, List.flatMap_cons,
      List.flatMap_nil, List.append_nil]
    have h1 : mapsAnchors fetchPage query ll0 (m + 1) =
        match fetchPage query (mapsAnchors fetchPage query ll0 m) m with
        | [] => mapsAnchors fetchPage query ll0 m
        | r :: _ => mkAnchor r.gps_coordinates := by
      rw [mapsAnchors]
    rw [h1]

/-- C5: the Discovery Aggregator's pagination equals the concatenation of
the pages `0 .. max_pages-1` in order — no early termination — where page
`i` is requested at the carried anchor `mapsAnchors … i`, the anchor that
re-centers to the first result's coordinates (`@lat,lon,15z`) after every
non-empty page and stays put after an empty one; in particular, after
page 0 returns a first result at coordinates (1.0, 2.0), page 1 is
requested at anchor `@1.0,2.0,15z` whatever the original anchor was. -/
theorem get_all_google_maps_results_paginates :
    (∀ (fetchPage : Str → Str → Nat → List MapsItem) (query ll0 : Str) (n : Nat),
      get_all_google_maps_results fetchPage query ll0 n =
        (List.range n).flatMap
          (fun i => fetchPage query (mapsAnchors fetchPage query ll0 i) i)) ∧
    (∀ (fetchPage : Str → Str → Nat → List MapsItem) (query ll0 : Str)
      (r : MapsItem) (rest : List MapsItem),
      fetchPage query ll0 0 = r :: rest →
      r.gps_coordinates = ⟨str "1.0", str "2.0"⟩ →
      get_all_google_maps_results fetchPage query ll0 2 =
        (r :: rest) ++ fetchPage query (str "@1.0,2.0,15z") 1) := by
  have key : ∀ (fetchPage : Str → Str → Nat → List MapsItem) (query ll0 : Str) (n : Nat),
      get_all_google_maps_results fetchPage query ll0 n =
        (List.range n).flatMap
          (fun i => fetchPage query (mapsAnchors fetchPage query ll0 i) i) := by
    intro fetchPage query ll0 n
    unfold get_all_google_maps_results
    rw [getAll_fold_spec]
  refine ⟨key, fun fetchPage query ll0 r rest h0 hg => ?_⟩
  rw [key]
  have ha0 : mapsAnchors fetchPage query ll0 0 = ll0 := rfl
  have ha1 : mapsAnchors fetchPage query ll0 1 = str "@1.0,2.0,15z" := by
    simp only [mapsAnchors, ha0, h0, hg]
    rfl
  have hr2 : List.range 2 = [0, 1] := rfl
  rw [hr2]
  simp only [List.flatMap_cons, List.flatMap_nil, List.append_nil, ha0, ha1, h0]

theorem some_beq_comm (k k2 : Str) : (k2 == k) = (some k == some k2) := by
  by_cases h : k2 = k
  · subst h; simp
  · have h2 : some k ≠ some k2 := by
      intro hc
      exact h (Option.some.inj hc).symm
    simp [h, h2, Ne.symm h]

theorem cleanResultsAux_eq_spec (l : List SearchItem) :
    ∀ (seen : List Str) (pre : List SearchItem),
      (∀ k : Str, k ≠ [] →
        seen.contains k = pre.any (fun r2 => normalize_url r2.link == some k)) →
      cleanResultsAux seen l = cleanResultsSpec pre l := by
  induction l with
  | nil => intro seen pre _; rfl
  | cons r rest ih =>
    intro seen pre inv
    have hany : ∀ k2 : Str,
        (pre ++ [r]).any (fun r2 => normalize_url r2.link == some k2) =
        (pre.any (fun r2 => normalize_url r2.link == some k2) ||
          (normalize_url r.link == some k2)) := by
      intro k2
      simp [List.any_append]
    cases hnorm : normalize_url r.link with
    | none =>
      simp only [cleanResultsAux, cleanResultsSpec, hnorm]
      refine ih seen (pre ++ [r]) (fun k2 hk2 => ?_)
      rw [hany, hnorm, inv k2 hk2]
      simp
    | some k =>
      simp only [cleanResultsAux, cleanResultsSpec, hnorm]
      have hcond : (!k.isEmpty && !pre.any (fun r2 => normalize_url r2.link == some k)) =
          (!k.isEmpty && !seen.contains k) := by
        by_cases hke : k = []
        · subst hke; simp
        · rw [inv k hke]
      rw [hcond]
      by_cases hc : (!k.isEmpty && !seen.contains k) = true
      · rw [if_pos hc, if_pos hc]
        congr 1
        refine ih (k :: seen) (pre ++ [r]) (fun k2 hk2 => ?_)
        rw [List.contains_cons, hany, hnorm, inv k2 hk2, some_beq_comm k k2, Bool.or_comm]
      · rw [if_neg hc, if_neg hc]
        refine ih seen (pre ++ [r]) (fun k2 hk2 => ?_)
        rw [hany, hnorm, inv k2 hk2]
        by_cases hkk : k = k2
        · subst hkk
          have hkne : (!k.isEmpty) = true := by simp [hk2]
          have hcontains : seen.contains k = true := by
            cases hsc : seen.contains k with
            | true => rfl
            | false => exact absurd (by rw [hsc, hkne]; rfl) hc
          rw [inv k hk2] at hcontains
          simp [hcontains]
        · have hne2 : (some k == some k2) = false := by
            rw [beq_eq_false_iff_ne]
            intro hcc
            exact hkk (Option.some.inj hcc)
          rw [hne2, Bool.or_false]

/-- Amended C9 equivalence between the seen-set pass and the
first-non-repeat description (see `clean_results_keeps_first` for the
claim-level statement). -/
theorem clean_results_eq_spec (results : List SearchItem) :
    clean_results results = cleanResultsSpec [] results :=
  cleanResultsAux_eq_spec results [] [] (fun k hk => by simp)

theorem dedupeAux_eq_spec (l : List (Str × MapsItem)) :
    ∀ (seen : List Str) (pre : List (Str × MapsItem)),
      (∀ k : Str, k ≠ [] →
        seen.contains k = pre.any (fun t2 => url_for_dedupe t2.2 == some k)) →
      dedupeAux seen l = dedupeSpec pre l := by
  induction l with
  | nil => intro seen pre _; rfl
  | cons t rest ih =>
    intro seen pre inv
    obtain ⟨src, r⟩ := t
    have hany : ∀ k2 : Str,
        (pre ++ [(src, r)]).any (fun t2 => url_for_dedupe t2.2 == some k2) =
        (pre.any (fun t2 => url_for_dedupe t2.2 == some k2) ||
          (url_for_dedupe r == some k2)) := by
      intro k2
      simp [List.any_append]
    cases hnorm : url_for_dedupe r with
    | none =>
      simp only [dedupeAux, dedupeSpec, hnorm]
      congr 1
      refine ih seen (pre ++ [(src, r)]) (fun k2 hk2 => ?_)
      rw [hany, hnorm, inv k2 hk2]
      simp
    | some k =>
      simp only [dedupeAux, dedupeSpec, hnorm]
      have hcond : (!k.isEmpty && !pre.any (fun t2 => url_for_dedupe t2.2 == some k)) =
          (!k.isEmpty && !seen.contains k) := by
        by_cases hke : k = []
        · subst hke; simp
        · rw [inv k hke]
      rw [hcond]
      by_cases hc : (!k.isEmpty && !seen.contains k) = true
      · rw [if_pos hc, if_pos hc]
        congr 1
        refine ih (k :: seen) (pre ++ [(src, r)]) (fun k2 hk2 => ?_)
        rw [List.contains_cons, hany, hnorm, inv k2 hk2, some_beq_comm k k2, Bool.or_comm]
      · rw [if_neg hc, if_neg hc]
        refine ih seen (pre ++ [(src, r)]) (fun k2 hk2 => ?_)
        rw [hany, hnorm, inv k2 hk2]
        by_cases hkk : k = k2
        · subst hkk
          have hkne : (!k.isEmpty) = true := by simp [hk2]
          have hcontains : seen.contains k = true := by
            cases hsc : seen.contains k with
            | true => rfl
            | false => exact absurd (by rw [hsc, hkne]; rfl) hc
          rw [inv k hk2] at hcontains
          simp [hcontains]
        · have hne2 : (some k == some k2) = false := by
            rw [beq_eq_false_iff_ne]
            intro hcc
            exact hkk (Option.some.inj hcc)
          rw [hne2, Bool.or_false]

/-- Amended C6 equivalence between the seen-set dedupe and the
first-per-key description. -/
theorem dedupe_eq_spec (l : List (Str × MapsItem)) :
    dedupeTagged l = dedupeSpec [] l :=
  dedupeAux_eq_spec l [] [] (fun k hk => by simp)

/-- C9 counterexample: a result with no link is not a repeat of any
earlier item's normalized link — the claim requires it kept — yet the
clean pass removes it. -/
theorem clean_results_counterexample :
    normalize_url c9Item.link = none ∧ clean_results [c9Item] = [] := by
  decide

/-- C9 (amended): the clean pass keeps, in input order, exactly the items
whose link normalizes to a truthy URL that no earlier item's link also
normalizes to; items whose link is missing, empty, or normalizes to the
empty string are removed. -/
theorem clean_results_keeps_first_truthy (results : List SearchItem) :
    clean_results results = cleanResultsSpec [] results :=
  clean_results_eq_spec results

/-- C6 counterexample: an item whose link normalizes to the empty string
has a non-null dedupe key, so the claim requires the first such item to
survive, yet the dedupe drops it. -/
theorem dedupe_counterexample :
    url_for_dedupe c6Item = some [] ∧
    dedupeTagged [(str "maps", c6Item)] = [] := by
  decide

/-- C6 (amended): the cross-source dedup keeps, in input order, exactly
the first item per truthy (non-empty) key, always keeps items with no
resolvable key, and always drops items whose key normalizes to the empty
string. -/
theorem dedupe_keeps_first_per_key (l : List (Str × MapsItem)) :
    dedupeTagged l = dedupeSpec [] l :=
  dedupe_eq_spec l

theorem firstF_ne_some_nil (vals : List (Option Str)) : firstF vals ≠ some [] := by
  induction vals with
  | nil => simp [firstF]
  | cons v rest ih =>
    cases v with
    | none => simpa [firstF] using ih
    | some s =>
      by_cases h : (strip s).isEmpty
      · simpa [firstF, h] using ih
      · simp only [firstF, h]
        intro hc
        rw [if_neg (by simp [h])] at hc
        have := Option.some.inj hc
        rw [this] at h
        simp at h

theorem substr_nil (sub : Str) : substr sub [] = sub.isEmpty := rfl

theorem lower_eq_nil_iff (s : Str) : lower s = [] ↔ s = [] := by
  unfold lower
  simp

theorem pick_social_ne_nil (x : Option (List Str)) :
    (pick_social_from_sameas x).facebookurl ≠ some [] ∧
    (pick_social_from_sameas x).instagramurl ≠ some [] ∧
    (pick_social_from_sameas x).twitterurl ≠ some [] ∧
    (pick_social_from_sameas x).tiktokurl ≠ some [] ∧
    (pick_social_from_sameas x).linkedinurl ≠ some [] := by
  have hlink : ∀ (link : Str) (doms : List Str), (∀ d ∈ doms, d ≠ []) →
      doms.any (fun d => substr d (lower link)) = true → some link ≠ some ([] : Str) := by
    intro link doms hd hany hc
    have hnil : link = [] := Option.some.inj hc
    subst hnil
    simp only [lower, List.map_nil] at hany
    rw [List.any_eq_true] at hany
    obtain ⟨d, hdm, hs⟩ := hany
    rw [substr_nil] at hs
    have := hd d hdm
    rw [List.isEmpty_iff] at hs
    exact this hs
  have main : ∀ (links : List Str) (acc : Socials),
      acc.facebookurl ≠ some [] → acc.instagramurl ≠ some [] →
      acc.twitterurl ≠ some [] → acc.tiktokurl ≠ some [] →
      acc.linkedinurl ≠ some [] →
      ((links.foldl socialStep acc).facebookurl ≠ some [] ∧
        (links.foldl socialStep acc).instagramurl ≠ some [] ∧
        (links.foldl socialStep acc).twitterurl ≠ some [] ∧
        (links.foldl socialStep acc).tiktokurl ≠ some [] ∧
        (links.foldl socialStep acc).linkedinurl ≠ some []) := by
    intro links
    induction links with
    | nil => intro acc h1 h2 h3 h4 h5; exact ⟨h1, h2, h3, h4, h5⟩
    | cons link rest ih =>
      intro acc h1 h2 h3 h4 h5
      simp only [List.foldl_cons]
      unfold socialStep
      split_ifs with hf hi ht hk hl
      · exact ih _ (hlink link _ (by decide) hf) h2 h3 h4 h5
      · exact ih _ h1 (hlink link _ (by decide) hi) h3 h4 h5
      · exact ih _ h1 h2 (hlink link _ (by decide) ht) h4 h5
      · exact ih _ h1 h2 h3 (hlink link _ (by decide) hk) h5
      · exact ih _ h1 h2 h3 h4 (hlink link _ (by decide) hl)
      · exact ih _ h1 h2 h3 h4 h5
  cases x with
  | none => exact ⟨by simp [pick_social_from_sameas], by simp [pick_social_from_sameas],
      by simp [pick_social_from_sameas], by simp [pick_social_from_sameas],
      by simp [pick_social_from_sameas]⟩
  | some links =>
    by_cases h : links.isEmpty
    · simp [pick_social_from_sameas, h]
    · simp only [pick_social_from_sameas, h, Bool.false_eq_true, if_false]
      exact main links ⟨none, none, none, none, none⟩ (by simp) (by simp) (by simp)
        (by simp) (by simp)

theorem pyOr_none_left (a : Option Str) : pyOr none a = a := rfl

theorem foldl_pyOr_last (vs : List (Option Str)) :
    ∀ init : Option Str, (∀ v ∈ vs, v ≠ some []) →
      vs.foldl (fun a v => pyOr v a) init =
        match (vs.filterMap id).getLast? with
        | some v => some v
        | none => init := by
  induction vs with
  | nil => intro init _; rfl
  | cons v rest ih =>
    intro init hne
    simp only [List.foldl_cons]
    rw [ih (pyOr v init) (fun w hw => hne w (List.mem_cons_of_mem _ hw))]
    cases v with
    | none => rfl
    | some s =>
      have hs : s ≠ [] := by
        intro hc
        exact hne (some s) (List.mem_cons_self _ _) (by rw [hc])
      have htr : pyOr (some s) init = some s := by
        simp [pyOr, truthyO, hs]
      simp only [List.filterMap_cons, id]
      cases hfm : (rest.filterMap id).getLast? with
      | none =>
        rw [List.getLast?_eq_none_iff] at hfm
        rw [hfm]
        simp [htr]
      | some w =>
        have : (rest.filterMap id) ≠ [] := by
          intro hc
          rw [hc] at hfm
          simp at hfm
        cases hl : rest.filterMap id with
        | nil => exact absurd hl this
        | cons x xs =>
          rw [hl] at hfm
          rw [List.getLast?_cons_cons, hfm]

theorem foldl_pyOr_first (vs : List (Option Str)) :
    ∀ init : Option Str, (∀ v ∈ vs, v ≠ some []) →
      vs.foldl (fun a v => pyOr a v) init = resolveFirst init vs := by
  induction vs with
  | nil =>
    intro init _
    unfold resolveFirst firstSomeOf
    by_cases h : truthyO init <;> simp [h]
  | cons v rest ih =>
    intro init hne
    simp only [List.foldl_cons]
    rw [ih (pyOr init v) (fun w hw => hne w (List.mem_cons_of_mem _ hw))]
    by_cases hinit : truthyO init = true
    · have h1 : pyOr init v = init := by simp [pyOr, hinit]
      unfold resolveFirst
      rw [h1, if_pos hinit, if_pos hinit]
    · have h1 : pyOr init v = v := by simp [pyOr, hinit]
      rw [h1]
      cases v with
      | none =>
        show resolveFirst none rest = resolveFirst init (none :: rest)
        unfold resolveFirst firstSomeOf
        rw [if_neg (show ¬truthyO (none : Option Str) = true by simp [truthyO]),
          if_neg hinit]
        simp only [List.filterMap_cons, id]
        cases hfm : (rest.filterMap id).head? with
        | some w => simp only [hfm]
        | none =>
          simp only [hfm]
          cases rest <;> simp
      | some s =>
        have hs : s ≠ [] := by
          intro hc
          exact hne (some s) (List.mem_cons_self _ _) (by rw [hc])
        have htr : truthyO (some s) = true := by simp [truthyO, hs]
        unfold resolveFirst firstSomeOf
        rw [if_pos htr, if_neg hinit]
        simp only [List.filterMap_cons, id, List.head?_cons]

theorem processLdObj_address (out : EnrichRecord) (obj : LdObject) :
    (processLdObj out obj).address = pyOr (ldAddressContrib obj) out.address := by
  unfold processLdObj ldAddressContrib
  cases obj.address <;> split_ifs <;> rfl

theorem processLdObj_city (out : EnrichRecord) (obj : LdObject) :
    (processLdObj out obj).city = pyOr (ldCityContrib obj) out.city := by
  unfold processLdObj ldCityContrib
  cases obj.address <;> split_ifs <;> rfl

theorem processLdObj_state (out : EnrichRecord) (obj : LdObject) :
    (processLdObj out obj).state = pyOr (ldStateContrib obj) out.state := by
  unfold processLdObj ldStateContrib
  cases obj.address <;> split_ifs <;> rfl

theorem processLdObj_country (out : EnrichRecord) (obj : LdObject) :
    (processLdObj out obj).country = pyOr (ldCountryContrib obj) out.country := by
  unfold processLdObj ldCountryContrib
  cases obj.address <;> split_ifs <;> rfl

theorem processLdObj_zipcode (out : EnrichRecord) (obj : LdObject) :
    (processLdObj out obj).zipcode = pyOr (ldZipContrib obj) out.zipcode := by
  unfold processLdObj ldZipContrib
  cases obj.address <;> split_ifs <;> rfl

theorem processLdObj_phone (out : EnrichRecord) (obj : LdObject) :
    (processLdObj out obj).phone = pyOr (ldPhoneContrib obj) out.phone := by
  unfold processLdObj ldPhoneContrib
  cases obj.address <;> split_ifs <;> rfl

theorem processLdObj_websiteurl (out : EnrichRecord) (obj : LdObject) :
    (processLdObj out obj).websiteurl = pyOr (ldUrlContrib obj) out.websiteurl := by
  unfold processLdObj ldUrlContrib
  cases obj.address <;> split_ifs <;> rfl

theorem processLdObj_email (out : EnrichRecord) (obj : LdObject) :
    (processLdObj out obj).email = pyOr (ldEmailContrib obj) out.email := by
  unfold processLdObj ldEmailContrib
  cases obj.address <;> split_ifs <;> rfl

theorem processLdObj_facebookurl (out : EnrichRecord) (obj : LdObject) :
    (processLdObj out obj).facebookurl =
      pyOr out.facebookurl (pick_social_from_sameas (ldLink obj)).facebookurl := by
  unfold processLdObj
  cases obj.address <;> split_ifs <;> rfl

theorem processLdObj_instagramurl (out : EnrichRecord) (obj : LdObject) :
    (processLdObj out obj).instagramurl =
      pyOr out.instagramurl (pick_social_from_sameas (ldLink obj)).instagramurl := by
  unfold processLdObj
  cases obj.address <;> split_ifs <;> rfl

theorem processLdObj_twitterurl (out : EnrichRecord) (obj : LdObject) :
    (processLdObj out obj).twitterurl =
      pyOr out.twitterurl (pick_social_from_sameas (ldLink obj)).twitterurl := by
  unfold processLdObj
  cases obj.address <;> split_ifs <;> rfl

theorem processLdObj_tiktokurl (out : EnrichRecord) (obj : LdObject) :
    (processLdObj out obj).tiktokurl =
      pyOr out.tiktokurl (pick_social_from_sameas (ldLink obj)).tiktokurl := by
  unfold processLdObj
  cases obj.address <;> split_ifs <;> rfl

theorem processLdObj_linkedinurl (out : EnrichRecord) (obj : LdObject) :
    (processLdObj out obj).linkedinurl =
      pyOr out.linkedinurl (pick_social_from_sameas (ldLink obj)).linkedinurl := by
  unfold processLdObj
  cases obj.address <;> split_ifs <;> rfl

theorem fold_last_field (ld : List LdObject) (contrib : LdObject → Option Str)
    (proj : EnrichRecord → Option Str)
    (hstep : ∀ out obj, proj (processLdObj out obj) = pyOr (contrib obj) (proj out)) :
    ∀ init, proj (ld.foldl processLdObj init) =
      (ld.map contrib).foldl (fun a v => pyOr v a) (proj init) := by
  induction ld with
  | nil => intro init; rfl
  | cons o rest ih =>
    intro init
    simp only [List.foldl_cons, List.map_cons]
    rw [ih (processLdObj init o), hstep]

theorem fold_first_field (ld : List LdObject) (contrib : LdObject → Option Str)
    (proj : EnrichRecord → Option Str)
    (hstep : ∀ out obj, proj (processLdObj out obj) = pyOr (proj out) (contrib obj)) :
    ∀ init, proj (ld.foldl processLdObj init) =
      (ld.map contrib).foldl (fun a v => pyOr a v) (proj init) := by
  induction ld with
  | nil => intro init; rfl
  | cons o rest ih =>
    intro init
    simp only [List.foldl_cons, List.map_cons]
    rw [ih (processLdObj init o), hstep]

theorem match_getLast_none (m : Option Str) :
    (match m with | some v => some v | none => (none : Option Str)) = m := by
  cases m <;> rfl

theorem lastWins_from_none (vs : List (Option Str)) (h : ∀ v ∈ vs, v ≠ some []) :
    vs.foldl (fun a v => pyOr v a) none = lastSomeOf vs := by
  rw [foldl_pyOr_last vs none h]
  unfold lastSomeOf
  exact match_getLast_none _

theorem firstWins_from_none (vs : List (Option Str)) (h : ∀ v ∈ vs, v ≠ some []) :
    vs.foldl (fun a v => pyOr a v) none = firstSomeOf vs := by
  rw [foldl_pyOr_first vs none h]
  unfold resolveFirst
  rw [if_neg (by simp [truthyO])]
  cases hf : firstSomeOf vs with
  | some w => rfl
  | none => cases vs <;> simp

theorem ldAddressContrib_ne_nil (o : LdObject) : ldAddressContrib o ≠ some [] := by
  unfold ldAddressContrib
  cases o.address
  · simp
  · exact firstF_ne_some_nil _

theorem ldCityContrib_ne_nil (o : LdObject) : ldCityContrib o ≠ some [] := by
  unfold ldCityContrib
  cases o.address
  · simp
  · exact firstF_ne_some_nil _

theorem ldStateContrib_ne_nil (o : LdObject) : ldStateContrib o ≠ some [] := by
  unfold ldStateContrib
  cases o.address
  · simp
  · exact firstF_ne_some_nil _

theorem ldCountryContrib_ne_nil (o : LdObject) : ldCountryContrib o ≠ some [] := by
  unfold ldCountryContrib
  cases o.address
  · simp
  · exact firstF_ne_some_nil _

theorem ldZipContrib_ne_nil (o : LdObject) : ldZipContrib o ≠ some [] := by
  unfold ldZipContrib
  cases o.address
  · simp
  · exact firstF_ne_some_nil _

/-- C2 counterexample: the first structured-data object sets the phone to
`"111"`; the claim says a later object never overwrites it, yet processing
a second object carrying telephone `"222"` leaves the phone at `"222"`. -/
theorem extract_ld_pass_overwrites_phone :
    (extract_ld_pass (str "http://e.com") none [c2Obj1]).phone = some (str "111") ∧
    (extract_ld_pass (str "http://e.com") none [c2Obj1, c2Obj2]).phone = some (str "222") ∧
    some (str "222") ≠ some (str "111") := by
  refine ⟨by decide, by decide, by decide⟩

/-- C2 (amended): across the JSON-LD object list, the five social fields
are first-object-wins (the first object contributing a link for a category
fixes it), but the address sub-fields, phone, `website_url`, and email are
last-non-empty-wins — a later object's non-empty contribution overwrites
an earlier object's value; each field resolves independently from the
per-object contributions. -/
theorem extract_ld_pass_field_resolution (url : Str) (titleText : Option Str)
    (ld : List LdObject) :
    (extract_ld_pass url titleText ld).address = lastSomeOf (ld.map ldAddressContrib) ∧
    (extract_ld_pass url titleText ld).city = lastSomeOf (ld.map ldCityContrib) ∧
    (extract_ld_pass url titleText ld).state = lastSomeOf (ld.map ldStateContrib) ∧
    (extract_ld_pass url titleText ld).country = lastSomeOf (ld.map ldCountryContrib) ∧
    (extract_ld_pass url titleText ld).zipcode = lastSomeOf (ld.map ldZipContrib) ∧
    (extract_ld_pass url titleText ld).phone = lastSomeOf (ld.map ldPhoneContrib) ∧
    (extract_ld_pass url titleText ld).websiteurl = lastSomeOf (ld.map ldUrlContrib) ∧
    (extract_ld_pass url titleText ld).email = lastSomeOf (ld.map ldEmailContrib) ∧
    (extract_ld_pass url titleText ld).facebookurl =
      firstSomeOf (ld.map (fun o => (pick_social_from_sameas (ldLink o)).facebookurl)) ∧
    (extract_ld_pass url titleText ld).instagramurl =
      firstSomeOf (ld.map (fun o => (pick_social_from_sameas (ldLink o)).instagramurl)) ∧
    (extract_ld_pass url titleText ld).twitterurl =
      firstSomeOf (ld.map (fun o => (pick_social_from_sameas (ldLink o)).twitterurl)) ∧
    (extract_ld_pass url titleText ld).tiktokurl =
      firstSomeOf (ld.map (fun o => (pick_social_from_sameas (ldLink o)).tiktokurl)) ∧
    (extract_ld_pass url titleText ld).linkedinurl =
      firstSomeOf (ld.map (fun o => (pick_social_from_sameas (ldLink o)).linkedinurl)) := by
  have hmap : ∀ (contrib : LdObject → Option Str),
      (∀ o, contrib o ≠ some []) → ∀ v ∈ ld.map contrib, v ≠ some [] := by
    intro contrib hc v hv
    rw [List.mem_map] at hv
    obtain ⟨o, _, rfl⟩ := hv
    exact hc o
  unfold extract_ld_pass
  refine ⟨?_, ?_, ?_, ?_, ?_, ?_, ?_, ?_, ?_, ?_, ?_, ?_, ?_⟩
  · rw [fold_last_field ld ldAddressContrib (fun e => e.address) processLdObj_address]
    exact lastWins_from_none _ (hmap _ ldAddressContrib_ne_nil)
  · rw [fold_last_field ld ldCityContrib (fun e => e.city) processLdObj_city]
    exact lastWins_from_none _ (hmap _ ldCityContrib_ne_nil)
  · rw [fold_last_field ld ldStateContrib (fun e => e.state) processLdObj_state]
    exact lastWins_from_none _ (hmap _ ldStateContrib_ne_nil)
  · rw [fold_last_field ld ldCountryContrib (fun e => e.country) processLdObj_country]
    exact lastWins_from_none _ (hmap _ ldCountryContrib_ne_nil)
  · rw [fold_last_field ld ldZipContrib (fun e => e.zipcode) processLdObj_zipcode]
    exact lastWins_from_none _ (hmap _ ldZipContrib_ne_nil)
  · rw [fold_last_field ld ldPhoneContrib (fun e => e.phone) processLdObj_phone]
    exact lastWins_from_none _ (hmap _ (fun o => firstF_ne_some_nil _))
  · rw [fold_last_field ld ldUrlContrib (fun e => e.websiteurl) processLdObj_websiteurl]
    exact lastWins_from_none _ (hmap _ (fun o => firstF_ne_some_nil _))
  · rw [fold_last_field ld ldEmailContrib (fun e => e.email) processLdObj_email]
    exact lastWins_from_none _ (hmap _ (fun o => firstF_ne_some_nil _))
  · rw [fold_first_field ld _ (fun e => e.facebookurl) processLdObj_facebookurl]
    exact firstWins_from_none _ (hmap _ (fun o => (pick_social_ne_nil (ldLink o)).1))
  · rw [fold_first_field ld _ (fun e => e.instagramurl) processLdObj_instagramurl]
    exact firstWins_from_none _ (hmap _ (fun o => (pick_social_ne_nil (ldLink o)).2.1))
  · rw [fold_first_field ld _ (fun e => e.twitterurl) processLdObj_twitterurl]
    exact firstWins_from_none _ (hmap _ (fun o => (pick_social_ne_nil (ldLink o)).2.2.1))
  · rw [fold_first_field ld _ (fun e => e.tiktokurl) processLdObj_tiktokurl]
    exact firstWins_from_none _ (hmap _ (fun o => (pick_social_ne_nil (ldLink o)).2.2.2.1))
  · rw [fold_first_field ld _ (fun e => e.linkedinurl) processLdObj_linkedinurl]
    exact firstWins_from_none _ (hmap _ (fun o => (pick_social_ne_nil (ldLink o)).2.2.2.2))

/-- C10: with a configured API key and a non-empty query, a `page` of 0 —
the web route's `page_count` default — requests zero map pages (the
paginated fetch is empty whatever the collaborators answer), collects no
discovery items, and `scrape_businesses` returns the empty list. -/
theorem scrape_businesses_page_zero :
    (∀ (fetchPage : Str → Str → Nat → List MapsItem) (query ll0 : Str),
      get_all_google_maps_results fetchPage query ll0 0 = []) ∧
    (∀ (C : Collabs) (query country : Str) (keywords : Option (List Str))
      (fetch : FetchMode) (source ll : Str),
      query ≠ [] →
      scrape_businesses C true query country keywords fetch source ll
        read_root_page_count_default = .ok []) := by
  constructor
  · intro fetchPage query ll0
    rfl
  · intro C query country keywords fetch source ll hq
    unfold scrape_businesses
    rw [if_neg (by simp), if_neg (by simp [List.isEmpty_iff, hq])]
    have hbody : ∀ src : Str,
        (if src = str "maps" then
          let ll_param : Str :=
            match
              (let location := extract_components (C.parseAddress query)
               let place := pyOr (pyOr location.country location.state) (some (str "malaysia"))
               C.geocode (place.getD [])) with
            | .ok s => s
            | .error _ => []
          let maps_raw := get_all_google_maps_results
            (fun q l p => get_google_maps_results true (C.mapsAttempt q l p))
            query (if truthyO (some ll_param) then ll_param else ll)
            read_root_page_count_default
          maps_raw.map (fun item => (str "maps", item))
        else []) = [] := by
      intro src
      split_ifs
      · rfl
      · rfl
    have hflat :
        (if source = str "all" then [str "search", str "maps"] else [source]).flatMap
          (fun src =>
            if src = str "maps" then
              let ll_param : Str :=
                match
                  (let location := extract_components (C.parseAddress query)
                   let place := pyOr (pyOr location.country location.state) (some (str "malaysia"))
                   C.geocode (place.getD [])) with
                | .ok s => s
                | .error _ => []
              let maps_raw := get_all_google_maps_results
                (fun q l p => get_google_maps_results true (C.mapsAttempt q l p))
                query (if truthyO (some ll_param) then ll_param else ll)
                read_root_page_count_default
              maps_raw.map (fun item => (str "maps", item))
            else []) = [] := by
      split_ifs <;> simp [hbody]
    dsimp only
    rw [hflat]
    rfl

/-- Closed witness for C10 at concrete collaborators and query. -/
theorem scrape_businesses_page_zero_witness :
    scrape_businesses trivialCollabs true (str "q") [] none .api (str "all")
      (str "@4.2105,101.9758,15z") read_root_page_count_default = .ok [] :=
  scrape_businesses_page_zero.2 trivialCollabs (str "q") [] none .api (str "all")
    (str "@4.2105,101.9758,15z") (by decide)

/-- C8 (against the claim): a transient search-provider failure is fatal.
With a configured key, a non-empty query, and one maps candidate, the
search call fails all three retry attempts and is correctly turned into
an empty result list — but then line 624 reads the never-assigned local
`search_filtered` and the whole pipeline raises `UnboundLocalError`
instead of returning a list. -/
theorem scrape_businesses_search_failure_fatal :
    get_google_search_results (fun _ => .error ()) = [] ∧
    scrape_businesses c8Collabs true (str "q") [] none .api (str "all")
      (str "@4.2105,101.9758,15z") 1 = .error .unboundLocal := by
  exact ⟨rfl, by decide⟩

theorem processLdObj_website (out : EnrichRecord) (obj : LdObject) :
    (processLdObj out obj).website = out.website := by
  unfold processLdObj
  cases obj.address <;> split_ifs <;> rfl

theorem NormImage_mergeField (a b : Option Str) (ha : NormImage a) (hb : NormImage b) :
    NormImage (mergeField a b) := by
  unfold mergeField pyOr
  split_ifs <;> assumption

theorem mergeRecord_website (r : Record) (e : EnrichRecord) :
    (mergeRecord r e).website = mergeField r.website e.website := rfl

theorem scrapeBaseRecord_website (C : Collabs) (country : Str)
    (keywords : Option (List Str)) (idx : Nat) (st : LoopState) (res : MapsItem) :
    (scrapeBaseRecord C country keywords idx st res).website =
      if truthyO (scrapeWebsiteField res) then normalize_url (scrapeWebsiteField res)
      else none := rfl

theorem scrapeFinalRecord_website (C : Collabs)
    (hC : ∀ u h, NormImage (C.enrich u h).website) (country : Str)
    (keywords : Option (List Str)) (fetch : FetchMode) (idx : Nat) (st : LoopState)
    (res : MapsItem) :
    NormImage (scrapeFinalRecord C country keywords fetch idx st res).website := by
  have hbase : NormImage (scrapeBaseRecord C country keywords idx st res).website := by
    rw [scrapeBaseRecord_website]
    by_cases hw : truthyO (scrapeWebsiteField res) = true
    · rw [if_pos hw]
      cases hwf : scrapeWebsiteField res with
      | none => exact Or.inl rfl
      | some w => exact Or.inr ⟨w, rfl⟩
    · rw [if_neg hw]
      exact Or.inl rfl
  unfold scrapeFinalRecord
  dsimp only
  split
  · rw [mergeRecord_website]
    exact NormImage_mergeField _ _ hbase (hC _ _)
  · exact hbase

theorem scrapeStep_website (C : Collabs)
    (hC : ∀ u h, NormImage (C.enrich u h).website)
    (country : Str) (keywords : Option (List Str)) (fetch : FetchMode)
    (idx : Nat) (st : LoopState) (item : Str × MapsItem)
    (record : Record) (st2 : LoopState)
    (hstep : scrapeStep C country keywords fetch idx st item = .ok (record, st2)) :
    NormImage record.website := by
  unfold scrapeStep at hstep
  split at hstep
  · cases hstep
  · split at hstep
    · cases hstep
    · cases hstep
      exact scrapeFinalRecord_website C hC country keywords fetch idx st item.2

theorem scrapeLoop_website_inv (C : Collabs)
    (hC : ∀ u h, NormImage (C.enrich u h).website)
    (country : Str) (keywords : Option (List Str)) (fetch : FetchMode) :
    ∀ (l : List (Str × MapsItem)) (idx : Nat) (st : LoopState) (out : List Record),
      scrapeLoop C country keywords fetch idx st l = .ok out →
      ∀ r ∈ out, NormImage r.website := by
  intro l
  induction l with
  | nil =>
    intro idx st out hout r hr
    simp only [scrapeLoop] at hout
    cases hout
    simp at hr
  | cons t rest ih =>
    intro idx st out hout r hr
    rw [scrapeLoop] at hout
    cases hstep : scrapeStep C country keywords fetch idx st t with
    | error e =>
      rw [hstep] at hout
      cases hout
    | ok pr =>
      obtain ⟨record, st2⟩ := pr
      rw [hstep] at hout
      dsimp only at hout
      cases htail : scrapeLoop C country keywords fetch (idx + 1) st2 rest with
      | error e =>
        rw [htail] at hout
        cases hout
      | ok tail =>
        rw [htail] at hout
        cases hout
        rcases List.mem_cons.mp hr with hhead | htl
        · rw [hhead]
          exact scrapeStep_website C hC country keywords fetch idx st t record st2 hstep
        · exact ih (idx + 1) st2 tail htail r htl

/-- C4 counterexample: an end-to-end pipeline run whose one output record
has a non-null `website` that is not a fixed point of the Identity
Normalizer (the provider URL `http://www.www.e.com/` normalizes to
`http://www.e.com/`, which re-normalizes to `http://e.com/`). -/
theorem scrape_website_not_fixed_point :
    (scrape_businesses c4Collabs true (str "q") [] none .api (str "all")
        (str "@a") 1).toOption.map (List.map (fun r => r.website)) =
      some [some (str "http://www.e.com/")] ∧
    normalize_url (some (str "http://www.e.com/")) ≠ some (str "http://www.e.com/") := by
  exact ⟨by decide, by decide⟩

/-- C4 (amended): in every record the pipeline outputs, `website` is null
or lies in the image of the Identity Normalizer (it equals
`normalize_url` of some source URL); the invariant is established at
record creation, preserved by the Record Merger, and the Enrichment
Extractor's seeded `website` — never overwritten by its JSON-LD pass —
supplies merge inputs inside the image. -/
theorem scrape_website_in_norm_image :
    (∀ (url : Str) (titleText : Option Str) (ld : List LdObject),
      (extract_ld_pass url titleText ld).website = normalize_url (some url)) ∧
    (∀ (C : Collabs), (∀ u h, NormImage (C.enrich u h).website) →
      ∀ (apiKey : Bool) (query country : Str) (keywords : Option (List Str))
        (fetch : FetchMode) (source ll : Str) (page : Nat) (out : List Record),
        scrape_businesses C apiKey query country keywords fetch source ll page = .ok out →
        ∀ r ∈ out, NormImage r.website) := by
  constructor
  · intro url titleText ld
    unfold extract_ld_pass
    have : ∀ (init : EnrichRecord), (ld.foldl processLdObj init).website = init.website := by
      induction ld with
      | nil => intro init; rfl
      | cons o rest ih2 =>
        intro init
        simp only [List.foldl_cons]
        rw [ih2, processLdObj_website]
    rw [this]
  · intro C hC apiKey query country keywords fetch source ll page out hout r hr
    unfold scrape_businesses at hout
    by_cases hkey : (!apiKey) = true
    · rw [if_pos hkey] at hout
      cases hout
      simp at hr
    rw [if_neg hkey] at hout
    by_cases hq : query.isEmpty = true
    · rw [if_pos hq] at hout
      cases hout
      simp at hr
    rw [if_neg hq] at hout
    exact scrapeLoop_website_inv C hC country keywords fetch _ 1 ⟨none, none⟩ out hout r hr

/-- Closed witness for C4's amended theorem: the invariant hypothesis and
a concrete run discharged at trivial collaborators. -/
theorem scrape_website_in_norm_image_witness :
    NormImage (some (str "http://e.com/")) ∧
    (∀ r ∈ ([] : List Record), NormImage r.website) :=
  ⟨Or.inr ⟨str "http://e.com", by decide⟩,
   scrape_website_in_norm_image.2 trivialCollabs
     (fun _ _ => Or.inl rfl) true (str "q") [] none .api (str "all")
     (str "@4.2105,101.9758,15z") 0
     [] (by decide)⟩

/-- Closed witness for C5: a two-page run at concrete collaborators where
page 0 answers at (1.0, 2.0), so page 1 is requested at the re-centered
anchor. -/
theorem get_all_google_maps_results_paginates_witness :
    get_all_google_maps_results
      (fun _ ll p =>
        if p = 0 then [{ emptyMapsItem with gps_coordinates := ⟨str "1.0", str "2.0"⟩ }]
        else if ll = str "@1.0,2.0,15z" then [c8MapsItem] else [])
      (str "q") (str "@orig") 2 =
      [{ emptyMapsItem with gps_coordinates := ⟨str "1.0", str "2.0"⟩ }] ++ [c8MapsItem] := by
  have h := get_all_google_maps_results_paginates.2
    (fun _ ll p =>
      if p = 0 then [{ emptyMapsItem with gps_coordinates := ⟨str "1.0", str "2.0"⟩ }]
      else if ll = str "@1.0,2.0,15z" then [c8MapsItem] else [])
    (str "q") (str "@orig")
    { emptyMapsItem with gps_coordinates := ⟨str "1.0", str "2.0"⟩ } []
    (by decide) (by decide)
  rw [h]
  decide

theorem takeWhile_nosep (pre post : Str) (c : Char)
    (hpre : ∀ a ∈ pre, isSepChar a = false) (hc : isSepChar c = true) :
    (pre ++ c :: post).takeWhile (fun a => !isSepChar a) = pre := by
  induction pre with
  | nil =>
    simp only [List.nil_append, List.takeWhile_cons, hc]
    rfl
  | cons a t ih =>
    simp only [List.cons_append, List.takeWhile_cons, hpre a (by simp)]
    rw [ih (fun b hb => hpre b (by simp [hb]))]
    rfl

theorem splitHead_append_sep (pre post : Str) (c : Char)
    (hpre : ∀ a ∈ pre, isSepChar a = false) (hc : isSepChar c = true) :
    splitHead (pre ++ c :: post) = (pre.reverse.dropWhile isSpace).reverse := by
  unfold splitHead
  rw [takeWhile_nosep pre post c hpre hc, if_neg]
  simp only [List.length_append, List.length_cons]
  omega

/-- C7 counterexample: the separator regex `\s*[\-|\|]\s*` cuts at any
bare hyphen or pipe, not only at the space-surrounded separators the
claim lists: `E-Care Clinic` is cut to `E`, which is under 3 characters,
so the code falls back to the domain name `My Clinic`, while the
claim-side cleaner keeps `E-Care Clinic`. -/
theorem clean_business_name_counterexample :
    clean_business_name (some (str "E-Care Clinic")) (some (str "https://my-clinic.com")) =
      str "My Clinic" ∧
    clean_business_name_spec (some (str "E-Care Clinic")) (some (str "https://my-clinic.com")) =
      str "E-Care Clinic" ∧
    str "My Clinic" ≠ str "E-Care Clinic" := by
  refine ⟨by decide, by decide, by decide⟩

/-- C7 (amended): for a truthy title, the cleaner cuts the unescaped,
dash-normalized title at the first bare `-` or `|` character (stripping
the whitespace run just before it), then falls back to the domain-derived
name when the trimmed head is under 3 characters or a generic word, and
otherwise returns the whitespace-collapsed trimmed head; the claim's two
examples hold: `Acme Care - Home | Best in KL` cleans to `Acme Care`, and
the generic title `Home` with URL `https://my-clinic.com` cleans to
`My Clinic`. -/
theorem clean_business_name_amended :
    (∀ (title url : Option Str) (pre post : Str) (c : Char),
      truthyO title = true →
      normalizeDashes (htmlUnescape (title.getD [])) = pre ++ c :: post →
      (∀ a ∈ pre, isSepChar a = false) → isSepChar c = true →
      clean_business_name title url =
        (let ts := strip ((pre.reverse.dropWhile isSpace).reverse)
         if ts.length < 3 ∨ genericWords.contains (lower ts) then domain_to_name url
         else collapseWs ts)) ∧
    clean_business_name (some (str "Acme Care - Home | Best in KL")) none = str "Acme Care" ∧
    clean_business_name (some (str "Home")) (some (str "https://my-clinic.com")) =
      str "My Clinic" := by
  refine ⟨?_, by decide, by decide⟩
  intro title url pre post c ht hsplit hpre hc
  unfold clean_business_name
  rw [ht]
  simp only [Bool.not_true, Bool.false_eq_true, if_false]
  rw [hsplit, splitHead_append_sep pre post c hpre hc]

/-- Closed witness for C7's amended theorem at the concrete title
`Acme Care - Home`, cut at its bare hyphen. -/
theorem clean_business_name_amended_witness :
    clean_business_name (some (str "Acme Care - Home")) none =
      (let ts := strip (((str "Acme Care ").reverse.dropWhile isSpace).reverse)
       if ts.length < 3 ∨ genericWords.contains (lower ts) then domain_to_name none
       else collapseWs ts) :=
  clean_business_name_amended.1 (some (str "Acme Care - Home")) none
    (str "Acme Care ") (str " Home") '-' (by decide) (by decide)
    (by decide) (by decide)

theorem lexLt_asymm (a : Str) : ∀ (b : Str), lexLt a b = true → lexLt b a = false := by
  induction a with
  | nil =>
    intro b h
    cases b with
    | nil => simp [lexLt] at h
    | cons y ys => simp [lexLt]
  | cons x xs ih =>
    intro b h
    cases b with
    | nil => simp [lexLt] at h
    | cons y ys =>
      simp only [lexLt] at h ⊢
      rcases lt_trichotomy x y with hlt | heq | hgt
      · rw [if_neg (asymm hlt), if_pos hlt]
      · subst heq
        rw [if_neg (lt_irrefl x), if_neg (lt_irrefl x)] at h ⊢
        exact ih ys h
      · rw [if_neg (asymm hgt), if_pos hgt] at h
        exact absurd h (by simp)

theorem lexLt_trans (a : Str) :
    ∀ (b c : Str), lexLt a b = true → lexLt b c = true → lexLt a c = true := by
  induction a with
  | nil =>
    intro b c h1 h2
    cases c with
    | nil =>
      cases b with
      | nil => simpa [lexLt] using h2
      | cons y ys => simpa [lexLt] using h2
    | cons z zs => simp [lexLt]
  | cons x xs ih =>
    intro b c h1 h2
    cases b with
    | nil => simp [lexLt] at h1
    | cons y ys =>
      cases c with
      | nil => simp [lexLt] at h2
      | cons z zs =>
        simp only [lexLt] at h1 h2 ⊢
        rcases lt_trichotomy x y with hxy | hxy | hxy
        · rcases lt_trichotomy y z with hyz | hyz | hyz
          · rw [if_pos (lt_trans hxy hyz)]
          · subst hyz
            rw [if_pos hxy]
          · rw [if_neg (asymm hyz), if_pos hyz] at h2
            exact absurd h2 (by simp)
        · subst hxy
          rw [if_neg (lt_irrefl x), if_neg (lt_irrefl x)] at h1
          rcases lt_trichotomy x z with hxz | hxz | hxz
          · rw [if_pos hxz]
          · subst hxz
            rw [if_neg (lt_irrefl x), if_neg (lt_irrefl x)] at h2 ⊢
            exact ih ys zs h1 h2
          · rw [if_neg (asymm hxz), if_pos hxz] at h2
            exact absurd h2 (by simp)
        · rw [if_neg (asymm hxy), if_pos hxy] at h1
          exact absurd h1 (by simp)

theorem lexLt_conn (a : Str) :
    ∀ (b : Str), lexLt a b = false → lexLt b a = false → a = b := by
  induction a with
  | nil =>
    intro b h1 h2
    cases b with
    | nil => rfl
    | cons y ys => simp [lexLt] at h1
  | cons x xs ih =>
    intro b h1 h2
    cases b with
    | nil => simp [lexLt] at h2
    | cons y ys =>
      simp only [lexLt] at h1 h2
      rcases lt_trichotomy x y with hxy | hxy | hxy
      · rw [if_pos hxy] at h1
        exact absurd h1 (by simp)
      · subst hxy
        rw [if_neg (lt_irrefl x), if_neg (lt_irrefl x)] at h1 h2
        rw [ih ys h1 h2]
      · rw [if_pos hxy] at h2
        exact absurd h2 (by simp)

theorem insertPair_mem (x : Str × Str) :
    ∀ (l : List (Str × Str)) (y : Str × Str), y ∈ insertPair x l → y = x ∨ y ∈ l := by
  intro l
  induction l with
  | nil =>
    intro y hy
    simp only [insertPair] at hy
    exact Or.inl (by simpa using hy)
  | cons z zs ih =>
    intro y hy
    simp only [insertPair] at hy
    split_ifs at hy with hc
    · rcases List.mem_cons.mp hy with h | h
      · exact Or.inl h
      · exact Or.inr h
    · rcases List.mem_cons.mp hy with h | h
      · exact Or.inr (by simp [h])
      · rcases ih y h with h2 | h2
        · exact Or.inl h2
        · exact Or.inr (by simp [h2])

theorem insertPair_sorted (x : Str × Str) :
    ∀ (l : List (Str × Str)), List.Pairwise keyLe l →
      List.Pairwise keyLe (insertPair x l) := by
  intro l
  induction l with
  | nil =>
    intro _
    simp [insertPair]
  | cons z zs ih =>
    intro h
    rcases List.pairwise_cons.mp h with ⟨hz, hzs⟩
    simp only [insertPair]
    split_ifs with hc
    · refine List.pairwise_cons.mpr ⟨?_, h⟩
      intro w hw
      rcases List.mem_cons.mp hw with hw | hw
      · subst hw
        exact lexLt_asymm _ _ hc
      · have hzw := hz w hw
        unfold keyLe at hzw ⊢
        cases hwx : lexLt w.1 x.1 with
        | false => rfl
        | true => exact absurd (lexLt_trans _ _ _ hwx hc) (by simp [hzw])
    · refine List.pairwise_cons.mpr ⟨?_, ih hzs⟩
      intro w hw
      rcases insertPair_mem x zs w hw with hw | hw
      · subst hw
        unfold keyLe
        exact Bool.not_eq_true _ ▸ (by simpa using hc)
      · exact hz w hw

theorem insertPair_append (x : Str × Str) :
    ∀ (l : List (Str × Str)), (∀ y ∈ l, lexLt x.1 y.1 = false) →
      insertPair x l = l ++ [x] := by
  intro l
  induction l with
  | nil => intro _; rfl
  | cons z zs ih =>
    intro h
    simp only [insertPair]
    rw [if_neg (by simp [h z (by simp)])]
    rw [ih (fun y hy => h y (by simp [hy]))]
    rfl

theorem foldl_insertPair_sorted :
    ∀ (rest acc : List (Str × Str)), List.Pairwise keyLe acc →
      List.Pairwise keyLe (rest.foldl (fun a x => insertPair x a) acc) := by
  intro rest
  induction rest with
  | nil => intro acc h; exact h
  | cons x rest ih =>
    intro acc h
    exact ih (insertPair x acc) (insertPair_sorted x acc h)

theorem sortPairs_sorted (l : List (Str × Str)) : List.Pairwise keyLe (sortPairs l) :=
  foldl_insertPair_sorted l [] (by simp)

theorem foldl_insertPair_mem :
    ∀ (rest acc : List (Str × Str)) (y : Str × Str),
      y ∈ rest.foldl (fun a x => insertPair x a) acc → y ∈ acc ∨ y ∈ rest := by
  intro rest
  induction rest with
  | nil => intro acc y hy; exact Or.inl hy
  | cons x rest ih =>
    intro acc y hy
    rcases ih (insertPair x acc) y hy with h | h
    · rcases insertPair_mem x acc y h with h2 | h2
      · exact Or.inr (by simp [h2])
      · exact Or.inl h2
    · exact Or.inr (by simp [h])

theorem sortPairs_mem (l : List (Str × Str)) (y : Str × Str) :
    y ∈ sortPairs l → y ∈ l := by
  intro hy
  rcases foldl_insertPair_mem l [] y hy with h | h
  · simp at h
  · exact h

theorem foldl_insertPair_of_sorted :
    ∀ (rest acc : List (Str × Str)), List.Pairwise keyLe (acc ++ rest) →
      rest.foldl (fun a x => insertPair x a) acc = acc ++ rest := by
  intro rest
  induction rest with
  | nil => intro acc _; simp
  | cons x rest ih =>
    intro acc h
    have hax : ∀ y ∈ acc, lexLt x.1 y.1 = false := by
      intro y hy
      have := (List.pairwise_append.mp h).2.2 y hy x (by simp)
      exact this
    simp only [List.foldl_cons]
    rw [insertPair_append x acc hax]
    rw [ih (acc ++ [x]) (by simpa using h)]
    simp

theorem sortPairs_of_sorted (l : List (Str × Str)) (h : List.Pairwise keyLe l) :
    sortPairs l = l :=
  foldl_insertPair_of_sorted l [] (by simpa using h)

theorem char_valid_facts (c : Char) :
    c.toNat < 0x110000 ∧ ¬(0xd800 ≤ c.toNat ∧ c.toNat < 0xe000) := by
  have hco : c.toNat = c.val.toNat := rfl
  rw [hco]
  rcases c.valid with h | ⟨h1, h2⟩
  · exact ⟨by omega, by omega⟩
  · exact ⟨by omega, by omega⟩

theorem isAlwaysSafe_ascii (c : Char) (h : isAlwaysSafe c = true) : c.toNat < 0x80 := by
  have hco : c.toNat = c.val.toNat := rfl
  rw [hco]
  simp only [isAlwaysSafe, Char.isAlpha, Char.isUpper, Char.isLower,
    Char.isDigit, Bool.or_eq_true, Bool.and_eq_true, decide_eq_true_eq] at h
  rcases h with ((((h | h) | h) | h) | h) | h
  · rcases h with ⟨h1, h2⟩ | ⟨h1, h2⟩
    · have h2n : c.val.toNat ≤ 90 := h2
      omega
    · have h2n : c.val.toNat ≤ 122 := h2
      omega
  · obtain ⟨h1, h2⟩ := h
    have h2n : c.val.toNat ≤ 57 := h2
    omega
  · subst h
    decide
  · subst h
    decide
  · subst h
    decide
  · subst h
    decide

theorem hexVal_hexUpper (n : Nat) (h : n < 16) : hexVal (hexUpper n) = some n := by
  interval_cases n <;> decide

theorem hexUpper_facts (n : Nat) (h : n < 16) :
    hexUpper n ≠ '+' ∧ hexUpper n ≠ '%' ∧ qpAllowed (hexUpper n) = true := by
  interval_cases n <;> exact ⟨by decide, by decide, by decide⟩

theorem utf8Bytes_lt256 (c : Char) : ∀ b ∈ utf8Bytes c, b < 256 := by
  obtain ⟨hmax, hsur⟩ := char_valid_facts c
  unfold utf8Bytes
  dsimp only
  split_ifs with h1 h2 h3 <;> intro b hb <;>
    simp only [List.mem_cons, List.not_mem_nil, or_false] at hb
  · subst hb
    omega
  · rcases hb with rfl | rfl <;> omega
  · rcases hb with rfl | rfl | rfl <;> omega
  · rcases hb with rfl | rfl | rfl | rfl <;> omega

theorem pctDecodeBytes_cons (c : Char) (hc : ¬c = '%') (s : Str) :
    pctDecodeBytes (c :: s) = c.toNat :: pctDecodeBytes s := by
  cases s with
  | nil => simp [pctDecodeBytes, hc]
  | cons a rest =>
    cases rest with
    | nil => simp [pctDecodeBytes, hc]
    | cons b rest2 => simp [pctDecodeBytes, hc]

theorem pctDecodeBytes_pctByte (b : Nat) (hb : b < 256) (s : Str) :
    pctDecodeBytes (pctByte b ++ s) = b :: pctDecodeBytes s := by
  have h1 := hexVal_hexUpper (b / 16) (by omega)
  have h2 := hexVal_hexUpper (b % 16) (by omega)
  simp only [pctByte, List.cons_append, List.nil_append, pctDecodeBytes, h1, h2]
  congr 1
  omega

theorem pctDecodeBytes_flat (bs : List Nat) (h : ∀ b ∈ bs, b < 256) (s : Str) :
    pctDecodeBytes (bs.flatMap pctByte ++ s) = bs ++ pctDecodeBytes s := by
  induction bs with
  | nil => simp
  | cons b rest ih =>
    simp only [List.flatMap_cons, List.append_assoc]
    rw [pctDecodeBytes_pctByte b (h b (by simp))]
    rw [ih (fun x hx => h x (by simp [hx]))]
    rfl

theorem utf8DecodeReplace_utf8Bytes (c : Char) (s : List Nat) :
    utf8DecodeReplace (utf8Bytes c ++ s) = c :: utf8DecodeReplace s := by
  obtain ⟨hmax, hsur⟩ := char_valid_facts c
  have hofn : Char.ofNat c.toNat = c := Char.ofNat_toNat c
  unfold utf8Bytes
  dsimp only
  split_ifs with h1 h2 h3
  · simp only [List.cons_append, List.nil_append]
    rw [utf8DecodeReplace.eq_def]
    dsimp only
    rw [if_pos h1, hofn]
  · simp only [List.cons_append, List.nil_append]
    rw [utf8DecodeReplace.eq_def]
    dsimp only
    rw [if_neg (by omega), if_pos (by constructor <;> omega)]
    rw [if_pos (show isCont (0x80 + c.toNat % 64) = true by
      simp only [isCont, Bool.and_eq_true, decide_eq_true_eq]
      constructor <;> omega)]
    rw [show 0xC0 + c.toNat / 64 - 0xC0 = c.toNat / 64 by omega]
    rw [show 0x80 + c.toNat % 64 - 0x80 = c.toNat % 64 by omega]
    rw [show c.toNat / 64 * 64 + c.toNat % 64 = c.toNat by omega]
    rw [hofn]
  · have hc3 : cont3Ok (0xE0 + c.toNat / 4096) (0x80 + c.toNat / 64 % 64) = true := by
      unfold cont3Ok isCont
      split_ifs with he1 he2
      · simp only [Bool.and_eq_true, decide_eq_true_eq]
        constructor <;> omega
      · simp only [Bool.and_eq_true, decide_eq_true_eq]
        constructor <;> omega
      · simp only [Bool.and_eq_true, decide_eq_true_eq]
        constructor <;> omega
    simp only [List.cons_append, List.nil_append]
    rw [utf8DecodeReplace.eq_def]
    dsimp only
    rw [if_neg (by omega), if_neg (by omega), if_pos (by constructor <;> omega)]
    rw [if_pos hc3]
    rw [if_pos (show isCont (0x80 + c.toNat % 64) = true by
      simp only [isCont, Bool.and_eq_true, decide_eq_true_eq]
      constructor <;> omega)]
    rw [show (0xE0 + c.toNat / 4096 - 0xE0) * 4096 + (0x80 + c.toNat / 64 % 64 - 0x80) * 64 +
        (0x80 + c.toNat % 64 - 0x80) = c.toNat by omega]
    rw [hofn]
  · have hc4 : cont4Ok (0xF0 + c.toNat / 262144) (0x80 + c.toNat / 4096 % 64) = true := by
      unfold cont4Ok isCont
      split_ifs with he1 he2
      · simp only [Bool.and_eq_true, decide_eq_true_eq]
        constructor <;> omega
      · simp only [Bool.and_eq_true, decide_eq_true_eq]
        constructor <;> omega
      · simp only [Bool.and_eq_true, decide_eq_true_eq]
        constructor <;> omega
    simp only [List.cons_append, List.nil_append]
    rw [utf8DecodeReplace.eq_def]
    dsimp only
    rw [if_neg (by omega), if_neg (by omega), if_neg (by omega),
      if_pos (by constructor <;> omega)]
    rw [if_pos hc4]
    rw [if_pos (show isCont (0x80 + c.toNat / 64 % 64) = true by
      simp only [isCont, Bool.and_eq_true, decide_eq_true_eq]
      constructor <;> omega)]
    rw [if_pos (show isCont (0x80 + c.toNat % 64) = true by
      simp only [isCont, Bool.and_eq_true, decide_eq_true_eq]
      constructor <;> omega)]
    rw [show (0xF0 + c.toNat / 262144 - 0xF0) * 262144 + (0x80 + c.toNat / 4096 % 64 - 0x80) * 4096 +
        (0x80 + c.toNat / 64 % 64 - 0x80) * 64 + (0x80 + c.toNat % 64 - 0x80) = c.toNat by omega]
    rw [hofn]

theorem utf8DecodeReplace_flat (s : Str) :
    utf8DecodeReplace (s.flatMap utf8Bytes) = s := by
  induction s with
  | nil => rfl
  | cons c cs ih =>
    simp only [List.flatMap_cons]
    rw [utf8DecodeReplace_utf8Bytes, ih]

theorem qpAllowed_ascii (c : Char) (h : qpAllowed c = true) : c.toNat < 0x80 := by
  simp only [qpAllowed, Bool.or_eq_true, Bool.and_eq_true, decide_eq_true_eq,
    Char.isDigit] at h
  rcases h with (((h | h) | h) | h) | h
  · exact isAlwaysSafe_ascii c h
  · subst h
    decide
  · subst h
    decide
  · obtain ⟨h1, h2⟩ := h
    have hco : c.toNat = c.val.toNat := rfl
    rw [hco]
    have h2n : c.val.toNat ≤ 57 := h2
    omega
  · obtain ⟨h1, h2⟩ := h
    have hco : c.toNat = c.val.toNat := rfl
    rw [hco]
    have h2n : c.val.toNat ≤ 70 := h2
    omega

theorem utf8Bytes_ne_nil (c : Char) : utf8Bytes c ≠ [] := by
  unfold utf8Bytes
  dsimp only
  split_ifs <;> simp

theorem quotePlus_allowed (s : Str) : ∀ x ∈ quotePlus s, qpAllowed x = true := by
  intro x hx
  unfold quotePlus at hx
  rw [List.mem_flatMap] at hx
  obtain ⟨c, _, hxc⟩ := hx
  unfold quotePlusChar at hxc
  split_ifs at hxc with h1 h2
  · rw [List.mem_singleton] at hxc
    subst hxc
    simp [qpAllowed, h1]
  · rw [List.mem_singleton] at hxc
    subst hxc
    decide
  · rw [List.mem_flatMap] at hxc
    obtain ⟨b, hb, hxb⟩ := hxc
    have hblt := utf8Bytes_lt256 c b hb
    simp only [pctByte, List.mem_cons, List.not_mem_nil, or_false] at hxb
    rcases hxb with rfl | rfl | rfl
    · decide
    · exact (hexUpper_facts (b / 16) (by omega)).2.2
    · exact (hexUpper_facts (b % 16) (by omega)).2.2

theorem flatMap_pctByte_map_plus (bs : List Nat) (h : ∀ b ∈ bs, b < 256) :
    (bs.flatMap pctByte).map (fun x => if x = '+' then ' ' else x) = bs.flatMap pctByte := by
  induction bs with
  | nil => rfl
  | cons b rest ih =>
    simp only [List.flatMap_cons, List.map_append]
    rw [ih (fun x hx => h x (by simp [hx]))]
    have hb := h b (by simp)
    obtain ⟨h1, -, -⟩ := hexUpper_facts (b / 16) (by omega)
    obtain ⟨h2, -, -⟩ := hexUpper_facts (b % 16) (by omega)
    congr 1
    simp [pctByte, h1, h2]

theorem quotePlus_map_plus (s : Str) :
    (quotePlus s).map (fun x => if x = '+' then ' ' else x) =
      s.flatMap (fun c => if isAlwaysSafe c then [c] else if c = ' ' then [' ']
        else (utf8Bytes c).flatMap pctByte) := by
  unfold quotePlus
  induction s with
  | nil => rfl
  | cons c cs ih =>
    simp only [List.flatMap_cons, List.map_append]
    rw [ih]
    congr 1
    unfold quotePlusChar
    split_ifs with h1 h2
    · have hcp : ¬c = '+' := by
        intro hc
        subst hc
        exact absurd h1 (by decide)
      simp [hcp]
    · simp
    · exact flatMap_pctByte_map_plus _ (utf8Bytes_lt256 c)

theorem pctDecodeBytes_qpP (s : Str) :
    pctDecodeBytes (s.flatMap (fun c => if isAlwaysSafe c then [c] else if c = ' ' then [' ']
      else (utf8Bytes c).flatMap pctByte)) = s.flatMap utf8Bytes := by
  induction s with
  | nil => rfl
  | cons c cs ih =>
    simp only [List.flatMap_cons]
    split_ifs with h1 h2
    · rw [List.singleton_append,
        pctDecodeBytes_cons c (by intro hc; subst hc; exact absurd h1 (by decide)), ih]
      have ha := isAlwaysSafe_ascii c h1
      rw [show utf8Bytes c = [c.toNat] by
        unfold utf8Bytes
        dsimp only
        rw [if_pos ha]]
      rfl
    · subst h2
      rw [List.singleton_append, pctDecodeBytes_cons ' ' (by decide), ih]
      rfl
    · rw [pctDecodeBytes_flat _ (utf8Bytes_lt256 c), ih]

theorem takeWhile_all {p : Char → Bool} :
    ∀ (l : Str), (∀ x ∈ l, p x = true) → l.takeWhile p = l ∧ l.dropWhile p = [] := by
  intro l
  induction l with
  | nil => intro _; exact ⟨rfl, rfl⟩
  | cons c rest ih =>
    intro h
    have hc := h c (by simp)
    obtain ⟨h1, h2⟩ := ih (fun x hx => h x (by simp [hx]))
    constructor
    · simp only [List.takeWhile_cons, hc, if_true]
      rw [h1]
    · simp only [List.dropWhile_cons, hc, if_true]
      exact h2

theorem unquoteRuns_nil : unquoteRuns [] = [] := by
  rw [unquoteRuns.eq_def]

theorem unquoteRuns_ascii (s : Str) (h : ∀ x ∈ s, isAsciiChar x = true) :
    unquoteRuns s = utf8DecodeReplace (pctDecodeBytes s) := by
  cases s with
  | nil =>
    rw [unquoteRuns_nil]
    rfl
  | cons c rest =>
    have hc := h c (by simp)
    obtain ⟨ht, hd⟩ := takeWhile_all (c :: rest) h
    rw [unquoteRuns.eq_def]
    dsimp only
    rw [dif_pos hc, ht, hd, unquoteRuns_nil]
    simp

theorem flatMap_singleton_of (s : Str) (f : Char → Str) (h : ∀ c ∈ s, f c = [c]) :
    s.flatMap f = s := by
  induction s with
  | nil => rfl
  | cons c cs ih =>
    simp only [List.flatMap_cons]
    rw [h c (by simp), ih (fun x hx => h x (by simp [hx]))]
    rfl

theorem unquotePlus_quotePlus (s : Str) : unquotePlus (quotePlus s) = s := by
  unfold unquotePlus unquote
  rw [quotePlus_map_plus]
  split_ifs with hct
  · rw [flatMap_singleton_of]
    intro c hc
    split_ifs with h1 h2
    · rfl
    · rw [h2]
    · exfalso
      simp only [Bool.not_eq_true'] at hct
      rw [List.contains_eq_any_beq] at hct
      have hmem : '%' ∈ s.flatMap (fun c => if isAlwaysSafe c then [c] else if c = ' ' then [' ']
          else (utf8Bytes c).flatMap pctByte) := by
        rw [List.mem_flatMap]
        refine ⟨c, hc, ?_⟩
        rw [if_neg (by simp [h1]), if_neg h2, List.mem_flatMap]
        obtain ⟨b, hb⟩ := List.exists_mem_of_ne_nil _ (utf8Bytes_ne_nil c)
        exact ⟨b, hb, by unfold pctByte; simp⟩
      rw [List.any_eq_false] at hct
      have hcc := hct _ hmem
      simp at hcc
  · rw [unquoteRuns_ascii, pctDecodeBytes_qpP, utf8DecodeReplace_flat]
    intro x hx
    rw [List.mem_flatMap] at hx
    obtain ⟨c, _, hxc⟩ := hx
    split_ifs at hxc with h1 h2
    · rw [List.mem_singleton] at hxc
      subst hxc
      simp only [isAsciiChar, decide_eq_true_eq]
      exact isAlwaysSafe_ascii x h1
    · rw [List.mem_singleton] at hxc
      subst hxc
      decide
    · rw [List.mem_flatMap] at hxc
      obtain ⟨b, hb, hxb⟩ := hxc
      have hblt := utf8Bytes_lt256 c b hb
      simp only [pctByte, List.mem_cons, List.not_mem_nil, or_false] at hxb
      simp only [isAsciiChar, decide_eq_true_eq]
      rcases hxb with rfl | rfl | rfl
      · decide
      · exact qpAllowed_ascii _ ((hexUpper_facts (b / 16) (by omega)).2.2)
      · exact qpAllowed_ascii _ ((hexUpper_facts (b % 16) (by omega)).2.2)

theorem qpAllowed_ne_sep (c : Char) (h : qpAllowed c = true) : ¬c = '=' ∧ ¬c = '&' := by
  constructor <;> intro hc <;> subst hc <;> exact absurd h (by decide)

theorem findIdx_sep_append (sep : Char) (b : Str) :
    ∀ (a : Str), (∀ x ∈ a, ¬x = sep) →
      (a ++ sep :: b).findIdx? (fun x => x = sep) = some a.length := by
  intro a
  induction a with
  | nil =>
    intro _
    simp [List.findIdx?_cons]
  | cons c cs ih =>
    intro ha
    have hc : decide (c = sep) = false := by simp [ha c (by simp)]
    simp only [List.cons_append, List.findIdx?_cons, hc, Bool.false_eq_true, if_false,
      List.findIdx?_succ]
    rw [ih (fun x hx => ha x (by simp [hx]))]
    simp

theorem splitOnce_append (sep : Char) (a b : Str) (ha : ∀ x ∈ a, ¬x = sep) :
    splitOnce sep (a ++ sep :: b) = (a, some b) := by
  unfold splitOnce
  rw [findIdx_sep_append sep b a ha]
  dsimp only
  rw [List.take_left]
  have hd : (a ++ sep :: b).drop (a.length + 1) = b := by
    rw [show a.length + 1 = (a ++ [sep]).length by simp]
    rw [show a ++ sep :: b = (a ++ [sep]) ++ b by simp]
    exact List.drop_left _ _
  rw [hd]

theorem filterMap_id_of_some (f : Str × Str → Option (Str × Str)) :
    ∀ (l : List (Str × Str)), (∀ x ∈ l, f x = some x) → l.filterMap f = l := by
  intro l
  induction l with
  | nil => intro _; rfl
  | cons x xs ih =>
    intro h
    rw [List.filterMap_cons, h x (by simp), ih (fun y hy => h y (by simp [hy]))]

theorem parseQsl_urlencodePairs (l : List (Str × Str)) :
    parseQsl (urlencodePairs l) = l := by
  cases l with
  | nil => rfl
  | cons p rest =>
    unfold parseQsl urlencodePairs
    have hnonempty : ∀ q ∈ (p :: rest).map
        (fun kv => quotePlus kv.1 ++ '=' :: quotePlus kv.2), '&' ∉ q := by
      intro q hq
      rw [List.mem_map] at hq
      obtain ⟨kv, _, rfl⟩ := hq
      intro hmem
      rcases List.mem_append.mp hmem with hm | hm
      · exact (qpAllowed_ne_sep _ (quotePlus_allowed _ _ hm)).2 rfl
      · rcases List.mem_cons.mp hm with he | hm
        · exact absurd he (by decide)
        · exact (qpAllowed_ne_sep _ (quotePlus_allowed _ _ hm)).2 rfl
    have hsplit : (List.intercalate ['&'] ((p :: rest).map
        (fun kv => quotePlus kv.1 ++ '=' :: quotePlus kv.2))).splitOn '&' =
        (p :: rest).map (fun kv => quotePlus kv.1 ++ '=' :: quotePlus kv.2) :=
      List.splitOn_intercalate _ '&' hnonempty (by simp)
    have hqs : (List.intercalate ['&'] ((p :: rest).map
        (fun kv => quotePlus kv.1 ++ '=' :: quotePlus kv.2))).isEmpty = false := by
      cases hq : List.intercalate ['&'] ((p :: rest).map
          (fun kv => quotePlus kv.1 ++ '=' :: quotePlus kv.2)) with
      | cons _ _ => rfl
      | nil =>
        exfalso
        rw [hq, List.splitOn_nil] at hsplit
        have h2 := congrArg List.head? hsplit
        simp only [List.map_cons, List.head?_cons] at h2
        have h3 : ([] : Str) = quotePlus p.1 ++ '=' :: quotePlus p.2 :=
          Option.some.inj h2
        exact absurd h3.symm (by simp)
    rw [if_neg (by simpa using hqs), hsplit, List.filterMap_map]
    apply filterMap_id_of_some
    intro kv _
    simp only [Function.comp_apply]
    have hne : ∀ x ∈ quotePlus kv.1, ¬x = '=' :=
      fun x hx => (qpAllowed_ne_sep x (quotePlus_allowed _ x hx)).1
    rw [if_neg (by simp), splitOnce_append '=' (quotePlus kv.1) (quotePlus kv.2) hne]
    dsimp only
    rw [unquotePlus_quotePlus]
    simp only [Option.getD_some]
    rw [unquotePlus_quotePlus]

theorem char_eq_iff_toNat (c d : Char) : c = d ↔ c.toNat = d.toNat :=
  ⟨fun h => congrArg Char.toNat h,
   fun h => by rw [← Char.ofNat_toNat c, h, Char.ofNat_toNat]⟩

theorem toLower_toNat (c : Char) (h : 65 ≤ c.toNat ∧ c.toNat ≤ 90) :
    (lowerChar c).toNat = c.toNat + 32 := by
  unfold lowerChar Char.toLower
  dsimp only
  rw [if_pos ⟨h.1, h.2⟩]
  have hv : (c.toNat + 32).isValidChar := Or.inl (by omega)
  simp only [Char.ofNat, hv, dite_true]
  rfl

theorem lowerChar_eq_of_not_upper (c : Char) (h : ¬(65 ≤ c.toNat ∧ c.toNat ≤ 90)) :
    lowerChar c = c := by
  unfold lowerChar Char.toLower
  dsimp only
  rw [if_neg (by omega)]

theorem lowerChar_idem (c : Char) : lowerChar (lowerChar c) = lowerChar c := by
  by_cases h : 65 ≤ c.toNat ∧ c.toNat ≤ 90
  · have h2 := toLower_toNat c h
    apply lowerChar_eq_of_not_upper
    rw [h2]
    omega
  · rw [lowerChar_eq_of_not_upper c h]
    exact lowerChar_eq_of_not_upper c h

theorem lower_lower (s : Str) : lower (lower s) = lower s := by
  unfold lower
  rw [List.map_map]
  exact List.map_congr_left (fun c _ => lowerChar_idem c)

theorem lowerChar_eq_lit (c d : Char) (hd : ¬(65 ≤ d.toNat ∧ d.toNat ≤ 90))
    (hd2 : ¬(97 ≤ d.toNat ∧ d.toNat ≤ 122)) : lowerChar c = d ↔ c = d := by
  by_cases hup : 65 ≤ c.toNat ∧ c.toNat ≤ 90
  · have ht := toLower_toNat c hup
    constructor
    · intro he
      exfalso
      rw [char_eq_iff_toNat, ht] at he
      omega
    · intro he
      subst he
      omega
  · rw [lowerChar_eq_of_not_upper c hup]

theorem isSchemeChar_lower (c : Char) : isSchemeChar (lowerChar c) = isSchemeChar c := by
  by_cases hup : 65 ≤ c.toNat ∧ c.toNat ≤ 90
  · have ht := toLower_toNat c hup
    have h1 : isSchemeChar c = true := by
      simp only [isSchemeChar, Char.isAlpha, Char.isUpper, Char.isLower, Char.isDigit,
        Bool.or_eq_true, Bool.and_eq_true, decide_eq_true_eq]
      refine Or.inl (Or.inl (Or.inl (Or.inl (Or.inl ⟨?_, ?_⟩))))
      · show (65 : Nat) ≤ c.toNat
        omega
      · show c.toNat ≤ (90 : Nat)
        omega
    have h2 : isSchemeChar (lowerChar c) = true := by
      simp only [isSchemeChar, Char.isAlpha, Char.isUpper, Char.isLower, Char.isDigit,
        Bool.or_eq_true, Bool.and_eq_true, decide_eq_true_eq]
      refine Or.inl (Or.inl (Or.inl (Or.inl (Or.inr ⟨?_, ?_⟩))))
      · show (97 : Nat) ≤ (lowerChar c).toNat
        omega
      · show (lowerChar c).toNat ≤ (122 : Nat)
        omega
    rw [h1, h2]
  · rw [lowerChar_eq_of_not_upper c hup]

theorem isAsciiAlpha_lower (c : Char) : isAsciiAlpha (lowerChar c) = isAsciiAlpha c := by
  by_cases hup : 65 ≤ c.toNat ∧ c.toNat ≤ 90
  · have ht := toLower_toNat c hup
    have h1 : isAsciiAlpha c = true := by
      simp only [isAsciiAlpha, Bool.or_eq_true, Bool.and_eq_true, decide_eq_true_eq]
      refine Or.inr ⟨?_, ?_⟩
      · show (65 : Nat) ≤ c.toNat
        omega
      · show c.toNat ≤ (90 : Nat)
        omega
    have h2 : isAsciiAlpha (lowerChar c) = true := by
      simp only [isAsciiAlpha, Bool.or_eq_true, Bool.and_eq_true, decide_eq_true_eq]
      refine Or.inl ⟨?_, ?_⟩
      · show (97 : Nat) ≤ (lowerChar c).toNat
        omega
      · show (lowerChar c).toNat ≤ (122 : Nat)
        omega
    rw [h1, h2]
  · rw [lowerChar_eq_of_not_upper c hup]

theorem isHexDigit_iff (c : Char) : isHexDigit c = true ↔
    (48 ≤ c.toNat ∧ c.toNat ≤ 57) ∨ (97 ≤ c.toNat ∧ c.toNat ≤ 102) ∨
    (65 ≤ c.toNat ∧ c.toNat ≤ 70) := by
  simp only [isHexDigit, Char.isDigit, Bool.or_eq_true, Bool.and_eq_true, decide_eq_true_eq]
  constructor
  · rintro ((⟨h1, h2⟩ | ⟨h1, h2⟩) | ⟨h1, h2⟩)
    · exact Or.inl ⟨h1, h2⟩
    · exact Or.inr (Or.inl ⟨h1, h2⟩)
    · exact Or.inr (Or.inr ⟨h1, h2⟩)
  · rintro (⟨h1, h2⟩ | ⟨h1, h2⟩ | ⟨h1, h2⟩)
    · exact Or.inl (Or.inl ⟨h1, h2⟩)
    · exact Or.inl (Or.inr ⟨h1, h2⟩)
    · exact Or.inr ⟨h1, h2⟩

theorem isHexDigit_lower (c : Char) : isHexDigit (lowerChar c) = isHexDigit c := by
  by_cases hup : 65 ≤ c.toNat ∧ c.toNat ≤ 90
  · have ht := toLower_toNat c hup
    by_cases hf : c.toNat ≤ 70
    · rw [(isHexDigit_iff c).2 (Or.inr (Or.inr ⟨hup.1, hf⟩)),
        (isHexDigit_iff _).2 (Or.inr (Or.inl ⟨by omega, by omega⟩))]
    · have h1 : isHexDigit c = false := by
        rw [Bool.eq_false_iff]
        intro hc
        rcases (isHexDigit_iff c).1 hc with h | h | h <;> omega
      have h2 : isHexDigit (lowerChar c) = false := by
        rw [Bool.eq_false_iff]
        intro hc
        rcases (isHexDigit_iff _).1 hc with h | h | h <;> omega
      rw [h1, h2]
  · rw [lowerChar_eq_of_not_upper c hup]

theorem findIdx?_take_false (p : Char → Bool) :
    ∀ (s : Str) (i : Nat), s.findIdx? p = some i → ∀ x ∈ s.take i, p x = false := by
  intro s
  induction s with
  | nil =>
    intro i h
    rw [List.findIdx?_nil] at h
    exact Option.noConfusion h
  | cons c cs ih =>
    intro i h
    rw [List.findIdx?_cons] at h
    by_cases hc : p c
    · rw [if_pos hc] at h
      cases h
      simp
    · rw [if_neg hc] at h
      simp only [List.findIdx?_succ] at h
      cases hf : cs.findIdx? p with
      | none =>
        rw [hf] at h
        simp at h
      | some j =>
        rw [hf] at h
        simp only [Option.map_some'] at h
        cases h
        intro x hx
        rw [List.take_succ_cons] at hx
        rcases List.mem_cons.mp hx with rfl | hx
        · simpa using hc
        · exact ih j hf x hx

theorem findIdx?_none_false (p : Char → Bool) (s : Str) (h : s.findIdx? p = none) :
    ∀ x ∈ s, p x = false := by
  rw [List.findIdx?_eq_none_iff] at h
  intro x hx
  simpa using h x hx

theorem splitOnce_fst_no_sep (sep : Char) (s : Str) :
    ∀ x ∈ (splitOnce sep s).1, ¬x = sep := by
  unfold splitOnce
  cases hf : s.findIdx? (fun c => c = sep) with
  | none =>
    dsimp only
    intro x hx
    simpa using findIdx?_none_false _ s hf x hx
  | some i =>
    dsimp only
    intro x hx
    simpa using findIdx?_take_false _ s i hf x hx

theorem splitOnce_fst_pref (sep : Char) (s : Str) : (splitOnce sep s).1 <+: s := by
  unfold splitOnce
  cases hf : s.findIdx? (fun c => c = sep) <;> dsimp only
  · exact List.prefix_refl s
  · exact List.take_prefix _ s

theorem all_of_mem (p : Char → Bool) (l : Str) (h : ∀ x ∈ l, p x = true) : l.all p = true := by
  rw [List.all_eq_true]
  exact h

theorem dropWhile_append_all (p : Char → Bool) (a b : Str) (h : ∀ x ∈ a, p x = true) :
    (a ++ b).dropWhile p = b.dropWhile p := by
  rw [List.dropWhile_append, (takeWhile_all a h).2]
  simp

theorem contains_append_char (a b : Str) (d : Char) :
    (a ++ b).contains d = (a.contains d || b.contains d) := by
  simp [List.contains_eq_any_beq, List.any_append]

theorem contains_lower_bracket (s : Str) (d : Char) (hd : ¬(65 ≤ d.toNat ∧ d.toNat ≤ 90))
    (hd2 : ¬(97 ≤ d.toNat ∧ d.toNat ≤ 122)) : (lower s).contains d = s.contains d := by
  unfold lower
  simp only [List.contains_eq_any_beq, List.any_map]
  induction s with
  | nil => rfl
  | cons c cs ih =>
    simp only [List.any_cons, Function.comp_apply]
    rw [ih]
    congr 1
    by_cases he : c = d
    · subst he
      simp [lowerChar_eq_of_not_upper c hd]
    · have he2 : ¬lowerChar c = d := fun hc => he ((lowerChar_eq_lit c d hd hd2).mp hc)
      have hb1 : (d == lowerChar c) = false := beq_eq_false_iff_ne.mpr (fun h => he2 h.symm)
      have hb2 : (d == c) = false := beq_eq_false_iff_ne.mpr (fun h => he h.symm)
      rw [hb1, hb2]

theorem lower_drop (s : Str) (n : Nat) : lower (s.drop n) = (lower s).drop n := by
  unfold lower
  rw [List.map_drop]

theorem isNetlocDelim_lower (c : Char) : isNetlocDelim (lowerChar c) = isNetlocDelim c := by
  unfold isNetlocDelim
  rw [decide_eq_decide.mpr (lowerChar_eq_lit c '/' (by decide) (by decide)),
    decide_eq_decide.mpr (lowerChar_eq_lit c '?' (by decide) (by decide)),
    decide_eq_decide.mpr (lowerChar_eq_lit c '#' (by decide) (by decide))]

theorem isUnsafeUrlChar_lower (c : Char) : isUnsafeUrlChar (lowerChar c) = isUnsafeUrlChar c := by
  unfold isUnsafeUrlChar
  rw [decide_eq_decide.mpr (lowerChar_eq_lit c '\t' (by decide) (by decide)),
    decide_eq_decide.mpr (lowerChar_eq_lit c '\r' (by decide) (by decide)),
    decide_eq_decide.mpr (lowerChar_eq_lit c '\n' (by decide) (by decide))]

theorem lowerChar_eq_v (c : Char) (h : lowerChar c = 'v') : c = 'v' ∨ c = 'V' := by
  by_cases hup : 65 ≤ c.toNat ∧ c.toNat ≤ 90
  · right
    have ht := toLower_toNat c hup
    rw [char_eq_iff_toNat] at h
    rw [char_eq_iff_toNat]
    have hv : ('v').toNat = 118 := rfl
    have hV : ('V').toNat = 86 := rfl
    omega
  · left
    rw [lowerChar_eq_of_not_upper c hup] at h
    exact h

theorem bracketedHostOk_v (r : List Char) : bracketedHostOk ('v' :: r) =
    (!(r.takeWhile isHexDigit).isEmpty &&
     decide ((r.dropWhile isHexDigit).head? = some '.') &&
     !(List.drop 1 (r.dropWhile isHexDigit)).isEmpty) := rfl

theorem bracketedHostOk_other (x : Str) (hno : ∀ r, x ≠ 'v' :: r) :
    bracketedHostOk x = ((x.all fun c => isHexDigit c || decide (c = ':') ||
      decide (c = '.') || decide (c = '%')) && x.contains ':') := by
  unfold bracketedHostOk
  split
  · rename_i r
    exact absurd rfl (hno r)
  · rfl

theorem lower_cons (c : Char) (t : Str) : lower (c :: t) = lowerChar c :: lower t := rfl

theorem bracketedHostOk_lower (x : Str) (h : bracketedHostOk x = true) :
    bracketedHostOk (lower x) = true := by
  have hfun : (isHexDigit ∘ lowerChar) = isHexDigit := funext isHexDigit_lower
  have htot : ((fun c => isHexDigit c || decide (c = ':') || decide (c = '.') ||
      decide (c = '%')) ∘ lowerChar) = (fun c => isHexDigit c || decide (c = ':') ||
      decide (c = '.') || decide (c = '%')) := by
    funext c
    simp only [Function.comp_apply]
    rw [isHexDigit_lower,
      decide_eq_decide.mpr (lowerChar_eq_lit c ':' (by decide) (by decide)),
      decide_eq_decide.mpr (lowerChar_eq_lit c '.' (by decide) (by decide)),
      decide_eq_decide.mpr (lowerChar_eq_lit c '%' (by decide) (by decide))]
  cases x with
  | nil => exact absurd h (by decide)
  | cons c t =>
    by_cases hv : c = 'v'
    · subst hv
      rw [bracketedHostOk_v] at h
      rw [lower_cons, show lowerChar 'v' = 'v' from rfl, bracketedHostOk_v]
      simp only [Bool.and_eq_true, Bool.not_eq_true', decide_eq_true_eq] at h
      obtain ⟨⟨h1, h2⟩, h3⟩ := h
      rw [show lower t = List.map lowerChar t from rfl, List.takeWhile_map,
        List.dropWhile_map, hfun]
      simp only [Bool.and_eq_true, Bool.not_eq_true', decide_eq_true_eq]
      refine ⟨⟨?_, ?_⟩, ?_⟩
      · simpa using h1
      · rw [List.head?_map, h2]
        rfl
      · rw [← List.map_drop]
        revert h3
        rcases List.drop 1 (List.dropWhile isHexDigit t) with _ | ⟨a, b⟩
        · intro h3
          simp at h3
        · intro _
          rfl
    · have hno : ∀ r, c :: t ≠ 'v' :: r := fun r he => hv (List.cons_eq_cons.mp he).1
      rw [bracketedHostOk_other (c :: t) hno, Bool.and_eq_true] at h
      obtain ⟨hall, hcon⟩ := h
      have hnol : ∀ r, lower (c :: t) ≠ 'v' :: r := by
        intro r he
        rw [lower_cons] at he
        have hc := (List.cons_eq_cons.mp he).1
        rcases lowerChar_eq_v c hc with rfl | rfl
        · exact hv rfl
        · rw [List.all_cons, Bool.and_eq_true] at hall
          exact absurd hall.1 (by decide)
      rw [bracketedHostOk_other _ hnol, Bool.and_eq_true]
      constructor
      · rw [show lower (c :: t) = List.map lowerChar (c :: t) from rfl, List.all_map, htot]
        exact hall
      · rw [contains_lower_bracket _ ':' (by decide) (by decide)]
        exact hcon

theorem checkNetlocBrackets_lower (x : Str) (h : checkNetlocBrackets x = .ok ()) :
    checkNetlocBrackets (lower x) = .ok () := by
  have hf2 : ((fun c : Char => decide (c ≠ '[')) ∘ lowerChar) =
      (fun c : Char => decide (c ≠ '[')) := by
    funext c
    simp only [Function.comp_apply]
    exact decide_eq_decide.mpr (not_congr (lowerChar_eq_lit c '[' (by decide) (by decide)))
  have hf3 : ((fun c : Char => decide (c ≠ ']')) ∘ lowerChar) =
      (fun c : Char => decide (c ≠ ']')) := by
    funext c
    simp only [Function.comp_apply]
    exact decide_eq_decide.mpr (not_congr (lowerChar_eq_lit c ']' (by decide) (by decide)))
  unfold checkNetlocBrackets at h ⊢
  dsimp only at h ⊢
  rw [contains_lower_bracket x '[' (by decide) (by decide),
    contains_lower_bracket x ']' (by decide) (by decide)]
  have hb : List.takeWhile (fun c => decide (c ≠ ']'))
      (List.drop 1 (List.dropWhile (fun c => decide (c ≠ '[')) (lower x))) =
      lower (List.takeWhile (fun c => decide (c ≠ ']'))
        (List.drop 1 (List.dropWhile (fun c => decide (c ≠ '[')) x))) := by
    rw [show lower x = List.map lowerChar x from rfl, List.dropWhile_map, hf2,
      ← List.map_drop, List.takeWhile_map, hf3]
    rfl
  by_cases h1 : (List.contains x '[' && !List.contains x ']' ||
      List.contains x ']' && !List.contains x '[') = true
  · rw [if_pos h1] at h
    exact Except.noConfusion h
  · rw [if_neg h1] at h ⊢
    by_cases h2 : (List.contains x '[' && List.contains x ']') = true
    · rw [if_pos h2] at h ⊢
      rw [hb]
      split at h
      · rename_i hok
        rw [if_pos (bracketedHostOk_lower _ hok)]
      · exact Except.noConfusion h
    · rw [if_neg h2]

theorem checkNetlocBrackets_drop4 (y : Str)
    (h : checkNetlocBrackets ((str "www.") ++ y) = .ok ()) :
    checkNetlocBrackets y = .ok () := by
  unfold checkNetlocBrackets at h ⊢
  dsimp only at h ⊢
  rw [contains_append_char, contains_append_char,
    show (str "www.").contains '[' = false from rfl,
    show (str "www.").contains ']' = false from rfl] at h
  simp only [Bool.false_or] at h
  rw [dropWhile_append_all (fun c => decide (c ≠ '[')) (str "www.") y (by decide)] at h
  exact h

theorem unsafe_isC0 (c : Char) (h : isUnsafeUrlChar c = true) : isC0OrSpace c = true := by
  simp only [isUnsafeUrlChar, Bool.or_eq_true, decide_eq_true_eq] at h
  rcases h with (rfl | rfl) | rfl <;> decide

theorem rstripSlash_pref (s : Str) : rstripSlash s <+: s := by
  unfold rstripSlash
  have h := List.IsSuffix.reverse (List.dropWhile_suffix (l := s.reverse)
    (p := fun c => decide (c = '/')))
  simpa using h

theorem rstripSlash_ends (s : Str) : endsWithChar '/' (rstripSlash s) = false := by
  unfold rstripSlash endsWithChar
  cases hd : s.reverse.dropWhile (fun c => c = '/') with
  | nil => simp
  | cons c cs =>
    rw [List.getLast?_reverse]
    have hc := List.head?_dropWhile_not (fun c => decide (c = '/')) s.reverse
    rw [hd] at hc
    simp only [List.head?_cons, Option.elim_some] at hc
    simp only [List.head?_cons]
    simpa using hc

theorem findIdx?_found (p : Char → Bool) :
    ∀ (s : Str) (i : Nat), s.findIdx? p = some i →
      ∃ h : i < s.length, p (s.get ⟨i, h⟩) = true := by
  intro s
  induction s with
  | nil =>
    intro i h
    rw [List.findIdx?_nil] at h
    exact Option.noConfusion h
  | cons c cs ih =>
    intro i h
    rw [List.findIdx?_cons] at h
    by_cases hc : p c
    · rw [if_pos hc] at h
      cases h
      exact ⟨by simp, hc⟩
    · rw [if_neg hc] at h
      simp only [List.findIdx?_succ] at h
      cases hf : cs.findIdx? p with
      | none =>
        rw [hf] at h
        simp at h
      | some j =>
        rw [hf] at h
        simp only [Option.map_some'] at h
        cases h
        obtain ⟨hlt, hp⟩ := ih j hf
        exact ⟨by simpa using Nat.succ_lt_succ hlt, hp⟩

theorem findIdx?_of (p : Char → Bool) :
    ∀ (s : Str) (i : Nat) (hlt : i < s.length), p (s.get ⟨i, hlt⟩) = true →
      (∀ x ∈ s.take i, p x = false) → s.findIdx? p = some i := by
  intro s
  induction s with
  | nil =>
    intro i hlt
    simp at hlt
  | cons c cs ih =>
    intro i hlt hp hbefore
    rw [List.findIdx?_cons]
    cases i with
    | zero =>
      rw [if_pos (by simpa using hp)]
    | succ j =>
      have hc : p c = false := hbefore c (by simp [List.take_succ_cons])
      rw [if_neg (by simp [hc])]
      simp only [List.findIdx?_succ]
      rw [ih j (by simpa using hlt) (by simpa using hp)
        (fun x hx => hbefore x (by simp [List.take_succ_cons, hx]))]
      rfl

theorem splitScheme_wf (u : Str) :
    (splitScheme u).1 = [] ∨
    (lower (splitScheme u).1 = (splitScheme u).1 ∧
     (splitScheme u).1.all isSchemeChar = true ∧
     (splitScheme u).1.head?.elim false isAsciiAlpha = true) := by
  unfold splitScheme
  cases hf : u.findIdx? (fun c => c = ':') with
  | none => exact Or.inl rfl
  | some i =>
    dsimp only
    split_ifs with hc
    · right
      obtain ⟨hi, hhead, hall⟩ := hc
      refine ⟨lower_lower _, ?_, ?_⟩
      · apply all_of_mem
        intro x hx
        rw [show lower (u.take i) = List.map lowerChar (u.take i) from rfl,
          List.mem_map] at hx
        obtain ⟨y, hy, rfl⟩ := hx
        rw [isSchemeChar_lower]
        rw [List.all_eq_true] at hall
        exact hall y hy
      · cases hu : u with
        | nil =>
          rw [hu] at hf
          rw [List.findIdx?_nil] at hf
          exact Option.noConfusion hf
        | cons c rest =>
          cases i with
          | zero => omega
          | succ j =>
            dsimp only
            rw [show (c :: rest).take (j + 1) = c :: rest.take j from rfl, lower_cons]
            simp only [List.head?_cons, Option.elim_some]
            rw [isAsciiAlpha_lower]
            rw [hu] at hhead
            simpa using hhead
    · exact Or.inl rfl

theorem splitScheme_reject_prefix (w u : Str) (hpre : w <+: u)
    (hrej : (splitScheme u).1 = []) (x : Str) (hx : ∀ ch ∈ x, ¬ch = ':') :
    splitScheme (w ++ x) = ([], w ++ x) := by
  unfold splitScheme
  cases hf : (w ++ x).findIdx? (fun c => c = ':') with
  | none => rfl
  | some j =>
    dsimp only
    obtain ⟨hlt, hget⟩ := findIdx?_found _ _ _ hf
    have hbefore := findIdx?_take_false _ _ _ hf
    have hjw : j < w.length := by
      by_contra hge
      push_neg at hge
      have hgx : (w ++ x).get ⟨j, hlt⟩ ∈ x := by
        rw [List.get_eq_getElem, List.getElem_append_right hge]
        exact List.getElem_mem _
      exact absurd (by simpa using hget) (hx _ hgx)
    obtain ⟨t, rfl⟩ := hpre
    have hjw2 : j < (w ++ t).length := by
      simp only [List.length_append]
      omega
    have hgu : (w ++ t).get ⟨j, hjw2⟩ = ':' := by
      rw [List.get_eq_getElem, List.getElem_append_left hjw]
      rw [List.get_eq_getElem, List.getElem_append_left hjw] at hget
      simpa using hget
    have hbu : ∀ y ∈ (w ++ t).take j, (fun c => decide (c = ':')) y = false := by
      intro y hy
      apply hbefore
      rw [List.take_append_of_le_length (by omega)] at hy ⊢
      exact hy
    have hfu : (w ++ t).findIdx? (fun c => c = ':') = some j :=
      findIdx?_of _ _ j hjw2 (by simpa using hgu) hbu
    rw [if_neg]
    intro ⟨hj0, hhead, hall⟩
    unfold splitScheme at hrej
    rw [hfu] at hrej
    dsimp only at hrej
    rw [if_pos ?_] at hrej
    · have : j ≤ (w ++ t).length := by omega
      have hne : lower ((w ++ t).take j) ≠ [] := by
        intro hnil
        have hlen := congrArg List.length hnil
        simp only [show lower ((w ++ t).take j) = List.map lowerChar ((w ++ t).take j) from
          rfl, List.length_map, List.length_take, List.length_nil] at hlen
        omega
      exact hne hrej
    · refine ⟨hj0, ?_, ?_⟩
      · cases w with
        | nil => simp at hjw
        | cons c rest => simpa using hhead
      · rw [List.take_append_of_le_length (by omega)] at hall ⊢
        exact hall

theorem head?_of_pref (w v : Str) (h : w <+: v) (hne : w ≠ []) : w.head? = v.head? := by
  obtain ⟨t, rfl⟩ := h
  cases w with
  | nil => exact absurd rfl hne
  | cons c rest => rfl

theorem isNetlocDelim_cases (c : Char) (h : isNetlocDelim c = true) :
    c = '/' ∨ c = '?' ∨ c = '#' := by
  simp only [isNetlocDelim, Bool.or_eq_true, decide_eq_true_eq] at h
  rcases h with (h | h) | h
  · exact Or.inl h
  · exact Or.inr (Or.inl h)
  · exact Or.inr (Or.inr h)

theorem splitScheme_snd_of_rej (u : Str) (h : (splitScheme u).1 = []) :
    (splitScheme u).2 = u := by
  unfold splitScheme at h ⊢
  cases hf : u.findIdx? (fun c => c = ':') with
  | none => rfl
  | some i =>
    rw [hf] at h
    dsimp only at h ⊢
    split_ifs at h ⊢ with hc
    · exfalso
      obtain ⟨hi, hhead, hall⟩ := hc
      have hlen := congrArg List.length h
      obtain ⟨hlt, hget⟩ := findIdx?_found _ _ _ hf
      simp only [show lower (u.take i) = List.map lowerChar (u.take i) from rfl,
        List.length_map, List.length_take, List.length_nil] at hlen
      omega
    · rfl

theorem splitScheme_reject_head (v : Str) (c : Char) (hc : v.head? = some c)
    (ha : isAsciiAlpha c = false) : splitScheme v = ([], v) := by
  unfold splitScheme
  cases hf : v.findIdx? (fun x => x = ':') with
  | none => rfl
  | some i =>
    dsimp only
    rw [if_neg]
    intro ⟨hi, hhead, hall⟩
    rw [hc] at hhead
    simp only [Option.elim_some] at hhead
    rw [ha] at hhead
    exact Bool.noConfusion hhead

theorem stripped_filter_head (url : Str) (c : Char)
    (hc : ((url.dropWhile isC0OrSpace).filter (fun c => !isUnsafeUrlChar c)).head? =
      some c) : isC0OrSpace c = false := by
  cases hd : url.dropWhile isC0OrSpace with
  | nil =>
    rw [hd] at hc
    exact Option.noConfusion hc
  | cons d rest =>
    have hnd := List.head?_dropWhile_not isC0OrSpace url
    rw [hd] at hnd hc
    simp only [List.head?_cons, Option.elim_some] at hnd
    have hq : (!isUnsafeUrlChar d) = true := by
      cases hu : isUnsafeUrlChar d with
      | false => rfl
      | true => exact absurd (unsafe_isC0 d hu) (by simp [hnd])
    rw [List.filter_cons, if_pos hq] at hc
    rw [List.head?_cons] at hc
    cases hc
    exact hnd

theorem splitScheme_snd_subset (u : Str) : ∀ x ∈ (splitScheme u).2, x ∈ u := by
  unfold splitScheme
  cases hf : u.findIdx? (fun c => c = ':') with
  | none =>
    intro x hx
    exact hx
  | some i =>
    dsimp only
    split_ifs with hc
    · intro x hx
      exact List.drop_subset _ u hx
    · intro x hx
      exact hx

theorem splitParams_fst_prefix (p : Str) : (splitParams p).1 <+: p := by
  unfold splitParams
  split_ifs with hc
  · dsimp only
    split
    · exact List.prefix_refl p
    · exact List.take_prefix _ p
  · split
    · exact List.prefix_refl p
    · exact List.take_prefix _ p

theorem urlsplitM_spec (u : Str) (s : UrlSplitRes) (h : urlsplitM u = .ok s) :
    ∃ u3 u4,
      splitScheme ((u.dropWhile isC0OrSpace).filter (fun c => !isUnsafeUrlChar c)) =
        (s.scheme, u3) ∧
      checkNetlocBrackets s.netloc = .ok () ∧
      ((['/', '/'].isPrefixOf u3 = true ∧
        s.netloc = (u3.drop 2).takeWhile (fun c => !isNetlocDelim c) ∧
        u4 = (u3.drop 2).dropWhile (fun c => !isNetlocDelim c)) ∨
       (['/', '/'].isPrefixOf u3 = false ∧ s.netloc = [] ∧ u4 = u3)) ∧
      s.path = (splitOnce '?' (splitOnce '#' u4).1).1 := by
  unfold urlsplitM at h
  simp only [bind, Except.bind] at h
  rcases hsp : splitScheme ((u.dropWhile isC0OrSpace).filter (fun c => !isUnsafeUrlChar c))
    with ⟨S0, u3⟩
  rw [hsp] at h
  dsimp only at h
  by_cases hnet : ['/', '/'].isPrefixOf u3 = true
  · rw [if_pos hnet] at h
    cases hbr : checkNetlocBrackets (splitNetloc u3).1 with
    | error e =>
      rw [hbr] at h
      exact Except.noConfusion h
    | ok v =>
      rw [hbr] at h
      dsimp only at h
      cases h
      refine ⟨u3, (splitNetloc u3).2, ?_, ?_, ?_, ?_⟩
      · rfl
      · exact hbr
      · left
        exact ⟨hnet, rfl, rfl⟩
      · rfl
  · rw [if_neg hnet] at h
    cases hbr : checkNetlocBrackets ([] : Str) with
    | error e =>
      rw [hbr] at h
      exact Except.noConfusion h
    | ok v =>
      rw [hbr] at h
      dsimp only at h
      cases h
      refine ⟨u3, u3, ?_, ?_, ?_, ?_⟩
      · rfl
      · exact hbr
      · right
        refine ⟨?_, rfl, rfl⟩
        rw [Bool.eq_false_iff]
        exact hnet
      · rfl

theorem urlparseM_spec (u : Str) (p : UrlParseRes) (h : urlparseM u = .ok p) :
    ∃ s, urlsplitM u = .ok s ∧ p.scheme = s.scheme ∧ p.netloc = s.netloc ∧
      p.path <+: s.path ∧ p.query = s.query := by
  unfold urlparseM at h
  cases hsu : urlsplitM u with
  | error e =>
    rw [hsu] at h
    simp only [bind, Except.bind] at h
    exact Except.noConfusion h
  | ok s =>
    rw [hsu] at h
    simp only [bind, Except.bind] at h
    cases h
    refine ⟨s, rfl, rfl, rfl, ?_, rfl⟩
    dsimp only
    split_ifs with hc
    · exact splitParams_fst_prefix s.path
    · exact List.prefix_refl s.path

theorem normParts_stable (u : Str) (parts : NormParts)
    (hp : normParts u = .ok parts)
    (h1 : (str "www.").isPrefixOf parts.netloc = false)
    (h2 : parts.path ≠ [])
    (h3 : (parts.path.reverse.takeWhile (fun c => c ≠ '/')).contains ';' = false)
    (h4 : ¬(parts.netloc = [] ∧ ['/', '/'].isPrefixOf parts.path)) :
    StableParts parts := by
  unfold normParts at hp
  cases hpar : urlparseM u with
  | error e =>
    rw [hpar] at hp
    simp only [bind, Except.bind] at hp
    exact Except.noConfusion hp
  | ok p =>
    rw [hpar] at hp
    simp only [bind, Except.bind] at hp
    obtain ⟨s, hsu, hps, hpn, hppre, hpq⟩ := urlparseM_spec u p hpar
    obtain ⟨u3, u4, hsp, hbr, hcs, hspath⟩ := urlsplitM_spec u s hsu
    cases hp
    dsimp only at h1 h2 h3 h4
    have hfil : ∀ x ∈ (u.dropWhile isC0OrSpace).filter (fun c => !isUnsafeUrlChar c),
        isUnsafeUrlChar x = false := by
      intro x hx
      rw [List.mem_filter] at hx
      simpa using hx.2
    have hu3sub : ∀ x ∈ u3, x ∈ (u.dropWhile isC0OrSpace).filter
        (fun c => !isUnsafeUrlChar c) := by
      intro x hx
      have := splitScheme_snd_subset ((u.dropWhile isC0OrSpace).filter
        (fun c => !isUnsafeUrlChar c))
      rw [hsp] at this
      exact this x hx
    have hu4sub : ∀ x ∈ u4, x ∈ (u.dropWhile isC0OrSpace).filter
        (fun c => !isUnsafeUrlChar c) := by
      rcases hcs with ⟨hnet, hN0, hu4⟩ | ⟨hnet, hN0, hu4⟩
      · intro x hx
        rw [hu4] at hx
        exact hu3sub x (List.drop_subset 2 u3 ((List.dropWhile_suffix _).subset hx))
      · intro x hx
        rw [hu4] at hx
        exact hu3sub x hx
    have hN0d : ∀ y ∈ s.netloc, isNetlocDelim y = false := by
      rcases hcs with ⟨hnet, hN0, hu4⟩ | ⟨hnet, hN0, hu4⟩
      · rw [hN0]
        intro y hy
        have := List.mem_takeWhile_imp hy
        simpa using this
      · rw [hN0]
        intro y hy
        exact absurd hy (List.not_mem_nil y)
    have hN0u : ∀ y ∈ s.netloc, isUnsafeUrlChar y = false := by
      rcases hcs with ⟨hnet, hN0, hu4⟩ | ⟨hnet, hN0, hu4⟩
      · rw [hN0]
        intro y hy
        exact hfil y (hu3sub y (List.drop_subset 2 u3 ((List.takeWhile_prefix _).subset hy)))
      · rw [hN0]
        intro y hy
        exact absurd hy (List.not_mem_nil y)
    have hsub5 : ∀ x ∈ p.path, x ∈ (splitOnce '#' u4).1 := by
      intro x hx
      have hx2 := hppre.subset hx
      rw [hspath] at hx2
      exact (splitOnce_fst_pref '?' _).subset hx2
    have hnoq : ∀ x ∈ p.path, ¬x = '?' := by
      intro x hx
      have hx2 := hppre.subset hx
      rw [hspath] at hx2
      exact splitOnce_fst_no_sep '?' _ x hx2
    have hnohash : ∀ x ∈ p.path, ¬x = '#' :=
      fun x hx => splitOnce_fst_no_sep '#' u4 x (hsub5 x hx)
    have hnounsafe : ∀ x ∈ p.path, isUnsafeUrlChar x = false :=
      fun x hx => hfil x (hu4sub x ((splitOnce_fst_pref '#' u4).subset (hsub5 x hx)))
    have hppre4 : p.path <+: u4 := by
      refine hppre.trans ?_
      rw [hspath]
      exact (splitOnce_fst_pref '?' _).trans (splitOnce_fst_pref '#' u4)
    have hPmem : ∀ x ∈ (if (if p.path.isEmpty = true then str "/" else p.path) ≠ str "/" ∧
        endsWithChar '/' (if p.path.isEmpty = true then str "/" else p.path) = true then
          rstripSlash (if p.path.isEmpty = true then str "/" else p.path)
        else (if p.path.isEmpty = true then str "/" else p.path)),
        x = '/' ∨ x ∈ p.path := by
      intro x hx
      have hx1 : x ∈ (if p.path.isEmpty = true then str "/" else p.path) := by
        by_cases hc : (if p.path.isEmpty = true then str "/" else p.path) ≠ str "/" ∧
            endsWithChar '/' (if p.path.isEmpty = true then str "/" else p.path) = true
        · rw [if_pos hc] at hx
          exact (rstripSlash_pref _).subset hx
        · rw [if_neg hc] at hx
          exact hx
      by_cases he : p.path.isEmpty = true
      · rw [if_pos he] at hx1
        left
        simpa [str] using hx1
      · rw [if_neg he] at hx1
        right
        exact hx1
    have hPpre : (if (if p.path.isEmpty = true then str "/" else p.path) ≠ str "/" ∧
        endsWithChar '/' (if p.path.isEmpty = true then str "/" else p.path) = true then
          rstripSlash (if p.path.isEmpty = true then str "/" else p.path)
        else (if p.path.isEmpty = true then str "/" else p.path)) <+:
        (if p.path.isEmpty = true then str "/" else p.path) := by
      by_cases hc : (if p.path.isEmpty = true then str "/" else p.path) ≠ str "/" ∧
          endsWithChar '/' (if p.path.isEmpty = true then str "/" else p.path) = true
      · rw [if_pos hc]
        exact rstripSlash_pref _
      · rw [if_neg hc]
    have hmemN : ∀ x ∈ (if (str "www.").isPrefixOf (lower p.netloc) = true then
        (lower p.netloc).drop 4 else lower p.netloc), ∃ y ∈ s.netloc, x = lowerChar y := by
      intro x hx
      have hx1 : x ∈ lower p.netloc := by
        split_ifs at hx with hc
        · exact List.drop_subset 4 _ hx
        · exact hx
      rw [show lower p.netloc = List.map lowerChar p.netloc from rfl, List.mem_map] at hx1
      obtain ⟨y, hy, rfl⟩ := hx1
      rw [hpn] at hy
      exact ⟨y, hy, rfl⟩
    have hheadP : p.path.isEmpty = false →
        ∀ c, (if (if p.path.isEmpty = true then str "/" else p.path) ≠ str "/" ∧
          endsWithChar '/' (if p.path.isEmpty = true then str "/" else p.path) = true then
            rstripSlash (if p.path.isEmpty = true then str "/" else p.path)
          else (if p.path.isEmpty = true then str "/" else p.path)).head? = some c →
          u4.head? = some c := by
      intro hne c hc
      have hc1 : (if p.path.isEmpty = true then str "/" else p.path).head? = some c := by
        rw [← head?_of_pref _ _ hPpre h2]
        exact hc
      rw [if_neg (by simp [hne])] at hc1
      have hpne : p.path ≠ [] := by
        intro hnil
        rw [hnil] at hne
        exact Bool.noConfusion hne
      rw [← head?_of_pref _ _ hppre4 hpne]
      exact hc1
    refine ⟨?_, ?_, ?_, ?_, ?_, ?_, ?_, ?_, ?_, ?_, ?_, ?_, ?_, ?_, ?_, ?_⟩
    · dsimp only
      have hwf := splitScheme_wf ((u.dropWhile isC0OrSpace).filter
        (fun c => !isUnsafeUrlChar c))
      rw [hsp] at hwf
      dsimp only at hwf
      rw [← hps] at hwf
      exact hwf
    · dsimp only
      intro x hx
      obtain ⟨y, hy, rfl⟩ := hmemN x hx
      rw [isNetlocDelim_lower]
      exact hN0d y hy
    · dsimp only
      intro x hx
      obtain ⟨y, hy, rfl⟩ := hmemN x hx
      rw [isUnsafeUrlChar_lower]
      exact hN0u y hy
    · dsimp only
      split_ifs with hc
      · rw [← lower_drop, lower_lower, lower_drop]
      · exact lower_lower _
    · dsimp only
      rw [hpn]
      have hlok := checkNetlocBrackets_lower s.netloc hbr
      split_ifs with hc
      · obtain ⟨t, ht⟩ := List.isPrefixOf_iff_prefix.mp hc
        rw [← ht]
        rw [show ((str "www.") ++ t).drop 4 = t from by
          rw [show (4 : Nat) = (str "www.").length from rfl]
          exact List.drop_left _ _]
        apply checkNetlocBrackets_drop4
        rw [ht]
        exact hlok
      · exact hlok
    · exact h1
    · dsimp only
      intro x hx
      rcases hPmem x hx with rfl | hx2
      · decide
      · exact hnohash x hx2
    · dsimp only
      intro x hx
      rcases hPmem x hx with rfl | hx2
      · decide
      · exact hnoq x hx2
    · dsimp only
      intro x hx
      rcases hPmem x hx with rfl | hx2
      · decide
      · exact hnounsafe x hx2
    · exact h2
    · dsimp only
      by_cases hc : (if p.path.isEmpty = true then str "/" else p.path) ≠ str "/" ∧
          endsWithChar '/' (if p.path.isEmpty = true then str "/" else p.path) = true
      · rw [if_pos hc]
        exact Or.inr (rstripSlash_ends _)
      · rw [if_neg hc]
        by_cases hP1 : (if p.path.isEmpty = true then str "/" else p.path) = str "/"
        · exact Or.inl hP1
        · refine Or.inr ?_
          rw [Bool.eq_false_iff]
          intro hb
          exact hc ⟨hP1, hb⟩
    · exact h3
    · exact h4
    · dsimp only
      intro hS hN c hc
      by_cases hne : p.path.isEmpty = true
      · rw [if_neg (by simp [hne]), if_pos hne] at hc
        cases hc
        decide
      · have hu4head := hheadP (by simpa using hne) c hc
        rcases hcs with ⟨hnet, hN0, hu4⟩ | ⟨hnet, hN0, hu4⟩
        · rw [hu4] at hu4head
          have hdel := List.head?_dropWhile_not (fun c => !isNetlocDelim c) (u3.drop 2)
          rw [hu4head] at hdel
          simp only [Option.elim_some] at hdel
          have hdel2 : isNetlocDelim c = true := by
            cases hh : isNetlocDelim c with
            | false =>
              rw [hh] at hdel
              exact absurd hdel (by decide)
            | true => rfl
          rcases isNetlocDelim_cases c hdel2 with rfl | rfl | rfl
          · decide
          · exfalso
            rcases hPmem '?' (List.mem_of_mem_head? (by rw [hc]; rfl)) with he | hmem
            · exact absurd he (by decide)
            · exact hnoq _ hmem rfl
          · exfalso
            rcases hPmem '#' (List.mem_of_mem_head? (by rw [hc]; rfl)) with he | hmem
            · exact absurd he (by decide)
            · exact hnohash _ hmem rfl
        · have hrej : (splitScheme ((u.dropWhile isC0OrSpace).filter
              (fun c => !isUnsafeUrlChar c))).1 = [] := by
            rw [hsp]
            rw [hps] at hS
            exact hS
          have hu3eq : u3 = (u.dropWhile isC0OrSpace).filter
              (fun c => !isUnsafeUrlChar c) := by
            have := splitScheme_snd_of_rej _ hrej
            rw [hsp] at this
            exact this
          rw [hu4, hu3eq] at hu4head
          exact stripped_filter_head u c hu4head
    · dsimp only
      intro hS hN x hxc
      by_cases hne : p.path.isEmpty = true
      · rw [if_neg (by simp [hne]), if_pos hne]
        apply splitScheme_reject_head _ '/'
        · rfl
        · decide
      · have hnef : p.path.isEmpty = false := by simpa using hne
        have hpne : p.path ≠ [] := by
          intro hnil
          rw [hnil] at hnef
          exact Bool.noConfusion hnef
        rw [if_neg hne] at h2 ⊢
        have hPpp : (if p.path ≠ str "/" ∧ endsWithChar '/' p.path = true then
            rstripSlash p.path else p.path) <+: p.path := by
          split_ifs with hcnd
          · exact rstripSlash_pref _
          · exact List.prefix_refl _
        rcases hcs with ⟨hnet, hN0, hu4⟩ | ⟨hnet, hN0, hu4⟩
        · obtain ⟨ch, hch⟩ : ∃ ch, p.path.head? = some ch := by
            cases hpp : p.path with
            | nil => exact absurd hpp hpne
            | cons a b => exact ⟨a, rfl⟩
          have hu4h : u4.head? = some ch := by
            rw [← head?_of_pref _ _ hppre4 hpne]
            exact hch
          rw [hu4] at hu4h
          have hdel := List.head?_dropWhile_not (fun c => !isNetlocDelim c) (u3.drop 2)
          rw [hu4h] at hdel
          simp only [Option.elim_some] at hdel
          have hdel2 : isNetlocDelim ch = true := by
            cases hh : isNetlocDelim ch with
            | false =>
              rw [hh] at hdel
              exact absurd hdel (by decide)
            | true => rfl
          have hch2 : ch = '/' := by
            rcases isNetlocDelim_cases ch hdel2 with rfl | rfl | rfl
            · rfl
            · exact absurd rfl (hnoq _ (List.mem_of_mem_head? (by rw [hch]; rfl)))
            · exact absurd rfl (hnohash _ (List.mem_of_mem_head? (by rw [hch]; rfl)))
          subst hch2
          have hheadPP : (if p.path ≠ str "/" ∧ endsWithChar '/' p.path = true then
              rstripSlash p.path else p.path).head? = some '/' := by
            rw [head?_of_pref _ _ hPpp h2]
            exact hch
          apply splitScheme_reject_head _ '/'
          · rw [← head?_of_pref _ _ (List.prefix_append _ x) h2]
            exact hheadPP
          · decide
        · have hrej : (splitScheme ((u.dropWhile isC0OrSpace).filter
              (fun c => !isUnsafeUrlChar c))).1 = [] := by
            rw [hsp]
            rw [hps] at hS
            exact hS
          have hu3eq : u3 = (u.dropWhile isC0OrSpace).filter
              (fun c => !isUnsafeUrlChar c) := by
            have := splitScheme_snd_of_rej _ hrej
            rw [hsp] at this
            exact this
          apply splitScheme_reject_prefix _ _ ?_ hrej x hxc
          refine hPpp.trans ?_
          rw [← hu3eq, ← hu4]
          exact hppre4
    · dsimp only
      refine ⟨sortPairs (List.filter (fun kv => !isTrackingKey kv.1) (parseQsl p.query)),
        sortPairs_sorted _, ?_, rfl⟩
      intro kv hkv
      have hm := sortPairs_mem _ kv hkv
      rw [List.mem_filter] at hm
      simpa using hm.2

/-! ### Re-parse stability of the reassembled URL: helper lemmas showing
that the `urlunparse` output of normalized components parses back to the
same components. -/

theorem contains_false_not_mem (l : Str) (c : Char) (h : l.contains c = false) :
    ∀ x ∈ l, ¬x = c := by
  intro x hx he
  subst he
  have ht : l.contains x = true := List.elem_iff.mpr hx
  rw [h] at ht
  exact Bool.noConfusion ht

theorem dropWhile_eq_self_of_head (p : Char → Bool) (l : Str) (c : Char)
    (hc : l.head? = some c) (h : p c = false) : l.dropWhile p = l := by
  cases l with
  | nil => rfl
  | cons a t =>
    rw [List.head?_cons] at hc
    injection hc with hac
    subst hac
    simp [List.dropWhile_cons, h]

theorem takeWhile_cons_false (p : Char → Bool) (c : Char) (t : Str) (h : p c = false) :
    (c :: t).takeWhile p = [] := by
  simp [List.takeWhile_cons, h]

theorem takeWhile_append_all (p : Char → Bool) (b : Str) :
    ∀ (a : Str), (∀ x ∈ a, p x = true) → (a ++ b).takeWhile p = a ++ b.takeWhile p := by
  intro a
  induction a with
  | nil => intro _; rfl
  | cons x t ih =>
    intro h
    rw [List.cons_append, List.takeWhile_cons, if_pos (h x (by simp)), List.cons_append,
      ih (fun y hy => h y (by simp [hy]))]

theorem takeWhile_append_one (p : Char → Bool) (c : Char) (hc : p c = false) :
    ∀ (a : Str), (a ++ [c]).takeWhile p = a.takeWhile p := by
  intro a
  induction a with
  | nil => simp [List.takeWhile_cons, hc]
  | cons x t ih =>
    rw [List.cons_append, List.takeWhile_cons, List.takeWhile_cons]
    by_cases hx : p x = true
    · rw [if_pos hx, if_pos hx, ih]
    · rw [if_neg hx, if_neg hx]

theorem splitOnce_no_sep (sep : Char) (s : Str) (h : ∀ x ∈ s, ¬x = sep) :
    splitOnce sep s = (s, none) := by
  unfold splitOnce
  rw [List.findIdx?_eq_none_iff.mpr (fun x hx => by simpa using h x hx)]

theorem getLast?_cons_ne (a : Char) (l : Str) (h : l ≠ []) :
    (a :: l).getLast? = l.getLast? := by
  cases l with
  | nil => exact absurd rfl h
  | cons b t => exact List.getLast?_cons_cons

theorem endsWithChar_cons (c a : Char) (l : Str) (h : l ≠ []) :
    endsWithChar c (a :: l) = endsWithChar c l := by
  unfold endsWithChar
  rw [getLast?_cons_ne a l h]

theorem splitParams_id (p : Str)
    (h : (p.reverse.takeWhile (fun c => c ≠ '/')).contains ';' = false) :
    splitParams p = (p, []) := by
  unfold splitParams
  by_cases hc : p.contains '/' = true
  · rw [if_pos hc]
    dsimp only
    split
    · rfl
    · rename_i j hf
      exfalso
      obtain ⟨hlt, hget⟩ := findIdx?_found _ _ _ hf
      rw [List.get_eq_getElem] at hget
      have hmem := List.getElem_mem hlt
      rw [List.mem_reverse] at hmem
      exact contains_false_not_mem _ ';' h _ hmem (by simpa using hget)
  · rw [if_neg hc]
    have hcf : p.contains '/' = false := by
      cases hcc : p.contains '/' with
      | false => rfl
      | true => exact absurd hcc hc
    have hrev : p.reverse.takeWhile (fun c => c ≠ '/') = p.reverse := by
      refine (takeWhile_all p.reverse ?_).1
      intro x hx
      rw [List.mem_reverse] at hx
      simpa using contains_false_not_mem p '/' hcf x hx
    rw [hrev] at h
    split
    · rfl
    · rename_i j hf
      exfalso
      obtain ⟨hlt, hget⟩ := findIdx?_found _ _ _ hf
      rw [List.get_eq_getElem] at hget
      have hmem := List.getElem_mem hlt
      exact contains_false_not_mem _ ';' h _ (List.mem_reverse.mpr hmem)
        (by simpa using hget)

theorem isSchemeChar_facts (c : Char) (h : isSchemeChar c = true) :
    ¬c = ':' ∧ isUnsafeUrlChar c = false := by
  constructor
  · intro he
    subst he
    exact absurd h (by decide)
  · cases hx : isUnsafeUrlChar c with
    | false => rfl
    | true =>
      exfalso
      simp only [isUnsafeUrlChar, Bool.or_eq_true, decide_eq_true_eq] at hx
      rcases hx with (rfl | rfl) | rfl <;> exact absurd h (by decide)

theorem queryAllowed_facts (c : Char) (h : queryAllowed c = true) :
    ¬c = ':' ∧ ¬c = '#' ∧ isUnsafeUrlChar c = false := by
  refine ⟨?_, ?_, ?_⟩
  · intro he
    subst he
    exact absurd h (by decide)
  · intro he
    subst he
    exact absurd h (by decide)
  · cases hx : isUnsafeUrlChar c with
    | false => rfl
    | true =>
      exfalso
      simp only [isUnsafeUrlChar, Bool.or_eq_true, decide_eq_true_eq] at hx
      rcases hx with (rfl | rfl) | rfl <;> exact absurd h (by decide)

theorem isAsciiAlpha_not_c0 (c : Char) (h : isAsciiAlpha c = true) :
    isC0OrSpace c = false := by
  simp only [isAsciiAlpha, Bool.or_eq_true, Bool.and_eq_true, decide_eq_true_eq] at h
  simp only [isC0OrSpace, decide_eq_false_iff_not]
  intro hle
  have hn : c.val.toNat ≤ 32 := hle
  rcases h with ⟨h1, h2⟩ | ⟨h1, h2⟩
  · have h1n : 97 ≤ c.val.toNat := h1
    omega
  · have h1n : 65 ≤ c.val.toNat := h1
    omega

theorem elim_head_alpha (S : Str) (h : S.head?.elim false isAsciiAlpha = true) :
    ∃ c t, S = c :: t ∧ isAsciiAlpha c = true := by
  cases S with
  | nil => simp at h
  | cons c t => exact ⟨c, t, rfl, by simpa using h⟩

theorem intercalate_cons_two (s x y : Str) (l : List Str) :
    List.intercalate s (x :: y :: l) = x ++ s ++ List.intercalate s (y :: l) := by
  simp [List.intercalate, List.intersperse]

theorem queryAllowed_of_qp (c : Char) (h : qpAllowed c = true) : queryAllowed c = true := by
  unfold queryAllowed
  rw [h]
  rfl

theorem urlencodePairs_allowed (l : List (Str × Str)) :
    ∀ x ∈ urlencodePairs l, queryAllowed x = true := by
  induction l with
  | nil =>
    intro x hx
    exact absurd hx (List.not_mem_nil x)
  | cons kv rest ih =>
    cases rest with
    | nil =>
      intro x hx
      have hx2 : x ∈ quotePlus kv.1 ++ '=' :: quotePlus kv.2 := by
        simpa [urlencodePairs, List.intercalate] using hx
      rcases List.mem_append.mp hx2 with hm | hm
      · exact queryAllowed_of_qp x (quotePlus_allowed _ x hm)
      · rcases List.mem_cons.mp hm with rfl | hm2
        · decide
        · exact queryAllowed_of_qp x (quotePlus_allowed _ x hm2)
    | cons kv2 rest2 =>
      intro x hx
      unfold urlencodePairs at hx
      simp only [List.map_cons] at hx
      rw [intercalate_cons_two] at hx
      rcases List.mem_append.mp hx with hm | hm
      · rcases List.mem_append.mp hm with hm2 | hm2
        · rcases List.mem_append.mp hm2 with hm3 | hm3
          · exact queryAllowed_of_qp x (quotePlus_allowed _ x hm3)
          · rcases List.mem_cons.mp hm3 with rfl | hm4
            · decide
            · exact queryAllowed_of_qp x (quotePlus_allowed _ x hm4)
        · rcases List.mem_cons.mp hm2 with rfl | hm3
          · decide
          · exact absurd hm3 (List.not_mem_nil x)
      · apply ih
        unfold urlencodePairs
        rw [List.map_cons]
        exact hm

theorem dslash_append (x : Str) (hx : ∀ c, x.head? = some c → ¬c = '/') :
    ∀ (P : Str), P ≠ [] → (['/', '/'].isPrefixOf P) = false →
      (['/', '/'].isPrefixOf (P ++ x)) = false := by
  intro P hP hdd
  cases P with
  | nil => exact absurd rfl hP
  | cons a t =>
    cases t with
    | nil =>
      by_cases ha : a = '/'
      · subst ha
        cases hxx : x with
        | nil => decide
        | cons c r =>
          have hcne : ¬c = '/' := hx c (by rw [hxx]; rfl)
          have hbeq : ('/' == c) = false := beq_eq_false_iff_ne.mpr (fun he => hcne he.symm)
          rw [show (('/' :: ([] : Str)) ++ (c :: r)) = '/' :: c :: r from rfl]
          rw [show (['/', '/'].isPrefixOf ('/' :: c :: r)) =
            (('/' == '/') && (('/' == c) && List.isPrefixOf ([] : Str) r)) from rfl]
          rw [hbeq]
          simp
      · have hbeq : ('/' == a) = false := beq_eq_false_iff_ne.mpr (fun he => ha he.symm)
        rw [show ((a :: ([] : Str)) ++ x) = a :: x from rfl]
        rw [show (['/', '/'].isPrefixOf (a :: x)) =
          (('/' == a) && List.isPrefixOf (['/'] : Str) x) from rfl]
        rw [hbeq]
        rfl
    | cons b r =>
      rw [show ((a :: b :: r) ++ x) = a :: b :: (r ++ x) from rfl]
      rw [show (['/', '/'].isPrefixOf (a :: b :: (r ++ x))) =
        (('/' == a) && (('/' == b) && List.isPrefixOf ([] : Str) (r ++ x))) from rfl]
      rw [show (['/', '/'].isPrefixOf (a :: b :: r)) =
        (('/' == a) && (('/' == b) && List.isPrefixOf ([] : Str) r)) from rfl] at hdd
      rw [show (List.isPrefixOf ([] : Str) (r ++ x)) = true from by
        cases h2 : r ++ x <;> rfl]
      rw [show (List.isPrefixOf ([] : Str) r) = true from by cases r <;> rfl] at hdd
      exact hdd

theorem splitScheme_mk (S rest : Str) (hne : S ≠ [])
    (hall : S.all isSchemeChar = true)
    (hhd : S.head?.elim false isAsciiAlpha = true)
    (hlow : lower S = S) :
    splitScheme (S ++ ':' :: rest) = (S, rest) := by
  have hnc : ∀ x ∈ S, ¬x = ':' := by
    intro x hx
    rw [List.all_eq_true] at hall
    exact (isSchemeChar_facts x (hall x hx)).1
  unfold splitScheme
  rw [findIdx_sep_append ':' rest S hnc]
  dsimp only
  have hcond : 0 < S.length ∧ ((S ++ ':' :: rest).head?.elim false isAsciiAlpha) = true ∧
      ((S ++ ':' :: rest).take S.length).all isSchemeChar = true := by
    refine ⟨?_, ?_, ?_⟩
    · cases S with
      | nil => exact absurd rfl hne
      | cons a t => simp
    · rw [← head?_of_pref S (S ++ ':' :: rest) (List.prefix_append _ _) hne]
      exact hhd
    · rw [List.take_left]
      exact hall
  rw [if_pos hcond]
  rw [List.take_left, hlow]
  have hd : (S ++ ':' :: rest).drop (S.length + 1) = rest := by
    rw [show S.length + 1 = (S ++ [':']).length by simp]
    rw [show S ++ ':' :: rest = (S ++ [':']) ++ rest by simp]
    exact List.drop_left _ _
  rw [hd]

theorem clean_url_identity (v : Str) (c : Char) (hc : v.head? = some c)
    (hC0 : isC0OrSpace c = false) (hunsf : ∀ x ∈ v, isUnsafeUrlChar x = false) :
    (v.dropWhile isC0OrSpace).filter (fun x => !isUnsafeUrlChar x) = v := by
  rw [dropWhile_eq_self_of_head isC0OrSpace v c hc hC0]
  apply List.filter_eq_self.mpr
  intro a ha
  simp [hunsf a ha]

theorem qsuf_facts (Q : Str) (hqA : ∀ x ∈ Q, queryAllowed x = true) :
    ∀ x ∈ (if !Q.isEmpty then '?' :: Q else ([] : Str)),
      ¬x = ':' ∧ ¬x = '#' ∧ isUnsafeUrlChar x = false := by
  intro x hx
  split_ifs at hx
  · rcases List.mem_cons.mp hx with rfl | hxq
    · exact ⟨by decide, by decide, by decide⟩
    · exact queryAllowed_facts x (hqA x hxq)
  · exact absurd hx (List.not_mem_nil x)

theorem qsuf_head (Q : Str) :
    ∀ c, (if !Q.isEmpty then '?' :: Q else ([] : Str)).head? = some c → ¬c = '/' := by
  intro c hc
  split_ifs at hc
  · rw [List.head?_cons] at hc
    injection hc with h1
    subst h1
    decide
  · exact Option.noConfusion hc

theorem frag_split (P Q : Str) (hP : ∀ x ∈ P, ¬x = '#')
    (hqA : ∀ x ∈ Q, queryAllowed x = true) :
    splitOnce '#' (P ++ (if !Q.isEmpty then '?' :: Q else [])) =
      (P ++ (if !Q.isEmpty then '?' :: Q else []), none) := by
  apply splitOnce_no_sep
  intro x hx
  rcases List.mem_append.mp hx with hm | hm
  · exact hP x hm
  · exact (qsuf_facts Q hqA x hm).2.1

theorem qsuf_split (P Q : Str) (hP : ∀ x ∈ P, ¬x = '?') :
    splitOnce '?' (P ++ (if !Q.isEmpty then '?' :: Q else [])) =
      (P, if !Q.isEmpty then some Q else none) ∧
      (if !Q.isEmpty then some Q else none).getD ([] : Str) = Q := by
  by_cases hq : (!Q.isEmpty) = true
  · rw [if_pos hq, if_pos hq]
    exact ⟨splitOnce_append '?' P Q hP, rfl⟩
  · rw [if_neg hq, if_neg hq, List.append_nil]
    refine ⟨splitOnce_no_sep '?' P hP, ?_⟩
    cases Q with
    | nil => rfl
    | cons a t => exact absurd rfl hq

theorem netloc_split_lemma (N t : Str) (hnd : ∀ x ∈ N, isNetlocDelim x = false) :
    splitNetloc ('/' :: '/' :: (N ++ '/' :: t)) = (N, '/' :: t) := by
  unfold splitNetloc
  rw [show (('/' :: '/' :: (N ++ '/' :: t)).drop 2) = N ++ '/' :: t from rfl]
  rw [takeWhile_append_all _ ('/' :: t) N (fun x hx => by simp [hnd x hx])]
  rw [takeWhile_cons_false _ '/' t (by decide)]
  rw [List.append_nil]
  rw [dropWhile_append_all _ N ('/' :: t) (fun x hx => by simp [hnd x hx])]
  rw [List.dropWhile_cons, if_neg (by decide)]

theorem splitScheme_core (S base qsuf : Str) (hbase : base.head? = some '/')
    (hwf : S = [] ∨ (lower S = S ∧ S.all isSchemeChar = true ∧
      S.head?.elim false isAsciiAlpha = true)) :
    splitScheme ((if !S.isEmpty then S ++ ':' :: base else base) ++ qsuf) =
      (S, base ++ qsuf) := by
  rcases hwf with rfl | ⟨hlow, hall, hhd⟩
  · rw [if_neg (by decide)]
    have hbne : base ≠ [] := by
      intro h0
      rw [h0] at hbase
      exact Option.noConfusion hbase
    apply splitScheme_reject_head _ '/'
    · rw [← head?_of_pref base (base ++ qsuf) (List.prefix_append _ _) hbne]
      exact hbase
    · decide
  · have hSne : S ≠ [] := by
      intro h0
      rw [h0] at hhd
      simp at hhd
    have hSb : (!S.isEmpty) = true := by
      cases S with
      | nil => exact absurd rfl hSne
      | cons a t => rfl
    rw [if_pos hSb, show (S ++ ':' :: base) ++ qsuf = S ++ ':' :: (base ++ qsuf) from by
      simp]
    exact splitScheme_mk S (base ++ qsuf) hSne hall hhd hlow

theorem urlunsplit_netloc_form (S N Q X : Str)
    (hb : (!N.isEmpty || (!S.isEmpty && usesNetloc.contains S &&
      !(['/', '/'].isPrefixOf X))) = true)
    (hXh : X.head? = some '/') :
    urlunsplitM S N X Q [] =
      (if !S.isEmpty then S ++ ':' :: ('/' :: '/' :: (N ++ X))
        else '/' :: '/' :: (N ++ X)) ++ (if !Q.isEmpty then '?' :: Q else []) := by
  unfold urlunsplitM
  dsimp only
  rw [if_neg (show ¬((!List.isEmpty ([] : Str)) = true) from by decide)]
  rw [if_pos hb]
  rw [if_neg (show ¬((!X.isEmpty) = true ∧ X.head? ≠ some '/') from
    fun hcon => hcon.2 hXh)]
  by_cases hq : (!Q.isEmpty) = true
  · rw [if_pos hq, if_pos hq]
  · rw [if_neg hq, if_neg hq, List.append_nil]

theorem urlunsplit_netloc_slash (S N Q X : Str)
    (hb : (!N.isEmpty || (!S.isEmpty && usesNetloc.contains S &&
      !(['/', '/'].isPrefixOf X))) = true)
    (hXne : (!X.isEmpty) = true) (hXh : ¬X.head? = some '/') :
    urlunsplitM S N X Q [] =
      (if !S.isEmpty then S ++ ':' :: ('/' :: '/' :: (N ++ '/' :: X))
        else '/' :: '/' :: (N ++ '/' :: X)) ++
      (if !Q.isEmpty then '?' :: Q else []) := by
  unfold urlunsplitM
  dsimp only
  rw [if_neg (show ¬((!List.isEmpty ([] : Str)) = true) from by decide)]
  rw [if_pos hb]
  rw [if_pos (show ((!X.isEmpty) = true ∧ X.head? ≠ some '/') from ⟨hXne, hXh⟩)]
  by_cases hq : (!Q.isEmpty) = true
  · rw [if_pos hq, if_pos hq]
  · rw [if_neg hq, if_neg hq, List.append_nil]

theorem urlunsplit_plain_form (S P Q : Str)
    (hb : ¬(!(([] : Str).isEmpty) || (!S.isEmpty && usesNetloc.contains S &&
      !(['/', '/'].isPrefixOf P))) = true) :
    urlunsplitM S [] P Q [] =
      (if !S.isEmpty then S ++ ':' :: P else P) ++
      (if !Q.isEmpty then '?' :: Q else []) := by
  unfold urlunsplitM
  dsimp only
  rw [if_neg (show ¬((!List.isEmpty ([] : Str)) = true) from by decide)]
  rw [if_neg hb]
  by_cases hq : (!Q.isEmpty) = true
  · rw [if_pos hq, if_pos hq]
  · rw [if_neg hq, if_neg hq, List.append_nil]

theorem reparse_netloc_case (S N P Pd Q qsuf : Str)
    (hqs : qsuf = if !Q.isEmpty then '?' :: Q else [])
    (hwf : S = [] ∨ (lower S = S ∧ S.all isSchemeChar = true ∧
      S.head?.elim false isAsciiAlpha = true))
    (hnd : ∀ x ∈ N, isNetlocDelim x = false)
    (hnu : ∀ x ∈ N, isUnsafeUrlChar x = false)
    (hnl : lower N = N)
    (hnb : checkNetlocBrackets N = Except.ok ())
    (hnw : (str "www.").isPrefixOf N = false)
    (hph : ∀ x ∈ P, ¬x = '#')
    (hpq : ∀ x ∈ P, ¬x = '?')
    (hpu : ∀ x ∈ P, isUnsafeUrlChar x = false)
    (hpe : P ≠ [])
    (hps : P = str "/" ∨ endsWithChar '/' P = false)
    (hpp : (P.reverse.takeWhile (fun c => c ≠ '/')).contains ';' = false)
    (hqA : ∀ x ∈ Q, queryAllowed x = true)
    (hqnorm : urlencodePairs (sortPairs ((parseQsl Q).filter
      (fun kv => !isTrackingKey kv.1))) = Q)
    (hPdcase : Pd = P ∨ (Pd = '/' :: P ∧ ¬P.head? = some '/'))
    (hPdh : Pd.head? = some '/') :
    normParts ((if !S.isEmpty then S ++ ':' :: ('/' :: '/' :: (N ++ Pd))
        else '/' :: '/' :: (N ++ Pd)) ++ qsuf) = Except.ok ⟨S, N, Pd, Q⟩ := by
  obtain ⟨pt, rfl⟩ : ∃ pt, Pd = '/' :: pt := by
    cases Pd with
    | nil => exact Option.noConfusion hPdh
    | cons a t =>
      rw [List.head?_cons] at hPdh
      injection hPdh with h1
      exact ⟨t, by rw [h1]⟩
  have hPdmem : ∀ x ∈ '/' :: pt, x = '/' ∨ x ∈ P := by
    intro x hx
    rcases hPdcase with heq | ⟨heq, hne⟩
    · rw [heq] at hx
      exact Or.inr hx
    · rw [heq] at hx
      rcases List.mem_cons.mp hx with rfl | h2
      · exact Or.inl rfl
      · exact Or.inr h2
  have hPdF : ∀ x ∈ '/' :: pt, ¬x = '#' ∧ ¬x = '?' ∧ isUnsafeUrlChar x = false := by
    intro x hx
    rcases hPdmem x hx with rfl | hx2
    · exact ⟨by decide, by decide, by decide⟩
    · exact ⟨hph x hx2, hpq x hx2, hpu x hx2⟩
  have hqsF : ∀ x ∈ qsuf, ¬x = ':' ∧ ¬x = '#' ∧ isUnsafeUrlChar x = false := by
    rw [hqs]
    exact qsuf_facts Q hqA
  have hEunsafe : ∀ x ∈ ((if !S.isEmpty then S ++ ':' :: ('/' :: '/' :: (N ++ '/' :: pt))
      else '/' :: '/' :: (N ++ '/' :: pt)) ++ qsuf), isUnsafeUrlChar x = false := by
    intro x hx
    have hbasemem : ∀ y ∈ '/' :: '/' :: (N ++ '/' :: pt), isUnsafeUrlChar y = false := by
      intro y hy
      rcases List.mem_cons.mp hy with rfl | hy2
      · decide
      · rcases List.mem_cons.mp hy2 with rfl | hy3
        · decide
        · rcases List.mem_append.mp hy3 with hy4 | hy4
          · exact hnu y hy4
          · exact (hPdF y hy4).2.2
    rcases List.mem_append.mp hx with hm | hm
    · split_ifs at hm with hS
      · rcases List.mem_append.mp hm with hm2 | hm2
        · rcases hwf with rfl | ⟨hlow, hall, hhd⟩
          · exact absurd hm2 (List.not_mem_nil x)
          · rw [List.all_eq_true] at hall
            exact (isSchemeChar_facts x (hall x hm2)).2
        · rcases List.mem_cons.mp hm2 with rfl | hm3
          · decide
          · exact hbasemem x hm3
      · exact hbasemem x hm
    · exact (hqsF x hm).2.2
  have hEhead : ∃ c, ((if !S.isEmpty then S ++ ':' :: ('/' :: '/' :: (N ++ '/' :: pt))
      else '/' :: '/' :: (N ++ '/' :: pt)) ++ qsuf).head? = some c ∧
      isC0OrSpace c = false := by
    rcases hwf with rfl | ⟨hlow, hall, hhd⟩
    · refine ⟨'/', ?_, by decide⟩
      rw [if_neg (show ¬((!List.isEmpty ([] : Str)) = true) from by decide)]
      rfl
    · obtain ⟨c0, t0, rfl, halpha⟩ := elim_head_alpha S hhd
      refine ⟨c0, ?_, isAsciiAlpha_not_c0 c0 halpha⟩
      rw [if_pos (show (!List.isEmpty (c0 :: t0)) = true from rfl)]
      rfl
  obtain ⟨ch, hEh, hEc0⟩ := hEhead
  have hclean := clean_url_identity _ ch hEh hEc0 hEunsafe
  have hss : splitScheme ((if !S.isEmpty then S ++ ':' :: ('/' :: '/' :: (N ++ '/' :: pt))
      else '/' :: '/' :: (N ++ '/' :: pt)) ++ qsuf) =
      (S, ('/' :: '/' :: (N ++ '/' :: pt)) ++ qsuf) :=
    splitScheme_core S ('/' :: '/' :: (N ++ '/' :: pt)) qsuf rfl hwf
  have hpre : (['/', '/'].isPrefixOf (('/' :: '/' :: (N ++ '/' :: pt)) ++ qsuf)) = true := by
    rw [show ('/' :: '/' :: (N ++ '/' :: pt)) ++ qsuf =
      '/' :: '/' :: ((N ++ '/' :: pt) ++ qsuf) from rfl]
    rw [show (['/', '/'].isPrefixOf ('/' :: '/' :: ((N ++ '/' :: pt) ++ qsuf))) =
      (('/' == '/') && (('/' == '/') &&
        List.isPrefixOf ([] : Str) ((N ++ '/' :: pt) ++ qsuf))) from rfl]
    rw [show (List.isPrefixOf ([] : Str) ((N ++ '/' :: pt) ++ qsuf)) = true from by
      cases h2 : (N ++ '/' :: pt) ++ qsuf <;> rfl]
    simp
  have hnet : splitNetloc (('/' :: '/' :: (N ++ '/' :: pt)) ++ qsuf) =
      (N, ('/' :: pt) ++ qsuf) := by
    rw [show ('/' :: '/' :: (N ++ '/' :: pt)) ++ qsuf =
      '/' :: '/' :: (N ++ '/' :: (pt ++ qsuf)) from by simp]
    rw [show (('/' :: pt) ++ qsuf) = '/' :: (pt ++ qsuf) from rfl]
    exact netloc_split_lemma N (pt ++ qsuf) hnd
  have hPdq : ∀ x ∈ '/' :: pt, ¬x = '?' := fun x hx => (hPdF x hx).2.1
  have hPdhash : ∀ x ∈ '/' :: pt, ¬x = '#' := fun x hx => (hPdF x hx).1
  have hfrag : splitOnce '#' (('/' :: pt) ++ qsuf) = (('/' :: pt) ++ qsuf, none) := by
    rw [hqs]
    exact frag_split ('/' :: pt) Q hPdhash hqA
  have hqspl1 : splitOnce '?' (('/' :: pt) ++ qsuf) =
      ('/' :: pt, if !Q.isEmpty then some Q else none) := by
    rw [hqs]
    exact (qsuf_split ('/' :: pt) Q hPdq).1
  have hqspl2 : (if !Q.isEmpty then some Q else none).getD ([] : Str) = Q :=
    (qsuf_split ('/' :: pt) Q hPdq).2
  have hsplitE : urlsplitM ((if !S.isEmpty then S ++ ':' :: ('/' :: '/' :: (N ++ '/' :: pt))
      else '/' :: '/' :: (N ++ '/' :: pt)) ++ qsuf) =
      Except.ok ⟨S, N, '/' :: pt, Q, []⟩ := by
    unfold urlsplitM
    simp only [bind, Except.bind]
    rw [hclean, hss]
    dsimp only
    rw [if_pos hpre, hnet]
    dsimp only
    rw [hnb]
    dsimp only
    rw [hfrag]
    dsimp only
    rw [hqspl1]
    dsimp only
    rw [hqspl2, Option.getD_none]
  have hPdparam : (('/' :: pt).reverse.takeWhile (fun c => c ≠ '/')).contains ';' = false := by
    rcases hPdcase with heq | ⟨heq, hne⟩
    · rw [heq]
      exact hpp
    · rw [heq]
      rw [show ('/' :: P).reverse = P.reverse ++ ['/'] from by simp]
      rw [takeWhile_append_one _ '/' (by simp) P.reverse]
      exact hpp
  have hparseE : urlparseM ((if !S.isEmpty then S ++ ':' :: ('/' :: '/' :: (N ++ '/' :: pt))
      else '/' :: '/' :: (N ++ '/' :: pt)) ++ qsuf) =
      Except.ok ⟨S, N, '/' :: pt, [], Q, []⟩ := by
    unfold urlparseM
    rw [hsplitE]
    simp only [bind, Except.bind]
    split_ifs with hg
    · rw [splitParams_id ('/' :: pt) hPdparam]
    · rfl
  have hPdstay : ¬('/' :: pt ≠ str "/" ∧ endsWithChar '/' ('/' :: pt) = true) := by
    rcases hPdcase with heq | ⟨heq, hne⟩
    · rw [heq]
      rcases hps with hps1 | hps2
      · intro hcon
        exact hcon.1 hps1
      · intro hcon
        rw [hps2] at hcon
        exact Bool.noConfusion hcon.2
    · rcases hps with hps1 | hps2
      · exfalso
        apply hne
        rw [hps1]
        decide
      · rw [heq]
        intro hcon
        rw [endsWithChar_cons '/' '/' P hpe, hps2] at hcon
        exact Bool.noConfusion hcon.2
  unfold normParts
  rw [hparseE]
  simp only [bind, Except.bind]
  rw [hnl]
  rw [if_neg (show ¬(((str "www.").isPrefixOf N) = true) from by simp [hnw])]
  rw [if_neg (show ¬((List.isEmpty ('/' :: pt)) = true) from by simp)]
  rw [if_neg hPdstay]
  rw [hqnorm]

theorem reparse_plain_case (S P Q qsuf : Str)
    (hqs : qsuf = if !Q.isEmpty then '?' :: Q else [])
    (hwf : S = [] ∨ (lower S = S ∧ S.all isSchemeChar = true ∧
      S.head?.elim false isAsciiAlpha = true))
    (hph : ∀ x ∈ P, ¬x = '#')
    (hpq : ∀ x ∈ P, ¬x = '?')
    (hpu : ∀ x ∈ P, isUnsafeUrlChar x = false)
    (hpe : P ≠ [])
    (hps : P = str "/" ∨ endsWithChar '/' P = false)
    (hpp : (P.reverse.takeWhile (fun c => c ≠ '/')).contains ';' = false)
    (hdd : (['/', '/'].isPrefixOf P) = false)
    (hhd : S = [] → ∀ c, P.head? = some c → isC0OrSpace c = false)
    (hns : S = [] → ∀ x, (∀ ch ∈ x, ¬ch = ':') → splitScheme (P ++ x) = ([], P ++ x))
    (hqA : ∀ x ∈ Q, queryAllowed x = true)
    (hqnorm : urlencodePairs (sortPairs ((parseQsl Q).filter
      (fun kv => !isTrackingKey kv.1))) = Q) :
    normParts ((if !S.isEmpty then S ++ ':' :: P else P) ++ qsuf) =
      Except.ok ⟨S, ([] : Str), P, Q⟩ := by
  have hqsF : ∀ x ∈ qsuf, ¬x = ':' ∧ ¬x = '#' ∧ isUnsafeUrlChar x = false := by
    rw [hqs]
    exact qsuf_facts Q hqA
  have hEunsafe : ∀ x ∈ ((if !S.isEmpty then S ++ ':' :: P else P) ++ qsuf),
      isUnsafeUrlChar x = false := by
    intro x hx
    rcases List.mem_append.mp hx with hm | hm
    · split_ifs at hm with hS
      · rcases List.mem_append.mp hm with hm2 | hm2
        · rcases hwf with rfl | ⟨hlow, hall, hhd2⟩
          · exact absurd hm2 (List.not_mem_nil x)
          · rw [List.all_eq_true] at hall
            exact (isSchemeChar_facts x (hall x hm2)).2
        · rcases List.mem_cons.mp hm2 with rfl | hm3
          · decide
          · exact hpu x hm3
      · exact hpu x hm
    · exact (hqsF x hm).2.2
  have hEhead : ∃ c, ((if !S.isEmpty then S ++ ':' :: P else P) ++ qsuf).head? = some c ∧
      isC0OrSpace c = false := by
    rcases hwf with rfl | ⟨hlow, hall, hhd2⟩
    · rw [if_neg (show ¬((!List.isEmpty ([] : Str)) = true) from by decide)]
      cases hpcase : P with
      | nil => exact absurd hpcase hpe
      | cons p0 pt =>
        exact ⟨p0, rfl, hhd rfl p0 (by rw [hpcase]; rfl)⟩
    · obtain ⟨c0, t0, rfl, halpha⟩ := elim_head_alpha S hhd2
      refine ⟨c0, ?_, isAsciiAlpha_not_c0 c0 halpha⟩
      rw [if_pos (show (!List.isEmpty (c0 :: t0)) = true from rfl)]
      rfl
  obtain ⟨ch, hEh, hEc0⟩ := hEhead
  have hclean := clean_url_identity _ ch hEh hEc0 hEunsafe
  have hqcolon : ∀ y ∈ qsuf, ¬y = ':' := fun y hy => (hqsF y hy).1
  have hss : splitScheme ((if !S.isEmpty then S ++ ':' :: P else P) ++ qsuf) =
      (S, P ++ qsuf) := by
    rcases hwf with rfl | ⟨hlow, hall, hhd2⟩
    · rw [if_neg (show ¬((!List.isEmpty ([] : Str)) = true) from by decide)]
      exact hns rfl qsuf hqcolon
    · have hSne : S ≠ [] := by
        intro h0
        rw [h0] at hhd2
        simp at hhd2
      have hSb : (!S.isEmpty) = true := by
        cases S with
        | nil => exact absurd rfl hSne
        | cons a t => rfl
      rw [if_pos hSb, show (S ++ ':' :: P) ++ qsuf = S ++ ':' :: (P ++ qsuf) from by simp]
      exact splitScheme_mk S (P ++ qsuf) hSne hall hhd2 hlow
  have hqh : ∀ c, qsuf.head? = some c → ¬c = '/' := by
    rw [hqs]
    exact qsuf_head Q
  have hddE : (['/', '/'].isPrefixOf (P ++ qsuf)) = false := dslash_append qsuf hqh P hpe hdd
  have hfrag : splitOnce '#' (P ++ qsuf) = (P ++ qsuf, none) := by
    rw [hqs]
    exact frag_split P Q hph hqA
  have hqspl1 : splitOnce '?' (P ++ qsuf) = (P, if !Q.isEmpty then some Q else none) := by
    rw [hqs]
    exact (qsuf_split P Q hpq).1
  have hqspl2 : (if !Q.isEmpty then some Q else none).getD ([] : Str) = Q :=
    (qsuf_split P Q hpq).2
  have hsplitE : urlsplitM ((if !S.isEmpty then S ++ ':' :: P else P) ++ qsuf) =
      Except.ok ⟨S, [], P, Q, []⟩ := by
    unfold urlsplitM
    simp only [bind, Except.bind]
    rw [hclean, hss]
    dsimp only
    rw [if_neg (show ¬((['/', '/'].isPrefixOf (P ++ qsuf)) = true) from by simp [hddE])]
    dsimp only
    rw [show checkNetlocBrackets ([] : Str) = Except.ok () from rfl]
    dsimp only
    rw [hfrag]
    dsimp only
    rw [hqspl1]
    dsimp only
    rw [hqspl2, Option.getD_none]
  have hparseE : urlparseM ((if !S.isEmpty then S ++ ':' :: P else P) ++ qsuf) =
      Except.ok ⟨S, [], P, [], Q, []⟩ := by
    unfold urlparseM
    rw [hsplitE]
    simp only [bind, Except.bind]
    split_ifs with hg
    · rw [splitParams_id P hpp]
    · rfl
  unfold normParts
  rw [hparseE]
  simp only [bind, Except.bind]
  rw [show lower ([] : Str) = ([] : Str) from rfl]
  rw [if_neg (show ¬(((str "www.").isPrefixOf ([] : Str)) = true) from by decide)]
  have hPie : P.isEmpty = false := by
    cases P with
    | nil => exact absurd rfl hpe
    | cons a t => rfl
  rw [if_neg (show ¬((List.isEmpty P) = true) from by simp [hPie])]
  have hPstay : ¬(P ≠ str "/" ∧ endsWithChar '/' P = true) := by
    rcases hps with h1 | h2
    · intro hcon
      exact hcon.1 h1
    · intro hcon
      rw [h2] at hcon
      exact Bool.noConfusion hcon.2
  rw [if_neg hPstay]
  rw [hqnorm]

theorem reparse_stable (parts : NormParts) (hs : StableParts parts) :
    urlunsplitM parts.scheme parts.netloc parts.path parts.query [] ≠ [] ∧
    ∃ P2, normParts (urlunsplitM parts.scheme parts.netloc parts.path parts.query []) =
        Except.ok ⟨parts.scheme, parts.netloc, P2, parts.query⟩ ∧
      urlunsplitM parts.scheme parts.netloc P2 parts.query [] =
        urlunsplitM parts.scheme parts.netloc parts.path parts.query [] := by
  obtain ⟨S, N, P, Q⟩ := parts
  obtain ⟨hwf, hnd, hnu, hnl, hnb, hnw, hph, hpq, hpu, hpe, hps, hpp, hpd, hphd,
    hpns, hqe⟩ := hs
  dsimp only at hwf hnd hnu hnl hnb hnw hph hpq hpu hpe hps hpp hpd hphd hpns hqe ⊢
  obtain ⟨L, hLsort, hLtrack, hQeq⟩ := hqe
  have hqA : ∀ x ∈ Q, queryAllowed x = true := by
    rw [hQeq]
    exact urlencodePairs_allowed L
  have hqnorm : urlencodePairs (sortPairs ((parseQsl Q).filter
      (fun kv => !isTrackingKey kv.1))) = Q := by
    rw [hQeq, parseQsl_urlencodePairs,
      List.filter_eq_self.mpr (fun kv hkv => by simp [hLtrack kv hkv]),
      sortPairs_of_sorted L hLsort]
  by_cases hb : (!N.isEmpty || (!S.isEmpty && usesNetloc.contains S &&
      !(['/', '/'].isPrefixOf P))) = true
  · by_cases hsl : P.head? = some '/'
    · have hVeq := urlunsplit_netloc_form S N Q P hb hsl
      have hnormE := reparse_netloc_case S N P P Q
        (if !Q.isEmpty then '?' :: Q else []) rfl hwf hnd hnu hnl hnb hnw hph hpq hpu
        hpe hps hpp hqA hqnorm (Or.inl rfl) hsl
      rw [hVeq]
      refine ⟨?_, P, hnormE, hVeq⟩
      intro hnil
      obtain ⟨h1, h2⟩ := List.append_eq_nil.mp hnil
      by_cases hS : (!S.isEmpty) = true
      · rw [if_pos hS] at h1
        obtain ⟨h3, h4⟩ := List.append_eq_nil.mp h1
        exact List.noConfusion h4
      · rw [if_neg hS] at h1
        exact List.noConfusion h1
    · have hpf : (['/', '/'].isPrefixOf ('/' :: P)) = false := by
        cases hpp2 : P with
        | nil => exact absurd hpp2 hpe
        | cons c t =>
          have hcne : ¬c = '/' := by
            intro he
            apply hsl
            rw [hpp2, he]
            rfl
          have hbeq : ('/' == c) = false := beq_eq_false_iff_ne.mpr (fun he => hcne he.symm)
          rw [show (['/', '/'].isPrefixOf ('/' :: c :: t)) =
            (('/' == '/') && (('/' == c) && List.isPrefixOf ([] : Str) t)) from rfl]
          rw [hbeq]
          simp
      have hb2 : (!N.isEmpty || (!S.isEmpty && usesNetloc.contains S &&
          !(['/', '/'].isPrefixOf ('/' :: P)))) = true := by
        cases hN : (!N.isEmpty) with
        | true => rfl
        | false =>
          rw [hN] at hb
          have hX : (!S.isEmpty && usesNetloc.contains S &&
              !(['/', '/'].isPrefixOf P)) = true := by
            simpa using hb
          rw [Bool.and_eq_true] at hX
          obtain ⟨h2, h3⟩ := hX
          rw [Bool.and_eq_true] at h2
          obtain ⟨h4, h5⟩ := h2
          simp only [h4, h5, hpf]
          decide
      have hPb : (!P.isEmpty) = true := by
        cases P with
        | nil => exact absurd rfl hpe
        | cons a t => rfl
      have hVeq := urlunsplit_netloc_slash S N Q P hb hPb hsl
      have hnormE := reparse_netloc_case S N P ('/' :: P) Q
        (if !Q.isEmpty then '?' :: Q else []) rfl hwf hnd hnu hnl hnb hnw hph hpq hpu
        hpe hps hpp hqA hqnorm (Or.inr ⟨rfl, hsl⟩) rfl
      have hre := urlunsplit_netloc_form S N Q ('/' :: P) hb2 rfl
      rw [hVeq]
      refine ⟨?_, '/' :: P, hnormE, hre⟩
      intro hnil
      obtain ⟨h1, h2⟩ := List.append_eq_nil.mp hnil
      by_cases hS : (!S.isEmpty) = true
      · rw [if_pos hS] at h1
        obtain ⟨h3, h4⟩ := List.append_eq_nil.mp h1
        exact List.noConfusion h4
      · rw [if_neg hS] at h1
        exact List.noConfusion h1
  · have hbf : (!N.isEmpty || (!S.isEmpty && usesNetloc.contains S &&
        !(['/', '/'].isPrefixOf P))) = false := by
      cases hx : (!N.isEmpty || (!S.isEmpty && usesNetloc.contains S &&
          !(['/', '/'].isPrefixOf P))) with
      | false => rfl
      | true => exact absurd hx hb
    rw [Bool.or_eq_false_iff] at hbf
    obtain ⟨hN1, hSc⟩ := hbf
    have hNnil : N = [] := by
      cases N with
      | nil => rfl
      | cons a t => exact Bool.noConfusion hN1
    subst hNnil
    have hdd : (['/', '/'].isPrefixOf P) = false := by
      cases hx : ['/', '/'].isPrefixOf P with
      | false => rfl
      | true => exact absurd ⟨rfl, hx⟩ hpd
    have hVeq := urlunsplit_plain_form S P Q hb
    have hnormE := reparse_plain_case S P Q (if !Q.isEmpty then '?' :: Q else []) rfl
      hwf hph hpq hpu hpe hps hpp hdd (fun hS => hphd hS rfl) (fun hS => hpns hS rfl)
      hqA hqnorm
    rw [hVeq]
    refine ⟨?_, P, hnormE, hVeq⟩
    intro hnil
    obtain ⟨h1, h2⟩ := List.append_eq_nil.mp hnil
    by_cases hS : (!S.isEmpty) = true
    · rw [if_pos hS] at h1
      obtain ⟨h3, h4⟩ := List.append_eq_nil.mp h1
      exact List.noConfusion h4
    · rw [if_neg hS] at h1
      exact hpe h1

/-- C3 counterexample: the Identity Normalizer is not idempotent on every
URL.  On `"http://www.www.e.com/"` the first pass lowercases the netloc and
strips one `"www."` prefix, leaving netloc `"www.e.com"`; the second pass
strips another `"www."`, so normalizing the already-normalized URL changes
the string again. -/
theorem normalize_url_not_idempotent :
    normalize_url (normalize_url (some (str "http://www.www.e.com/"))) ≠
      normalize_url (some (str "http://www.www.e.com/")) := by
  decide

/-- C3 (amended): the Identity Normalizer is idempotent on every URL whose
normalized components satisfy the four stability side conditions — the
normalized netloc does not still start with `"www."`, the normalized path
is non-empty, the last path segment carries no `;` params, and the path is
not `//`-prefixed while the netloc is empty.  For such a URL,
`normalize_url (normalize_url u) = normalize_url u`. -/
theorem normalize_url_idempotent_amended (u : Str) (parts : NormParts)
    (hp : normParts u = Except.ok parts)
    (h1 : (str "www.").isPrefixOf parts.netloc = false)
    (h2 : parts.path ≠ [])
    (h3 : (parts.path.reverse.takeWhile (fun c => c ≠ '/')).contains ';' = false)
    (h4 : ¬(parts.netloc = [] ∧ ['/', '/'].isPrefixOf parts.path)) :
    normalize_url (normalize_url (some u)) = normalize_url (some u) := by
  by_cases hu : u.isEmpty = true
  · simp only [normalize_url]
    rw [if_pos hu]
  · obtain ⟨hVne, P2, hnp2, hre⟩ :=
      reparse_stable parts (normParts_stable u parts hp h1 h2 h3 h4)
    have hV : normalize_url (some u) =
        some (urlunsplitM parts.scheme parts.netloc parts.path parts.query []) := by
      simp only [normalize_url]
      rw [if_neg hu, hp]
    rw [hV]
    simp only [normalize_url]
    have hVie : (urlunsplitM parts.scheme parts.netloc parts.path parts.query []).isEmpty
        = false := by
      cases hvv : urlunsplitM parts.scheme parts.netloc parts.path parts.query [] with
      | nil => exact absurd hvv hVne
      | cons a t => rfl
    rw [if_neg (by simp [hVie]), hnp2]
    dsimp only
    rw [hre]

/-- C3 witness: the amended idempotence theorem applied at the concrete URL
`"https://WWW.Example.com/path"`, whose normalized components
`("https", "example.com", "/path", "")` satisfy all four side
conditions. -/
theorem normalize_url_idempotent_amended_witness :
    normalize_url (normalize_url (some (str "https://WWW.Example.com/path"))) =
      normalize_url (some (str "https://WWW.Example.com/path")) :=
  normalize_url_idempotent_amended (str "https://WWW.Example.com/path")
    ⟨str "https", str "example.com", str "/path", []⟩ (by decide) (by decide)
    (by decide) (by decide) (by decide)

end WebScraperX
